import Mathlib

/-!
# ENS name normalization: a verified model of the `z-ens-normalize` core

The repository ships a single C header, `src/include/ens_normalize.h`,
declaring the three entry points `ens_normalize`, `ens_beautify` and
`ens_process` over a byte-buffer ABI.  The normalization core itself is
described by the specification (ENSIP-15 style tokenization, mapping,
label splitting, validation and assembly).  This file embeds that core
as executable Lean definitions, parameterized over the rule tables of
spec section 3, and proves the documented properties.

Conventions: codepoints are `Nat` (Unicode scalar values); byte strings
are `List Nat` with each element `< 256` in practice.  "Modelled from
the spec" marks definitions whose implementation is absent from `src/`
(everything except the ABI constants, which come from the header).
-/

namespace EnsNorm

/-- Unicode scalar value predicate: in range and not a surrogate. -/
def ScalarCp (c : Nat) : Prop := c < 0x110000 ∧ ¬(0xD800 ≤ c ∧ c ≤ 0xDFFF)

instance (c : Nat) : Decidable (ScalarCp c) := by unfold ScalarCp; infer_instance

/-- UTF-8 encoding of a single scalar value (egress boundary of the pipeline). -/
def utf8EncodeChar (c : Nat) : List Nat :=
  if c < 0x80 then [c]
  else if c < 0x800 then [0xC0 + c / 64, 0x80 + c % 64]
  else if c < 0x10000 then [0xE0 + c / 4096, 0x80 + c / 64 % 64, 0x80 + c % 64]
  else [0xF0 + c / 262144, 0x80 + c / 4096 % 64, 0x80 + c / 64 % 64, 0x80 + c % 64]

/-- UTF-8 encoding of a codepoint sequence. -/
def utf8Encode (cps : List Nat) : List Nat := (cps.map utf8EncodeChar).flatten

/-- Continuation-byte test for the strict UTF-8 decoder. -/
def contByte (b : Nat) : Bool := decide (0x80 ≤ b) && decide (b < 0xC0)

/-- Decode the tail of a two-byte UTF-8 sequence with lead byte `b`. -/
def utf8Tail2 (b : Nat) : List Nat → Option (Nat × List Nat)
  | b1 :: r =>
    if contByte b1 then
      let v := (b - 0xC0) * 64 + (b1 - 0x80)
      if 0x80 ≤ v then some (v, r) else none
    else none
  | [] => none

/-- Decode the tail of a three-byte UTF-8 sequence with lead byte `b`. -/
def utf8Tail3 (b : Nat) : List Nat → Option (Nat × List Nat)
  | b1 :: b2 :: r =>
    if contByte b1 && contByte b2 then
      let v := (b - 0xE0) * 4096 + (b1 - 0x80) * 64 + (b2 - 0x80)
      if 0x800 ≤ v ∧ ¬(0xD800 ≤ v ∧ v ≤ 0xDFFF) then some (v, r) else none
    else none
  | _ => none

/-- Decode the tail of a four-byte UTF-8 sequence with lead byte `b`. -/
def utf8Tail4 (b : Nat) : List Nat → Option (Nat × List Nat)
  | b1 :: b2 :: b3 :: r =>
    if contByte b1 && contByte b2 && contByte b3 then
      let v := (b - 0xF0) * 262144 + (b1 - 0x80) * 4096 + (b2 - 0x80) * 64 + (b3 - 0x80)
      if 0x10000 ≤ v ∧ v < 0x110000 then some (v, r) else none
    else none
  | _ => none

/-- Decode a single UTF-8 sequence from the front of a byte string,
returning the scalar value and the remaining bytes.  Strict: rejects
overlong forms, surrogates, out-of-range values and truncated input. -/
def utf8DecodeOne : List Nat → Option (Nat × List Nat)
  | [] => none
  | b :: rest =>
    if b < 0x80 then some (b, rest)
    else if b < 0xC0 then none
    else if b < 0xE0 then utf8Tail2 b rest
    else if b < 0xF0 then utf8Tail3 b rest
    else if b < 0xF8 then utf8Tail4 b rest
    else none

/-- Fuel-driven UTF-8 decoding loop (fuel bounds the number of decoded
codepoints; `utf8Decode` supplies the byte count, which always suffices). -/
def utf8DecodeF : Nat → List Nat → Option (List Nat)
  | _, [] => some []
  | 0, _ :: _ => none
  | fuel + 1, b :: rest =>
    match utf8DecodeOne (b :: rest) with
    | none => none
    | some (c, r) =>
      match utf8DecodeF fuel r with
      | none => none
      | some cps => some (c :: cps)

/-- Strict UTF-8 decoder (ingress boundary), per the `InvalidUtf8`
error of spec section 7. -/
def utf8Decode (bs : List Nat) : Option (List Nat) := utf8DecodeF bs.length bs

/-! ## Rule tables and data model (spec sections 2 and 3)

Modelled from the spec: the rule tables, tokenizer, label splitter,
label validator and output assembler are described by the specification
but their implementation is not under `src/` (the repository holds only
the ABI header), so they are embedded here following the spec's words,
parameterized over the rule-table data. -/

/-- Internal error taxonomy of spec section 7 (collapsed to `-3` at the
ABI).  `asciiHyphen` covers the hyphen placement rule of the ASCII fast
path (spec section 4.3 step 2), which the taxonomy does not name. -/
inductive Err where
  | disallowedCharacter (cp : Nat)
  | emptyLabel
  | leadingCombiningMark
  | combiningMarkAfterEmoji
  | combiningMarkInDisallowedGroup
  | disallowedCharacterInGroup (cp : Nat)
  | nsmTooMany
  | nsmDuplicate
  | fencedLeading
  | fencedTrailing
  | fencedAdjacent
  | wholeScriptConfusable (g : String)
  | asciiHyphen
deriving DecidableEq, Repr

/-- An emoji-trie terminal: the matched codepoint sequence together with
its canonical (FE0F-stripped) and beautified (FE0F-preserving)
projections (spec section 3, `Token.Emoji`). -/
structure EmojiEntry where
  pattern : List Nat
  canonical : List Nat
  beautified : List Nat
deriving DecidableEq, Repr

/-- A script group: name, primary and secondary codepoint sets, whether
combining marks are allowed, and the whole-script-confusable set when
the group participates in that table (spec section 3, `Group`). -/
structure Group where
  name : String
  primary : Nat → Bool
  secondary : Nat → Bool
  cmAllowed : Bool
  confusable : Option (Nat → Bool)

/-- The rule tables of spec section 3, plus the NFC function the spec
delegates to the Unicode standard (section 9): mapping table, ignored
set, disallowed set, combining marks, non-spacing marks with their
maximal run length, fenced set, groups, and emoji trie entries. -/
structure RuleTables where
  mapped : Nat → Option (List Nat)
  isIgnored : Nat → Bool
  isDisallowed : Nat → Bool
  isCM : Nat → Bool
  isNSM : Nat → Bool
  nsmMax : Nat
  isFenced : Nat → Bool
  groups : List Group
  emoji : List EmojiEntry
  nfc : List Nat → List Nat

/-- Codepoints appearing in some emoji-trie pattern. -/
def emojiCpB (T : RuleTables) (c : Nat) : Bool :=
  T.emoji.any (fun e => e.pattern.contains c)

/-- A codepoint the tokenizer passes through untouched: not ignored,
not mapped, not disallowed, and not an emoji-trie codepoint. -/
def plainB (T : RuleTables) (c : Nat) : Bool :=
  !T.isIgnored c && (T.mapped c).isNone && !T.isDisallowed c && !emojiCpB T c

/-- A codepoint that may appear in a label's text runs after tokenizing
and splitting: plain, a Unicode scalar, and not the label separator. -/
def OutCp (T : RuleTables) (c : Nat) : Prop :=
  plainB T c = true ∧ ScalarCp c ∧ c ≠ 0x2E

/-! ## Tokenizer (spec section 4.1) -/

/-- Longest-match lookup in the emoji list at the start of `cps`
(spec section 4.1: greedy, longest match wins; empty patterns do not
match).  Earlier entries win ties, which is immaterial in a trie. -/
def bestEmoji : List EmojiEntry → List Nat → Option EmojiEntry
  | [], _ => none
  | e :: rest, cps =>
    let r := bestEmoji rest cps
    if !e.pattern.isEmpty && e.pattern.isPrefixOf cps then
      match r with
      | none => some e
      | some f => if f.pattern.length ≤ e.pattern.length then some e else some f
    else r

/-- Token stream element: a single text codepoint or a matched emoji.
Adjacent text atoms are the spec's coalesced `Text` tokens; working at
atom granularity is equivalent and keeps the splitter simple. -/
inductive Atom where
  | text (c : Nat)
  | emoji (e : EmojiEntry)
deriving DecidableEq, Repr

/-- Fuel-driven tokenizer loop (spec section 4.1): at each cursor try
the longest emoji match, else apply ignored / mapped / disallowed /
passthrough to one codepoint.  Fuel bounds the number of consumed
codepoints; `tokenize` supplies the input length, which suffices. -/
def tokenizeF (T : RuleTables) : Nat → List Nat → Except Err (List Atom)
  | _, [] => .ok []
  | 0, _ :: _ => .ok []
  | fuel + 1, c :: rest =>
    match bestEmoji T.emoji (c :: rest) with
    | some e =>
      match tokenizeF T fuel (List.drop (e.pattern.length - 1) rest) with
      | .error err => .error err
      | .ok atoms => .ok (.emoji e :: atoms)
    | none =>
      if T.isIgnored c then tokenizeF T fuel rest
      else
        match T.mapped c with
        | some cs =>
          match tokenizeF T fuel rest with
          | .error err => .error err
          | .ok atoms => .ok (cs.map Atom.text ++ atoms)
        | none =>
          if T.isDisallowed c then .error (.disallowedCharacter c)
          else
            match tokenizeF T fuel rest with
            | .error err => .error err
            | .ok atoms => .ok (.text c :: atoms)

/-- Tokenize a codepoint sequence (spec section 4.1). -/
def tokenize (T : RuleTables) (cps : List Nat) : Except Err (List Atom) :=
  tokenizeF T cps.length cps

/-! ## Label splitter (spec section 4.2) -/

/-- Label-separator test: the text atom `U+002E`. -/
def Atom.isSep : Atom → Bool
  | .text c => c == 0x2E
  | .emoji _ => false

/-- Split a nonempty atom stream at separators; `n` separators yield
`n + 1` (possibly empty) labels. -/
def splitCore : List Atom → List (List Atom)
  | [] => [[]]
  | a :: rest =>
    if a.isSep then [] :: splitCore rest
    else
      match splitCore rest with
      | l :: ls => (a :: l) :: ls
      | [] => [[a]]

/-- Label splitter (spec section 4.2): splitting occurs post-mapping on
the separator codepoint.  An empty token stream is the empty name and
has zero labels, matching the ENSIP-15 reference behavior the spec
defers to (normalizing the empty string succeeds with empty output). -/
def splitAtoms (atoms : List Atom) : List (List Atom) :=
  if atoms.isEmpty then [] else splitCore atoms

/-! ## Label segments -/

/-- A label segment: a maximal run of text codepoints, or one emoji. -/
inductive Seg where
  | txt (cps : List Nat)
  | emo (e : EmojiEntry)
deriving DecidableEq, Repr

/-- Group a label's atoms into maximal text runs and emoji. -/
def toSegs : List Atom → List Seg
  | [] => []
  | .emoji e :: rest => .emo e :: toSegs rest
  | .text c :: rest =>
    match toSegs rest with
    | .txt cs :: ss => .txt (c :: cs) :: ss
    | ss => .txt [c] :: ss

/-- Atom list of one segment. -/
def segAtoms : Seg → List Atom
  | .txt cs => cs.map Atom.text
  | .emo e => [Atom.emoji e]

/-- Flatten segments back to atoms. -/
def segsToAtoms (segs : List Seg) : List Atom := (segs.map segAtoms).flatten

/-- Apply NFC to one segment's text (emoji are opaque to NFC). -/
def nfcSeg (T : RuleTables) : Seg → Seg
  | .txt cs => .txt (T.nfc cs)
  | .emo e => .emo e

/-- Post-mapping NFC over a label (spec section 4.3 step 1 and
section 4.4: text contributes its NFC-normalized codepoints). -/
def nfcSegs (T : RuleTables) (segs : List Seg) : List Seg := segs.map (nfcSeg T)

/-- Text codepoints of one segment. -/
def segTxt : Seg → List Nat
  | .txt cs => cs
  | .emo _ => []

/-- The working sequence `S` of spec section 4.3: all text codepoints
of the label, in order. -/
def labelText (segs : List Seg) : List Nat := (segs.map segTxt).flatten

/-- Segment shape test. -/
def Seg.isTxt : Seg → Bool
  | .txt _ => true
  | .emo _ => false

/-- Does the label contain an emoji token? -/
def hasEmojiSeg (segs : List Seg) : Bool := segs.any (fun s => !s.isTxt)

/-! ## Label validator (spec section 4.3) -/

/-- The ASCII group's allowed set: `[a-z0-9-]` (spec section 3). -/
def asciiAllowedCp (c : Nat) : Bool :=
  (decide (0x61 ≤ c) && decide (c ≤ 0x7A)) || (decide (0x30 ≤ c) && decide (c ≤ 0x39)) ||
    c == 0x2D

/-- Is every codepoint in the ASCII range? -/
def allAsciiB (cps : List Nat) : Bool := cps.all (fun c => decide (c < 0x80))

/-- A label may not begin with a combining mark (section 4.3 step 5). -/
def cmLeadOk (T : RuleTables) (segs : List Seg) : Bool :=
  match segs with
  | .txt (c :: _) :: _ => !T.isCM c
  | _ => true

/-- A combining mark may not immediately follow an emoji token
(section 4.3 step 5). -/
def cmAfterEmojiOk (T : RuleTables) : List Seg → Bool
  | .emo _ :: .txt (c :: cs) :: rest => !T.isCM c && cmAfterEmojiOk T (.txt (c :: cs) :: rest)
  | _ :: rest => cmAfterEmojiOk T rest
  | [] => true

/-- No two equal adjacent codepoints satisfying `p` (NSM duplicate rule,
section 4.3 step 6). -/
def noDupAdjB (p : Nat → Bool) : List Nat → Bool
  | a :: b :: rest => !(a == b && p a) && noDupAdjB p (b :: rest)
  | _ => true

/-- No run of more than `k` consecutive codepoints satisfying `p`,
scanning with the current run length in `count`. -/
def runScan (p : Nat → Bool) (k : Nat) : Nat → List Nat → Bool
  | _, [] => true
  | count, c :: rest =>
    if p c then decide (count + 1 ≤ k) && runScan p k (count + 1) rest
    else runScan p k 0 rest

/-- NSM rules of section 4.3 step 6, after NFC: no duplicate adjacent
NSM and no run longer than `nsmMax`. -/
def nsmErr (T : RuleTables) (S : List Nat) : Option Err :=
  if !noDupAdjB T.isNSM S then some .nsmDuplicate
  else if !runScan T.isNSM T.nsmMax 0 S then some .nsmTooMany
  else none

/-- Fenced adjacency and trailing scan (section 4.3 step 7). -/
def fencedErrAux (p : Nat → Bool) : List Nat → Option Err
  | [] => none
  | [c] => if p c then some .fencedTrailing else none
  | a :: b :: rest => if p a && p b then some .fencedAdjacent else fencedErrAux p (b :: rest)

/-- Fenced-character rules of section 4.3 step 7: no leading, trailing
or adjacent fenced codepoints. -/
def fencedErr (p : Nat → Bool) : List Nat → Option Err
  | [] => none
  | c :: rest => if p c then some .fencedLeading else fencedErrAux p (c :: rest)

/-- Union of a group's primary and secondary sets. -/
def Group.containsCp (g : Group) (c : Nat) : Bool := g.primary c || g.secondary c

/-- The distinct non-combining-mark codepoints of `S` (section 4.3
step 4a/4b). -/
def uniqNonCM (T : RuleTables) (S : List Nat) : List Nat :=
  (S.filter (fun c => !T.isCM c)).dedup

/-- First codepoint of `S` no group admits, reported on resolution
failure (section 4.3 step 4c). -/
def firstUngrouped (T : RuleTables) (S : List Nat) : Nat :=
  (S.find? (fun c => !T.isCM c && T.groups.all (fun g => !g.containsCp c))).getD (S.headD 0)

/-- Group resolution (section 4.3 step 4): candidates cover the
non-CM codepoints with primary plus secondary; the first candidate
whose primary set alone covers them wins, else the first candidate. -/
def resolveGroup (T : RuleTables) (S : List Nat) : Except Err Group :=
  let u := uniqNonCM T S
  match T.groups.filter (fun g => u.all g.containsCp) with
  | [] => .error (.disallowedCharacterInGroup (firstUngrouped T S))
  | g0 :: gs =>
    match (g0 :: gs).find? (fun g => u.all g.primary) with
    | some g => .ok g
    | none => .ok g0

/-- The group identity a validated label carries (spec section 3:
distinguished `ASCII` and `Emoji` groups, or a resolved table group). -/
inductive GroupSel where
  | ascii
  | emojiOnly
  | grp (g : Group)

/-- A validated label: its group identity and its NFC-normalized
segments. -/
structure VLabel where
  sel : GroupSel
  segs : List Seg

/-- Per-label checks of spec section 4.3 on NFC-normalized segments, in
the listed order: ASCII fast path (step 2), emoji-only label (step 3),
group resolution (step 4), combining-mark rules (step 5), NSM rules
(step 6), fenced rules (step 7), whole-script confusables (step 8). -/
def checkSegs (T : RuleTables) (segs : List Seg) : Except Err GroupSel :=
  let S := labelText segs
  if allAsciiB S && !hasEmojiSeg segs then
    match S.find? (fun c => !asciiAllowedCp c) with
    | some c => .error (.disallowedCharacterInGroup c)
    | none =>
      if S.head? == some 0x2D then .error .asciiHyphen
      else if S.getLast? == some 0x2D then .error .asciiHyphen
      else if S[2]? == some 0x2D && S[3]? == some 0x2D then .error .asciiHyphen
      else .ok .ascii
  else if S.isEmpty then .ok .emojiOnly
  else
    match resolveGroup T S with
    | .error e => .error e
    | .ok g =>
      if !cmLeadOk T segs then .error .leadingCombiningMark
      else if !cmAfterEmojiOk T segs then .error .combiningMarkAfterEmoji
      else if !g.cmAllowed && S.any T.isCM then .error .combiningMarkInDisallowedGroup
      else
        match nsmErr T S with
        | some e => .error e
        | none =>
          match fencedErr T.isFenced S with
          | some e => .error e
          | none =>
            match g.confusable with
            | some conf =>
              if S.all conf then .error (.wholeScriptConfusable g.name)
              else .ok (.grp g)
            | none => .ok (.grp g)

/-- Validate one label (spec sections 4.2 and 4.3): an empty label is
rejected; otherwise segment, apply NFC, and run the checks. -/
def validateLabel (T : RuleTables) (atoms : List Atom) : Except Err VLabel :=
  if atoms.isEmpty then .error .emptyLabel
  else
    match checkSegs T (nfcSegs T (toSegs atoms)) with
    | .error e => .error e
    | .ok sel => .ok ⟨sel, nfcSegs T (toSegs atoms)⟩

/-- Effectful map over a list, stopping at the first error (labels are
validated left to right, spec section 7). -/
def mapExcept {α β : Type} (f : α → Except Err β) : List α → Except Err (List β)
  | [] => .ok []
  | a :: rest =>
    match f a with
    | .error e => .error e
    | .ok b =>
      match mapExcept f rest with
      | .error e => .error e
      | .ok bs => .ok (b :: bs)

/-- The core pipeline: tokenize, split into labels, validate each label
(spec section 2 data flow). -/
def pipeline (T : RuleTables) (cps : List Nat) : Except Err (List VLabel) :=
  match tokenize T cps with
  | .error e => .error e
  | .ok atoms => mapExcept (validateLabel T) (splitAtoms atoms)

/-! ## Output assembler (spec section 4.4) -/

/-- Output mode: canonical normalized form or beautified display form. -/
inductive Mode where
  | norm
  | beaut
deriving DecidableEq, Repr

/-- The beautify-only Greek-xi transform: small xi to capital xi. -/
def xiSwap (c : Nat) : Nat := if c == 0x3BE then 0x39E else c

/-- Inverse of the xi transform: maps uppercase xi back to small xi
(used to state how the two output modes relate). -/
def xiDown (c : Nat) : Nat := if c == 0x39E then 0x3BE else c

/-- Does the label belong to the Greek group (for the xi rule)? -/
def VLabel.greek : VLabel → Bool
  | ⟨.grp g, _⟩ => g.name == "Greek"
  | _ => false

/-- Render one segment (spec section 4.4): text contributes its
codepoints (xi-swapped in beautify mode within Greek-group labels);
emoji contribute the canonical or beautified projection. -/
def renderSeg (mode : Mode) (greek : Bool) : Seg → List Nat
  | .txt cs =>
    match mode with
    | .norm => cs
    | .beaut => if greek then cs.map xiSwap else cs
  | .emo e =>
    match mode with
    | .norm => e.canonical
    | .beaut => e.beautified

/-- Render one label's codepoints. -/
def renderLabel (mode : Mode) (v : VLabel) : List Nat :=
  (v.segs.map (renderSeg mode v.greek)).flatten

/-- Join label renderings with the separator `U+002E`. -/
def joinDots : List (List Nat) → List Nat
  | [] => []
  | [l] => l
  | l :: r :: rest => l ++ 0x2E :: joinDots (r :: rest)

/-- Split a codepoint sequence at the label separator `U+002E`
(inverse of `joinDots` on separator-free labels). -/
def splitSepCore : List Nat → List (List Nat)
  | [] => [[]]
  | c :: rest =>
    if c == 0x2E then [] :: splitSepCore rest
    else
      match splitSepCore rest with
      | [] => [[c]]
      | l :: ls => (c :: l) :: ls

/-- Assemble the full output codepoint sequence (spec section 4.4). -/
def renderAll (mode : Mode) (ls : List VLabel) : List Nat :=
  joinDots (ls.map (renderLabel mode))

/-- Normalization at codepoint level. -/
def normalizeCps (T : RuleTables) (cps : List Nat) : Except Err (List Nat) :=
  match pipeline T cps with
  | .error e => .error e
  | .ok ls => .ok (renderAll .norm ls)

/-- Beautification at codepoint level. -/
def beautifyCps (T : RuleTables) (cps : List Nat) : Except Err (List Nat) :=
  match pipeline T cps with
  | .error e => .error e
  | .ok ls => .ok (renderAll .beaut ls)

/-- Byte-level normalization: decode UTF-8, run the pipeline, encode. -/
def normalizeStr (T : RuleTables) (bytes : List Nat) : Option (List Nat) :=
  match utf8Decode bytes with
  | none => none
  | some cps =>
    match normalizeCps T cps with
    | .error _ => none
    | .ok out => some (utf8Encode out)

/-- Byte-level beautification. -/
def beautifyStr (T : RuleTables) (bytes : List Nat) : Option (List Nat) :=
  match utf8Decode bytes with
  | none => none
  | some cps =>
    match beautifyCps T cps with
    | .error _ => none
    | .ok out => some (utf8Encode out)

/-! ## ABI surface (`src/include/ens_normalize.h` and spec section 6)

The return codes are those documented in the header: `0` success,
`-1` out of memory, `-3` other error, `-4` output buffer too small, and
for `ens_process` also `-5` beautified buffer too small.  The model has
no allocation, so `-1` never arises.  The length parameter carries the
capacity on entry and the written (success) or required (too small)
byte count on return (spec section 6). -/

/-- Result of `ens_normalize` / `ens_beautify`: return code, bytes
written to the output buffer, and the value of `*output_len`. -/
structure AbiResult where
  ret : Int
  out : List Nat
  outLen : Nat
deriving DecidableEq, Repr

/-- Shared single-buffer call shape: a failed computation returns `-3`
with nothing written; a result that fits is written with code `0`; a
result too large reports `-4` and the required size. -/
def abiCall (res : Option (List Nat)) (cap : Nat) : AbiResult :=
  match res with
  | none => ⟨-3, [], cap⟩
  | some bytes =>
    if bytes.length ≤ cap then ⟨0, bytes, bytes.length⟩
    else ⟨-4, [], bytes.length⟩

/-- Model of `ens_normalize` (header lines 10-22). -/
def ens_normalize (T : RuleTables) (input : List Nat) (cap : Nat) : AbiResult :=
  abiCall (normalizeStr T input) cap

/-- Model of `ens_beautify` (header lines 24-36). -/
def ens_beautify (T : RuleTables) (input : List Nat) (cap : Nat) : AbiResult :=
  abiCall (beautifyStr T input) cap

/-- Result of `ens_process`: return code, then bytes and length for the
normalized and the beautified buffers. -/
structure ProcResult where
  ret : Int
  nOut : List Nat
  nLen : Nat
  bOut : List Nat
  bLen : Nat
deriving DecidableEq, Repr

/-- Model of `ens_process` (header lines 38-55): one pipeline pass
produces both forms; `-4` reports the normalized buffer too small,
`-5` the beautified buffer too small. -/
def ens_process (T : RuleTables) (input : List Nat) (ncap bcap : Nat) : ProcResult :=
  match utf8Decode input with
  | none => ⟨-3, [], ncap, [], bcap⟩
  | some cps =>
    match pipeline T cps with
    | .error _ => ⟨-3, [], ncap, [], bcap⟩
    | .ok ls =>
      let nb := utf8Encode (renderAll .norm ls)
      let bb := utf8Encode (renderAll .beaut ls)
      if nb.length ≤ ncap then
        if bb.length ≤ bcap then ⟨0, nb, nb.length, bb, bb.length⟩
        else ⟨-5, nb, nb.length, [], bb.length⟩
      else ⟨-4, [], nb.length, [], bcap⟩

/-! ## A concrete rule-table instance

A small but structurally faithful table: uppercase folding, fullwidth
stop mapping, the Greek-xi mapping, an ignored variation selector, a
disallowed codepoint, one combining mark with a toy composition
(a + grave = a-grave), a fenced apostrophe, Latin and Greek groups, and
the mage ZWJ emoji with FE0F-full and FE0F-free trie entries. -/

/-- Mapping table: `A`-`Z` fold to `a`-`z`, fullwidth stop to `.`,
capital xi to small xi; emoji-trie codepoints map to nothing so stray
occurrences outside a trie match vanish (they never reach text). -/
def mappedA (c : Nat) : Option (List Nat) :=
  if 0x41 ≤ c ∧ c ≤ 0x5A then some [c + 0x20]
  else if c = 0xFF0E then some [0x2E]
  else if c = 0x39E then some [0x3BE]
  else if c = 0x1F9D9 ∨ c = 0x200D ∨ c = 0x2642 then some []
  else none

/-- Ignored set: the variation selector FE0F (spec section 4.1: a stray
FE0F outside an emoji is ignored). -/
def ignoredA (c : Nat) : Bool := c == 0xFE0F

/-- Disallowed set: underscore, as a sample disallowed codepoint. -/
def disallowedA (c : Nat) : Bool := c == 0x5F

/-- Combining marks: the combining grave accent. -/
def cmA (c : Nat) : Bool := c == 0x300

/-- Non-spacing marks (a subset of the combining marks). -/
def nsmA (c : Nat) : Bool := c == 0x300

/-- Fenced set: the apostrophe. -/
def fencedA (c : Nat) : Bool := c == 0x27

/-- Latin group: `a`-`z` and a-grave primary, apostrophe secondary. -/
def groupLatin : Group :=
  ⟨"Latin", fun c => (decide (0x61 ≤ c) && decide (c ≤ 0x7A)) || c == 0xE0,
    fun c => c == 0x27, true, none⟩

/-- Greek group: the lowercase Greek letters, combining marks barred. -/
def groupGreek : Group :=
  ⟨"Greek", fun c => decide (0x3B1 ≤ c) && decide (c ≤ 0x3C9),
    fun _ => false, false, none⟩

/-- Mage ZWJ male-sign emoji, FE0F-full trie entry. -/
def mageEmoji : EmojiEntry :=
  ⟨[0x1F9D9, 0x200D, 0x2642, 0xFE0F], [0x1F9D9, 0x200D, 0x2642],
    [0x1F9D9, 0x200D, 0x2642, 0xFE0F]⟩

/-- Mage ZWJ male-sign emoji, FE0F-free trie entry (same projections). -/
def mageEmojiShort : EmojiEntry :=
  ⟨[0x1F9D9, 0x200D, 0x2642], [0x1F9D9, 0x200D, 0x2642],
    [0x1F9D9, 0x200D, 0x2642, 0xFE0F]⟩

/-- Toy conformant NFC for the concrete table's repertoire: composes
`a` followed by combining grave into a-grave; everything else in the
table's sets is composition-inert, so no other step applies. -/
def nfcToy : List Nat → List Nat
  | a :: b :: rest =>
    if a == 0x61 && b == 0x300 then 0xE0 :: nfcToy rest
    else a :: nfcToy (b :: rest)
  | l => l

/-- Adjacent `a` + combining grave pairs, the only composable pair in
the toy repertoire. -/
def pairFreeB : List Nat → Bool
  | a :: b :: rest => !(a == 0x61 && b == 0x300) && pairFreeB (b :: rest)
  | _ => true

/-- The concrete rule tables. -/
def envA : RuleTables where
  mapped := mappedA
  isIgnored := ignoredA
  isDisallowed := disallowedA
  isCM := cmA
  isNSM := nsmA
  nsmMax := 4
  isFenced := fencedA
  groups := [groupLatin, groupGreek]
  emoji := [mageEmoji, mageEmojiShort]
  nfc := nfcToy

/-- The UTF-8 bytes of `"🧙‍♂️.eth"`: mage, zero-width joiner, male
sign, variation selector FE0F, then `".eth"`. -/
def mageInput : List Nat :=
  [0xF0, 0x9F, 0xA7, 0x99, 0xE2, 0x80, 0x8D, 0xE2, 0x99, 0x82, 0xEF, 0xB8, 0x8F,
    0x2E, 0x65, 0x74, 0x68]

/-! ## Rule-table invariants

`EnvOK` collects the invariants of a well-formed rule-table bundle:
the declared invariants of spec section 3 (validity of table entries)
together with the structural properties of the official ENS tables the
spec compiles (canonical and beautified emoji forms re-match in the
trie with the same canonical projection, NFC preserves validity and is
idempotent and splits at composition-inert codepoints, the uppercase
xi maps back to lowercase xi, emoji codepoints never survive as text,
and the allowed ASCII set is free of marks and fenced codepoints). -/

/-- Is `c` the head of some entry's canonical projection? -/
def canonHead (T : RuleTables) (c : Nat) : Prop :=
  ∃ g ∈ T.emoji, g.canonical.head? = some c

/-- Head condition for re-tokenization: the next codepoint is either no
emoji-trie codepoint at all, or begins an emoji's canonical form. -/
def HeadOK (T : RuleTables) (l : List Nat) : Prop :=
  ∀ c, l.head? = some c → emojiCpB T c = false ∨ canonHead T c

/-- No two adjacent text segments (labels produced by `toSegs` and kept
by the pipeline always alternate). -/
def altTxtB : List Seg → Bool
  | a :: b :: rest => !(a.isTxt && b.isTxt) && altTxtB (b :: rest)
  | _ => true

/-- Invariants of a validated label's segments: alternation, and each
text run nonempty, NFC-fixed and made of `OutCp` codepoints; each emoji
entry from the table. -/
def SegsOK (T : RuleTables) (segs : List Seg) : Prop :=
  altTxtB segs = true ∧
  (∀ cs, Seg.txt cs ∈ segs → cs ≠ [] ∧ T.nfc cs = cs ∧ ∀ c ∈ cs, OutCp T c) ∧
  (∀ e, Seg.emo e ∈ segs → e ∈ T.emoji)

/-- Invariants of the tokenizer's output stream: text codepoints are
plain scalars or the separator; emoji entries come from the table. -/
def AtomsOK (T : RuleTables) (atoms : List Atom) : Prop :=
  (∀ c, Atom.text c ∈ atoms → (plainB T c = true ∧ ScalarCp c) ∨ c = 0x2E) ∧
  (∀ e, Atom.emoji e ∈ atoms → e ∈ T.emoji)

/-- Well-formedness of a rule-table bundle (see section comment). -/
structure EnvOK (T : RuleTables) : Prop where
  sep_plain : plainB T 0x2E = true
  emoji_classified : ∀ c, emojiCpB T c = true →
    T.isIgnored c = true ∨ (T.mapped c).isSome = true ∨ T.isDisallowed c = true
  mapped_out : ∀ c cs, T.mapped c = some cs → ∀ d ∈ cs,
    (plainB T d = true ∧ ScalarCp d) ∨ d = 0x2E
  nfc_plain : ∀ s, (∀ c ∈ s, OutCp T c) → ∀ c ∈ T.nfc s, OutCp T c
  nfc_ne : ∀ s, s ≠ [] → T.nfc s ≠ []
  nfc_idem : ∀ s, T.nfc (T.nfc s) = T.nfc s
  nfc_nil : T.nfc [] = []
  nfc_inert : ∀ s c t, (c = 0x2E ∨ emojiCpB T c = true) →
    T.nfc (s ++ c :: t) = T.nfc s ++ c :: T.nfc t
  pat_ne : ∀ e ∈ T.emoji, e.pattern ≠ []
  canon_ne : ∀ e ∈ T.emoji, e.canonical ≠ []
  beaut_ne : ∀ e ∈ T.emoji, e.beautified ≠ []
  canon_filter : ∀ e ∈ T.emoji, e.canonical = e.beautified.filter (fun c => c != 0xFE0F)
  beaut_head : ∀ e ∈ T.emoji, e.beautified.head? = e.canonical.head?
  canon_scalar : ∀ e ∈ T.emoji, ∀ c ∈ e.canonical, ScalarCp c
  beaut_scalar : ∀ e ∈ T.emoji, ∀ c ∈ e.beautified, ScalarCp c
  canon_ex : ∀ e ∈ T.emoji, ∃ f ∈ T.emoji, f.pattern = e.canonical
  beaut_ex : ∀ e ∈ T.emoji, ∃ f ∈ T.emoji, f.pattern = e.beautified
  canon_pat : ∀ e f, e ∈ T.emoji → f ∈ T.emoji → f.pattern = e.canonical →
    f.canonical = e.canonical
  beaut_pat : ∀ e f, e ∈ T.emoji → f ∈ T.emoji → f.pattern = e.beautified →
    f.canonical = e.canonical
  over_canon : ∀ e f, e ∈ T.emoji → f ∈ T.emoji → ∀ c m,
    f.pattern = e.canonical ++ c :: m → ∀ g ∈ T.emoji, g.canonical.head? ≠ some c
  over_beaut : ∀ e f, e ∈ T.emoji → f ∈ T.emoji → ∀ c m,
    f.pattern = e.beautified ++ c :: m → ∀ g ∈ T.emoji, g.canonical.head? ≠ some c
  xi_map : T.mapped 0x39E = some [0x3BE]
  xi_not_ignored : T.isIgnored 0x39E = false
  xi_not_emoji : emojiCpB T 0x39E = false
  fe0f_not_plain : plainB T 0xFE0F = false
  canon_clean : ∀ e ∈ T.emoji, ∀ c ∈ e.canonical,
    T.isIgnored c = false ∧ T.isDisallowed c = false ∧ T.isNSM c = false ∧ T.isFenced c = false
  ascii_nsm_fenced : ∀ c, asciiAllowedCp c = true → T.isNSM c = false ∧ T.isFenced c = false
  sep_not_nsm : T.isNSM 0x2E = false
  sep_not_fenced : T.isFenced 0x2E = false

/-! ## Splitter and segment predicates -/

/-- No atom of the list is the label separator. -/
def sepFreeAtoms (atoms : List Atom) : Prop := ∀ a ∈ atoms, a.isSep = false

/-- Join label atom lists with separator atoms (inverse of the
splitter on separator-free labels). -/
def joinSepAtoms : List (List Atom) → List Atom
  | [] => []
  | [l] => l
  | l :: r :: rest => l ++ Atom.text 0x2E :: joinSepAtoms (r :: rest)

/-- Relation between a validated label's segments and their
re-tokenized counterparts: text runs are unchanged and emoji entries
are replaced by trie entries with the same canonical projection. -/
inductive SegRel : Seg → Seg → Prop where
  | txt (cs : List Nat) : SegRel (.txt cs) (.txt cs)
  | emo (e f : EmojiEntry) (h : f.canonical = e.canonical) : SegRel (.emo e) (.emo f)

/-- Pointwise `SegRel` over segment lists. -/
def SegsRel (segs segs2 : List Seg) : Prop := List.Forall₂ SegRel segs segs2

theorem utf8Tail2_facts (b : Nat) (rest : List Nat) (c : Nat) (r : List Nat)
    (hb : b < 0xE0) (h : utf8Tail2 b rest = some (c, r)) :
    r.length + 1 = rest.length ∧ 0x80 ≤ c ∧ c < 0x800 := by
  match rest with
  | [] => exact absurd h (by unfold utf8Tail2; simp)
  | b1 :: r1 =>
    simp only [utf8Tail2] at h
    by_cases hcont : contByte b1 = true
    · rw [if_pos hcont] at h
      by_cases hv : 0x80 ≤ (b - 0xC0) * 64 + (b1 - 0x80)
      · rw [if_pos hv] at h
        simp only [Option.some.injEq, Prod.mk.injEq] at h
        obtain ⟨rfl, rfl⟩ := h
        unfold contByte at hcont
        simp only [Bool.and_eq_true, decide_eq_true_eq] at hcont
        exact ⟨by simp, hv, by omega⟩
      · rw [if_neg hv] at h; cases h
    · rw [if_neg hcont] at h; cases h

theorem utf8Tail3_facts (b : Nat) (rest : List Nat) (c : Nat) (r : List Nat)
    (hb : b < 0xF0) (h : utf8Tail3 b rest = some (c, r)) :
    r.length + 2 = rest.length ∧ 0x800 ≤ c ∧ ¬(0xD800 ≤ c ∧ c ≤ 0xDFFF) ∧ c < 0x10000 := by
  match rest with
  | [] => exact absurd h (by unfold utf8Tail3; simp)
  | [b1] => exact absurd h (by unfold utf8Tail3; simp)
  | b1 :: b2 :: r2 =>
    simp only [utf8Tail3] at h
    by_cases hcont : (contByte b1 && contByte b2) = true
    · rw [if_pos hcont] at h
      by_cases hv : 0x800 ≤ (b - 0xE0) * 4096 + (b1 - 0x80) * 64 + (b2 - 0x80) ∧
          ¬(0xD800 ≤ (b - 0xE0) * 4096 + (b1 - 0x80) * 64 + (b2 - 0x80) ∧
            (b - 0xE0) * 4096 + (b1 - 0x80) * 64 + (b2 - 0x80) ≤ 0xDFFF)
      · rw [if_pos hv] at h
        simp only [Option.some.injEq, Prod.mk.injEq] at h
        obtain ⟨rfl, rfl⟩ := h
        simp only [Bool.and_eq_true] at hcont
        obtain ⟨hc1, hc2⟩ := hcont
        unfold contByte at hc1 hc2
        simp only [Bool.and_eq_true, decide_eq_true_eq] at hc1 hc2
        exact ⟨by simp, hv.1, hv.2, by omega⟩
      · rw [if_neg hv] at h; cases h
    · rw [if_neg hcont] at h; cases h

theorem utf8Tail4_facts (b : Nat) (rest : List Nat) (c : Nat) (r : List Nat)
    (h : utf8Tail4 b rest = some (c, r)) :
    r.length + 3 = rest.length ∧ 0x10000 ≤ c ∧ c < 0x110000 := by
  match rest with
  | [] => exact absurd h (by unfold utf8Tail4; simp)
  | [b1] => exact absurd h (by unfold utf8Tail4; simp)
  | [b1, b2] => exact absurd h (by unfold utf8Tail4; simp)
  | b1 :: b2 :: b3 :: r3 =>
    simp only [utf8Tail4] at h
    by_cases hcont : (contByte b1 && contByte b2 && contByte b3) = true
    · rw [if_pos hcont] at h
      by_cases hv : 0x10000 ≤ (b - 0xF0) * 262144 + (b1 - 0x80) * 4096 + (b2 - 0x80) * 64 +
            (b3 - 0x80) ∧
          (b - 0xF0) * 262144 + (b1 - 0x80) * 4096 + (b2 - 0x80) * 64 + (b3 - 0x80) < 0x110000
      · rw [if_pos hv] at h
        simp only [Option.some.injEq, Prod.mk.injEq] at h
        obtain ⟨rfl, rfl⟩ := h
        exact ⟨by simp, hv.1, hv.2⟩
      · rw [if_neg hv] at h; cases h
    · rw [if_neg hcont] at h; cases h

theorem utf8DecodeOne_shorter : ∀ bs c r, utf8DecodeOne bs = some (c, r) →
    r.length < bs.length := by
  intro bs c r h
  match bs with
  | [] => cases h
  | b :: rest =>
    simp only [utf8DecodeOne] at h
    by_cases h1 : b < 0x80
    · rw [if_pos h1] at h
      simp only [Option.some.injEq, Prod.mk.injEq] at h
      obtain ⟨rfl, rfl⟩ := h
      simp
    rw [if_neg h1] at h
    by_cases h2 : b < 0xC0
    · rw [if_pos h2] at h; cases h
    rw [if_neg h2] at h
    by_cases h3 : b < 0xE0
    · rw [if_pos h3] at h
      have := (utf8Tail2_facts b rest c r h3 h).1; simp; omega
    rw [if_neg h3] at h
    by_cases h4 : b < 0xF0
    · rw [if_pos h4] at h
      have := (utf8Tail3_facts b rest c r h4 h).1; simp; omega
    rw [if_neg h4] at h
    by_cases h5 : b < 0xF8
    · rw [if_pos h5] at h
      have := (utf8Tail4_facts b rest c r h).1; simp; omega
    rw [if_neg h5] at h; cases h

theorem utf8DecodeF_congr : ∀ f g bs, bs.length ≤ f → bs.length ≤ g →
    utf8DecodeF f bs = utf8DecodeF g bs := by
  intro f
  induction f with
  | zero =>
    intro g bs hf _
    have : bs = [] := List.length_eq_zero.mp (Nat.le_zero.mp hf)
    subst this
    cases g <;> rfl
  | succ n ih =>
    intro g bs hf hg
    match bs with
    | [] => cases g <;> rfl
    | b :: rest =>
      match g with
      | 0 => simp at hg
      | m + 1 =>
        show utf8DecodeF (n+1) (b :: rest) = utf8DecodeF (m+1) (b :: rest)
        unfold utf8DecodeF
        cases hone : utf8DecodeOne (b :: rest) with
        | none => rfl
        | some cr =>
          obtain ⟨c, r⟩ := cr
          have hlen := utf8DecodeOne_shorter _ _ _ hone
          simp only [List.length_cons] at hlen hf hg
          show (match utf8DecodeF n r with
                | none => none
                | some cps => some (c :: cps)) =
              (match utf8DecodeF m r with
                | none => none
                | some cps => some (c :: cps))
          rw [ih m r (by omega) (by omega)]

/-- Defining equation of `utf8Decode` on nonempty input. -/
theorem utf8Decode_cons (b : Nat) (rest : List Nat) :
    utf8Decode (b :: rest) =
      match utf8DecodeOne (b :: rest) with
      | none => none
      | some (c, r) =>
        match utf8Decode r with
        | none => none
        | some cps => some (c :: cps) := by
  show utf8DecodeF (rest.length + 1) (b :: rest) = _
  unfold utf8DecodeF
  cases hone : utf8DecodeOne (b :: rest) with
  | none => rfl
  | some cr =>
    obtain ⟨c, r⟩ := cr
    have hlen := utf8DecodeOne_shorter _ _ _ hone
    simp only at hlen ⊢
    rw [utf8DecodeF_congr rest.length r.length r
      (by simp only [List.length_cons] at hlen; omega) (le_refl _)]
    rfl

theorem utf8DecodeOne_encodeChar (c : Nat) (h : ScalarCp c) (bs : List Nat) :
    utf8DecodeOne (utf8EncodeChar c ++ bs) = some (c, bs) := by
  obtain ⟨hlt, hsur⟩ := h
  unfold utf8EncodeChar
  split
  · next h1 =>
    simp only [List.cons_append, List.nil_append]
    simp only [utf8DecodeOne]
    simp only [if_pos h1]
  · next h1 =>
    split
    · next h2 =>
      simp only [List.cons_append, List.nil_append]
      simp only [utf8DecodeOne]
      have e1 : ¬ (0xC0 + c / 64 < 0x80) := by omega
      have e2 : ¬ (0xC0 + c / 64 < 0xC0) := by omega
      have e3 : 0xC0 + c / 64 < 0xE0 := by omega
      rw [if_neg e1, if_neg e2, if_pos e3]
      simp only [utf8Tail2]
      have e4 : contByte (0x80 + c % 64) = true := by
        unfold contByte; simp only [Bool.and_eq_true, decide_eq_true_eq]; omega
      rw [e4]
      simp only [if_pos]
      have e5 : (0xC0 + c / 64 - 0xC0) * 64 + (0x80 + c % 64 - 0x80) = c := by omega
      simp only [e5]
      have e6 : 0x80 ≤ c := by omega
      simp only [if_pos e6]
    · next h2 =>
      split
      · next h3 =>
        simp only [List.cons_append, List.nil_append]
        simp only [utf8DecodeOne]
        have e1 : ¬ (0xE0 + c / 4096 < 0x80) := by omega
        have e2 : ¬ (0xE0 + c / 4096 < 0xC0) := by omega
        have e3 : ¬ (0xE0 + c / 4096 < 0xE0) := by omega
        have e4 : 0xE0 + c / 4096 < 0xF0 := by omega
        rw [if_neg e1, if_neg e2, if_neg e3, if_pos e4]
        simp only [utf8Tail3]
        have e5 : contByte (0x80 + c / 64 % 64) = true := by
          unfold contByte; simp only [Bool.and_eq_true, decide_eq_true_eq]; omega
        have e6 : contByte (0x80 + c % 64) = true := by
          unfold contByte; simp only [Bool.and_eq_true, decide_eq_true_eq]; omega
        rw [e5, e6]
        simp only [Bool.and_self, if_pos]
        have e7 : (0xE0 + c / 4096 - 0xE0) * 4096 + (0x80 + c / 64 % 64 - 0x80) * 64 +
            (0x80 + c % 64 - 0x80) = c := by omega
        simp only [e7]
        have e8 : 0x800 ≤ c ∧ ¬(0xD800 ≤ c ∧ c ≤ 0xDFFF) := by omega
        simp only [if_pos e8]
      · next h3 =>
        simp only [List.cons_append, List.nil_append]
        simp only [utf8DecodeOne]
        have e1 : ¬ (0xF0 + c / 262144 < 0x80) := by omega
        have e2 : ¬ (0xF0 + c / 262144 < 0xC0) := by omega
        have e3 : ¬ (0xF0 + c / 262144 < 0xE0) := by omega
        have e4 : ¬ (0xF0 + c / 262144 < 0xF0) := by omega
        have e5 : 0xF0 + c / 262144 < 0xF8 := by omega
        rw [if_neg e1, if_neg e2, if_neg e3, if_neg e4, if_pos e5]
        simp only [utf8Tail4]
        have e6 : contByte (0x80 + c / 4096 % 64) = true := by
          unfold contByte; simp only [Bool.and_eq_true, decide_eq_true_eq]; omega
        have e7 : contByte (0x80 + c / 64 % 64) = true := by
          unfold contByte; simp only [Bool.and_eq_true, decide_eq_true_eq]; omega
        have e8 : contByte (0x80 + c % 64) = true := by
          unfold contByte; simp only [Bool.and_eq_true, decide_eq_true_eq]; omega
        rw [e6, e7, e8]
        simp only [Bool.and_self, if_pos]
        have e9 : (0xF0 + c / 262144 - 0xF0) * 262144 + (0x80 + c / 4096 % 64 - 0x80) * 4096 +
            (0x80 + c / 64 % 64 - 0x80) * 64 + (0x80 + c % 64 - 0x80) = c := by omega
        simp only [e9]
        have e10 : 0x10000 ≤ c ∧ c < 0x110000 := by omega
        simp only [if_pos e10]

theorem utf8EncodeChar_ne_nil (c : Nat) : utf8EncodeChar c ≠ [] := by
  unfold utf8EncodeChar
  split
  · simp
  · split
    · simp
    · split
      · simp
      · simp

/-- Decoding inverts encoding on scalar sequences. -/
theorem utf8_roundtrip : ∀ cps : List Nat, (∀ c ∈ cps, ScalarCp c) →
    utf8Decode (utf8Encode cps) = some cps := by
  intro cps
  induction cps with
  | nil => intro _; rfl
  | cons c rest ih =>
    intro h
    have hc : ScalarCp c := h c (by simp)
    have hr : ∀ d ∈ rest, ScalarCp d := fun d hd => h d (by simp [hd])
    unfold utf8Encode
    simp only [List.map_cons, List.flatten_cons]
    have henc : (rest.map utf8EncodeChar).flatten = utf8Encode rest := rfl
    rcases hne : utf8EncodeChar c with _ | ⟨b, ebs⟩
    · exact absurd hne (utf8EncodeChar_ne_nil c)
    · rw [show (b :: ebs) ++ (rest.map utf8EncodeChar).flatten
            = b :: (ebs ++ (rest.map utf8EncodeChar).flatten) from rfl]
      rw [utf8Decode_cons]
      have hone : utf8DecodeOne (utf8EncodeChar c ++ (rest.map utf8EncodeChar).flatten)
          = some (c, (rest.map utf8EncodeChar).flatten) := by
        rw [henc]
        exact utf8DecodeOne_encodeChar c hc (utf8Encode rest)
      rw [hne] at hone
      simp only [List.cons_append] at hone
      rw [hone, henc]
      show (match utf8Decode (utf8Encode rest) with
            | none => none
            | some cps => some (c :: cps)) = some (c :: rest)
      rw [ih hr]

/-- Every codepoint produced by the strict decoder is a Unicode scalar value. -/
theorem utf8DecodeOne_scalar (bs : List Nat) (c : Nat) (r : List Nat)
    (h : utf8DecodeOne bs = some (c, r)) : ScalarCp c := by
  match bs with
  | [] => cases h
  | b :: rest =>
    simp only [utf8DecodeOne] at h
    by_cases h1 : b < 0x80
    · rw [if_pos h1] at h
      simp only [Option.some.injEq, Prod.mk.injEq] at h
      obtain ⟨rfl, rfl⟩ := h
      exact ⟨by omega, by omega⟩
    rw [if_neg h1] at h
    by_cases h2 : b < 0xC0
    · rw [if_pos h2] at h; cases h
    rw [if_neg h2] at h
    by_cases h3 : b < 0xE0
    · rw [if_pos h3] at h
      obtain ⟨-, hge, hlt⟩ := utf8Tail2_facts b rest c r h3 h
      exact ⟨by omega, by omega⟩
    rw [if_neg h3] at h
    by_cases h4 : b < 0xF0
    · rw [if_pos h4] at h
      obtain ⟨-, hge, hsur, hlt⟩ := utf8Tail3_facts b rest c r h4 h
      exact ⟨by omega, hsur⟩
    rw [if_neg h4] at h
    by_cases h5 : b < 0xF8
    · rw [if_pos h5] at h
      obtain ⟨-, hge, hlt⟩ := utf8Tail4_facts b rest c r h
      exact ⟨hlt, by omega⟩
    rw [if_neg h5] at h; cases h

theorem utf8Decode_scalar : ∀ n bs cps, bs.length ≤ n → utf8Decode bs = some cps →
    ∀ c ∈ cps, ScalarCp c := by
  intro n
  induction n with
  | zero =>
    intro bs cps hlen h c hc
    have : bs = [] := List.length_eq_zero.mp (Nat.le_zero.mp hlen)
    subst this
    cases h
    simp at hc
  | succ m ih =>
    intro bs cps hlen h c hc
    match bs with
    | [] => cases h; simp at hc
    | b :: rest =>
      rw [utf8Decode_cons] at h
      cases hone : utf8DecodeOne (b :: rest) with
      | none => rw [hone] at h; cases h
      | some cr =>
        obtain ⟨c0, r⟩ := cr
        rw [hone] at h
        simp only at h
        cases hrec : utf8Decode r with
        | none => rw [hrec] at h; cases h
        | some tl =>
          rw [hrec] at h
          cases h
          have hlen2 := utf8DecodeOne_shorter _ _ _ hone
          rcases List.mem_cons.mp hc with rfl | hmem
          · exact utf8DecodeOne_scalar _ _ _ hone
          · exact ih r tl (by simp at hlen hlen2; omega) hrec c hmem

/-! ## ABI call-shape lemmas -/

theorem abiCall_some_le (bytes : List Nat) (cap : Nat) (h : bytes.length ≤ cap) :
    abiCall (some bytes) cap = ⟨0, bytes, bytes.length⟩ := by
  unfold abiCall
  simp only [if_pos h]

theorem abiCall_some_gt (bytes : List Nat) (cap : Nat) (h : ¬ bytes.length ≤ cap) :
    abiCall (some bytes) cap = ⟨-4, [], bytes.length⟩ := by
  unfold abiCall
  simp only [if_neg h]

theorem abiCall_ret_cases (res : Option (List Nat)) (cap : Nat) :
    (abiCall res cap).ret = 0 ∨ (abiCall res cap).ret = -3 ∨ (abiCall res cap).ret = -4 := by
  cases res with
  | none => right; left; rfl
  | some bytes =>
    by_cases h : bytes.length ≤ cap
    · left; rw [abiCall_some_le bytes cap h]
    · right; right; rw [abiCall_some_gt bytes cap h]

theorem abiCall_zero_iff (res : Option (List Nat)) (cap : Nat) :
    (abiCall res cap).ret = 0 ↔ ∃ y, res = some y ∧ y.length ≤ cap := by
  cases res with
  | none =>
    constructor
    · intro h; simp [abiCall] at h
    · rintro ⟨y, hy, -⟩; cases hy
  | some bytes =>
    by_cases h : bytes.length ≤ cap
    · rw [abiCall_some_le bytes cap h]
      exact ⟨fun _ => ⟨bytes, rfl, h⟩, fun _ => rfl⟩
    · rw [abiCall_some_gt bytes cap h]
      constructor
      · intro hr; simp at hr
      · rintro ⟨y, hy, hle⟩
        cases hy
        exact absurd hle h

theorem abiCall_neg4_iff (res : Option (List Nat)) (cap : Nat) :
    (abiCall res cap).ret = -4 ↔ ∃ y, res = some y ∧ cap < y.length := by
  cases res with
  | none =>
    constructor
    · intro h; simp [abiCall] at h
    · rintro ⟨y, hy, -⟩; cases hy
  | some bytes =>
    by_cases h : bytes.length ≤ cap
    · rw [abiCall_some_le bytes cap h]
      constructor
      · intro hr; simp at hr
      · rintro ⟨y, hy, hlt⟩
        cases hy
        omega
    · rw [abiCall_some_gt bytes cap h]
      exact ⟨fun _ => ⟨bytes, rfl, by omega⟩, fun _ => rfl⟩

theorem normalizeStr_none_of_decode (T : RuleTables) (x : List Nat)
    (h : utf8Decode x = none) : normalizeStr T x = none := by
  unfold normalizeStr; rw [h]

theorem beautifyStr_none_of_decode (T : RuleTables) (x : List Nat)
    (h : utf8Decode x = none) : beautifyStr T x = none := by
  unfold beautifyStr; rw [h]

theorem normalizeStr_none_of_err (T : RuleTables) (x cps : List Nat) (e : Err)
    (hd : utf8Decode x = some cps) (hp : pipeline T cps = .error e) :
    normalizeStr T x = none := by
  unfold normalizeStr normalizeCps; simp only [hd, hp]

theorem beautifyStr_none_of_err (T : RuleTables) (x cps : List Nat) (e : Err)
    (hd : utf8Decode x = some cps) (hp : pipeline T cps = .error e) :
    beautifyStr T x = none := by
  unfold beautifyStr beautifyCps; simp only [hd, hp]

theorem normalizeStr_of_ok (T : RuleTables) (x cps : List Nat) (ls : List VLabel)
    (hd : utf8Decode x = some cps) (hp : pipeline T cps = .ok ls) :
    normalizeStr T x = some (utf8Encode (renderAll .norm ls)) := by
  unfold normalizeStr normalizeCps; simp only [hd, hp]

theorem beautifyStr_of_ok (T : RuleTables) (x cps : List Nat) (ls : List VLabel)
    (hd : utf8Decode x = some cps) (hp : pipeline T cps = .ok ls) :
    beautifyStr T x = some (utf8Encode (renderAll .beaut ls)) := by
  unfold beautifyStr beautifyCps; simp only [hd, hp]

theorem ens_process_decode_none (T : RuleTables) (x : List Nat) (ncap bcap : Nat)
    (h : utf8Decode x = none) : ens_process T x ncap bcap = ⟨-3, [], ncap, [], bcap⟩ := by
  unfold ens_process; simp only [h]

theorem ens_process_err (T : RuleTables) (x cps : List Nat) (e : Err) (ncap bcap : Nat)
    (hd : utf8Decode x = some cps) (hp : pipeline T cps = .error e) :
    ens_process T x ncap bcap = ⟨-3, [], ncap, [], bcap⟩ := by
  unfold ens_process; simp only [hd, hp]

theorem ens_process_ok (T : RuleTables) (x cps : List Nat) (ls : List VLabel) (ncap bcap : Nat)
    (hd : utf8Decode x = some cps) (hp : pipeline T cps = .ok ls) :
    ens_process T x ncap bcap =
      (if (utf8Encode (renderAll .norm ls)).length ≤ ncap then
        if (utf8Encode (renderAll .beaut ls)).length ≤ bcap then
          ⟨0, utf8Encode (renderAll .norm ls), (utf8Encode (renderAll .norm ls)).length,
            utf8Encode (renderAll .beaut ls), (utf8Encode (renderAll .beaut ls)).length⟩
        else ⟨-5, utf8Encode (renderAll .norm ls), (utf8Encode (renderAll .norm ls)).length,
          [], (utf8Encode (renderAll .beaut ls)).length⟩
      else ⟨-4, [], (utf8Encode (renderAll .norm ls)).length, [], bcap⟩) := by
  unfold ens_process; simp only [hd, hp]

/-- C5: the return value of each entry point is drawn exactly from the
documented code set (`0`, `-1`, `-3`, `-4`, and `-5` for `ens_process`
only), every validation failure and invalid UTF-8 collapses to `-3`,
`0` holds exactly when the result fits the buffer, `-4` exactly when
the normalized output does not fit, and `-5` exactly when the
normalized output fits but the beautified output does not.  The model
performs no allocation, so `-1` (out of memory) never arises. -/
theorem c5_exit_codes (T : RuleTables) (x : List Nat) (cap ncap bcap : Nat) :
    ((ens_normalize T x cap).ret = 0 ∨ (ens_normalize T x cap).ret = -3 ∨
      (ens_normalize T x cap).ret = -4) ∧
    ((ens_beautify T x cap).ret = 0 ∨ (ens_beautify T x cap).ret = -3 ∨
      (ens_beautify T x cap).ret = -4) ∧
    ((ens_process T x ncap bcap).ret = 0 ∨ (ens_process T x ncap bcap).ret = -3 ∨
      (ens_process T x ncap bcap).ret = -4 ∨ (ens_process T x ncap bcap).ret = -5) ∧
    ((ens_normalize T x cap).ret = 0 ↔ ∃ y, normalizeStr T x = some y ∧ y.length ≤ cap) ∧
    ((ens_normalize T x cap).ret = -4 ↔ ∃ y, normalizeStr T x = some y ∧ cap < y.length) ∧
    (normalizeStr T x = none → (ens_normalize T x cap).ret = -3) ∧
    (beautifyStr T x = none → (ens_beautify T x cap).ret = -3) ∧
    (∀ cps e, utf8Decode x = some cps → pipeline T cps = .error e →
      (ens_normalize T x cap).ret = -3 ∧ (ens_beautify T x cap).ret = -3 ∧
        (ens_process T x ncap bcap).ret = -3) ∧
    (utf8Decode x = none →
      (ens_normalize T x cap).ret = -3 ∧ (ens_beautify T x cap).ret = -3 ∧
        (ens_process T x ncap bcap).ret = -3) ∧
    ((ens_process T x ncap bcap).ret = -4 ↔ ∃ cps ls, utf8Decode x = some cps ∧
      pipeline T cps = .ok ls ∧ ncap < (utf8Encode (renderAll .norm ls)).length) ∧
    ((ens_process T x ncap bcap).ret = -5 ↔ ∃ cps ls, utf8Decode x = some cps ∧
      pipeline T cps = .ok ls ∧ (utf8Encode (renderAll .norm ls)).length ≤ ncap ∧
        bcap < (utf8Encode (renderAll .beaut ls)).length) := by
  have hproc : (ens_process T x ncap bcap).ret = 0 ∨ (ens_process T x ncap bcap).ret = -3 ∨
      (ens_process T x ncap bcap).ret = -4 ∨ (ens_process T x ncap bcap).ret = -5 := by
    cases hd : utf8Decode x with
    | none => rw [ens_process_decode_none T x ncap bcap hd]; right; left; rfl
    | some cps =>
      cases hp : pipeline T cps with
      | error e => rw [ens_process_err T x cps e ncap bcap hd hp]; right; left; rfl
      | ok ls =>
        rw [ens_process_ok T x cps ls ncap bcap hd hp]
        by_cases h1 : (utf8Encode (renderAll .norm ls)).length ≤ ncap
        · rw [if_pos h1]
          by_cases h2 : (utf8Encode (renderAll .beaut ls)).length ≤ bcap
          · rw [if_pos h2]; left; rfl
          · rw [if_neg h2]; right; right; right; rfl
        · rw [if_neg h1]; right; right; left; rfl
  refine ⟨abiCall_ret_cases _ _, abiCall_ret_cases _ _, hproc,
    abiCall_zero_iff _ _, abiCall_neg4_iff _ _, ?_, ?_, ?_, ?_, ?_, ?_⟩
  · intro h
    show (abiCall (normalizeStr T x) cap).ret = -3
    rw [h]; rfl
  · intro h
    show (abiCall (beautifyStr T x) cap).ret = -3
    rw [h]; rfl
  · intro cps e hd hp
    refine ⟨?_, ?_, ?_⟩
    · show (abiCall (normalizeStr T x) cap).ret = -3
      rw [normalizeStr_none_of_err T x cps e hd hp]; rfl
    · show (abiCall (beautifyStr T x) cap).ret = -3
      rw [beautifyStr_none_of_err T x cps e hd hp]; rfl
    · rw [ens_process_err T x cps e ncap bcap hd hp]
  · intro hd
    refine ⟨?_, ?_, ?_⟩
    · show (abiCall (normalizeStr T x) cap).ret = -3
      rw [normalizeStr_none_of_decode T x hd]; rfl
    · show (abiCall (beautifyStr T x) cap).ret = -3
      rw [beautifyStr_none_of_decode T x hd]; rfl
    · rw [ens_process_decode_none T x ncap bcap hd]
  · cases hd : utf8Decode x with
    | none =>
      rw [ens_process_decode_none T x ncap bcap hd]
      constructor
      · intro h; simp at h
      · rintro ⟨cps, ls, hcps, -, -⟩; cases hcps
    | some cps =>
      cases hp : pipeline T cps with
      | error e =>
        rw [ens_process_err T x cps e ncap bcap hd hp]
        constructor
        · intro h; simp at h
        · rintro ⟨cps2, ls, hcps2, hls, -⟩
          injection hcps2 with hceq
          rw [← hceq] at hls
          rw [hls] at hp; cases hp
      | ok ls =>
        rw [ens_process_ok T x cps ls ncap bcap hd hp]
        by_cases h1 : (utf8Encode (renderAll .norm ls)).length ≤ ncap
        · rw [if_pos h1]
          by_cases h2 : (utf8Encode (renderAll .beaut ls)).length ≤ bcap
          · rw [if_pos h2]
            constructor
            · intro h; simp at h
            · rintro ⟨cps2, ls2, hcps2, hls2, hlt⟩
              injection hcps2 with hceq
              rw [← hceq] at hls2
              rw [hls2] at hp
              injection hp with hleq
              rw [hleq] at hlt
              omega
          · rw [if_neg h2]
            constructor
            · intro h; simp at h
            · rintro ⟨cps2, ls2, hcps2, hls2, hlt⟩
              injection hcps2 with hceq
              rw [← hceq] at hls2
              rw [hls2] at hp
              injection hp with hleq
              rw [hleq] at hlt
              omega
        · rw [if_neg h1]
          constructor
          · intro _; exact ⟨cps, ls, rfl, hp, by omega⟩
          · intro _; rfl
  · cases hd : utf8Decode x with
    | none =>
      rw [ens_process_decode_none T x ncap bcap hd]
      constructor
      · intro h; simp at h
      · rintro ⟨cps, ls, hcps, -, -⟩; cases hcps
    | some cps =>
      cases hp : pipeline T cps with
      | error e =>
        rw [ens_process_err T x cps e ncap bcap hd hp]
        constructor
        · intro h; simp at h
        · rintro ⟨cps2, ls, hcps2, hls, -⟩
          injection hcps2 with hceq
          rw [← hceq] at hls
          rw [hls] at hp; cases hp
      | ok ls =>
        rw [ens_process_ok T x cps ls ncap bcap hd hp]
        by_cases h1 : (utf8Encode (renderAll .norm ls)).length ≤ ncap
        · rw [if_pos h1]
          by_cases h2 : (utf8Encode (renderAll .beaut ls)).length ≤ bcap
          · rw [if_pos h2]
            constructor
            · intro h; simp at h
            · rintro ⟨cps2, ls2, hcps2, hls2, -, hlt⟩
              injection hcps2 with hceq
              rw [← hceq] at hls2
              rw [hls2] at hp
              injection hp with hleq
              rw [hleq] at hlt
              omega
          · rw [if_neg h2]
            constructor
            · intro _; exact ⟨cps, ls, rfl, hp, h1, by omega⟩
            · intro _; rfl
        · rw [if_neg h1]
          constructor
          · intro h; simp at h
          · rintro ⟨cps2, ls2, hcps2, hls2, hle, -⟩
            injection hcps2 with hceq
            rw [← hceq] at hls2
            rw [hls2] at hp
            injection hp with hleq
            rw [hleq] at hle
            omega

/-- Closed instance of C5 at the concrete environment. -/
theorem c5_exit_codes_witness :
    (ens_normalize envA [0x61] 0).ret = 0 ∨ (ens_normalize envA [0x61] 0).ret = -3 ∨
      (ens_normalize envA [0x61] 0).ret = -4 :=
  (c5_exit_codes envA [0x61] 0 0 0).1

/-- C6 counterexample: the empty input normalizes successfully (to the
empty name with zero labels, hence empty output), yet the probing call
with a zero-capacity buffer returns `0`, not the too-small code `-4`,
because zero bytes fit a zero-capacity buffer.  So the claim's "probe
returns the too-small error for every input whose normalization
succeeds" fails at `x = ""`. -/
theorem c6_probe_empty_counterexample :
    normalizeStr envA [] = some [] ∧ ens_normalize envA [] 0 = ⟨0, [], 0⟩ :=
  ⟨rfl, rfl⟩

/-- C6 (amended): for every input whose normalization succeeds with a
nonempty result, the zero-capacity probe returns `-4` with the required
byte count in the length out-parameter and writes nothing, and a
subsequent call with exactly that capacity (or any larger one) returns
`0` and writes exactly the bytes every successful call produces. -/
theorem c6_probe_amended (T : RuleTables) (x y : List Nat)
    (hy : normalizeStr T x = some y) (hne : y ≠ []) :
    (ens_normalize T x 0).ret = -4 ∧ (ens_normalize T x 0).outLen = y.length ∧
    (ens_normalize T x 0).out = [] ∧
    ens_normalize T x y.length = ⟨0, y, y.length⟩ ∧
    ∀ cap, y.length ≤ cap → ens_normalize T x cap = ⟨0, y, y.length⟩ := by
  have h0 : ¬ (y.length ≤ 0) := by
    intro hle
    exact hne (List.eq_nil_of_length_eq_zero (Nat.le_zero.mp hle))
  have e1 : ens_normalize T x 0 = ⟨-4, [], y.length⟩ := by
    show abiCall (normalizeStr T x) 0 = _
    rw [hy, abiCall_some_gt y 0 h0]
  have e2 : ∀ cap, y.length ≤ cap → ens_normalize T x cap = ⟨0, y, y.length⟩ := by
    intro cap hcap
    show abiCall (normalizeStr T x) cap = _
    rw [hy, abiCall_some_le y cap hcap]
  exact ⟨by rw [e1], by rw [e1], by rw [e1], e2 _ (le_refl _), e2⟩

/-- Closed instance of the amended C6 at a concrete input. -/
theorem c6_probe_amended_witness :
    normalizeStr envA [0x41] = some [0x61] ∧ ([0x61] : List Nat) ≠ [] ∧
      (ens_normalize envA [0x41] 0).ret = -4 :=
  ⟨rfl, by decide, (c6_probe_amended envA [0x41] [0x61] rfl (by decide)).1⟩

/-- C8: on `"🧙‍♂️.eth"` both calls succeed; normalize drops the FE0F
(codepoints `1F9D9 200D 2642 2E 65 74 68`) while beautify retains it
(codepoints `1F9D9 200D 2642 FE0F 2E 65 74 68`). -/
theorem c8_emoji_fe0f :
    utf8Decode mageInput = some [0x1F9D9, 0x200D, 0x2642, 0xFE0F, 0x2E, 0x65, 0x74, 0x68] ∧
    normalizeCps envA [0x1F9D9, 0x200D, 0x2642, 0xFE0F, 0x2E, 0x65, 0x74, 0x68] =
      .ok [0x1F9D9, 0x200D, 0x2642, 0x2E, 0x65, 0x74, 0x68] ∧
    beautifyCps envA [0x1F9D9, 0x200D, 0x2642, 0xFE0F, 0x2E, 0x65, 0x74, 0x68] =
      .ok [0x1F9D9, 0x200D, 0x2642, 0xFE0F, 0x2E, 0x65, 0x74, 0x68] ∧
    normalizeStr envA mageInput =
      some (utf8Encode [0x1F9D9, 0x200D, 0x2642, 0x2E, 0x65, 0x74, 0x68]) ∧
    beautifyStr envA mageInput =
      some (utf8Encode [0x1F9D9, 0x200D, 0x2642, 0xFE0F, 0x2E, 0x65, 0x74, 0x68]) :=
  ⟨rfl, rfl, rfl, rfl, rfl⟩

theorem infix_append_split {t u v : List Nat} (h : t <:+: u ++ v) :
    t <:+: u ∨ t <:+: v ∨
      ∃ t₁ t₂, t = t₁ ++ t₂ ∧ t₁ ≠ [] ∧ t₂ ≠ [] ∧ t₁ <:+ u ∧ t₂ <+: v := by
  obtain ⟨s₁, s₂, hsum⟩ := h
  rw [List.append_assoc] at hsum
  rcases List.append_eq_append_iff.mp hsum with ⟨a, hu, hv⟩ | ⟨c, hs, hv⟩
  · rcases List.append_eq_append_iff.mp hv with ⟨b, ha, hs2⟩ | ⟨c, ht, hv2⟩
    · left
      refine ⟨s₁, b, ?_⟩
      rw [hu, ha, List.append_assoc]
    · rcases Classical.em (a = []) with rfl | hane
      · right; left
        subst ht
        exact ⟨[], s₂, by rw [hv2]; simp⟩
      · rcases Classical.em (c = []) with rfl | hcne
        · left
          refine ⟨s₁, [], ?_⟩
          rw [hu, ht, List.append_nil, List.append_nil]
        · right; right
          refine ⟨a, c, ht, hane, hcne, ⟨s₁, hu.symm⟩, ⟨s₂, hv2.symm⟩⟩
  · right; left
    exact ⟨c, s₂, by rw [hv, List.append_assoc]⟩

/-! ## Longest-match lemmas -/

theorem bestEmoji_cond (e : EmojiEntry) (cps : List Nat) :
    (!e.pattern.isEmpty && e.pattern.isPrefixOf cps) = true ↔
      e.pattern ≠ [] ∧ e.pattern <+: cps := by
  constructor
  · intro h
    rw [Bool.and_eq_true] at h
    obtain ⟨h1, h2⟩ := h
    rw [Bool.not_eq_true'] at h1
    constructor
    · intro hnil
      rw [hnil] at h1
      exact absurd h1 (by decide)
    · exact List.isPrefixOf_iff_prefix.mp h2
  · intro hpair
    obtain ⟨h1, h2⟩ := hpair
    rw [Bool.and_eq_true]
    constructor
    · rw [Bool.not_eq_true']
      cases hp : e.pattern with
      | nil => exact absurd hp h1
      | cons a l => rfl
    · exact List.isPrefixOf_iff_prefix.mpr h2

theorem bestEmoji_none {es : List EmojiEntry} {cps : List Nat}
    (h : bestEmoji es cps = none) :
    ∀ g ∈ es, g.pattern = [] ∨ ¬ g.pattern <+: cps := by
  induction es with
  | nil => intro g hg; cases hg
  | cons e rest ih =>
    unfold bestEmoji at h
    by_cases hc : (!e.pattern.isEmpty && e.pattern.isPrefixOf cps) = true
    · rw [if_pos hc] at h
      cases hb : bestEmoji rest cps with
      | none => simp only [hb] at h; cases h
      | some f0 =>
        simp only [hb] at h
        by_cases hlen : f0.pattern.length ≤ e.pattern.length
        · rw [if_pos hlen] at h; cases h
        · rw [if_neg hlen] at h; cases h
    · rw [if_neg hc] at h
      intro g hg
      rcases List.mem_cons.mp hg with rfl | hgmem
      · by_cases hne : g.pattern = []
        · left; exact hne
        · right
          intro hpre
          exact hc ((bestEmoji_cond g cps).mpr ⟨hne, hpre⟩)
      · exact ih h g hgmem

theorem bestEmoji_some {cps : List Nat} :
    ∀ {es : List EmojiEntry} {f : EmojiEntry}, bestEmoji es cps = some f →
    f ∈ es ∧ f.pattern ≠ [] ∧ f.pattern <+: cps ∧
      ∀ g ∈ es, g.pattern ≠ [] → g.pattern <+: cps →
        g.pattern.length ≤ f.pattern.length := by
  intro es
  induction es with
  | nil => intro f h; cases h
  | cons e rest ih =>
    intro f h
    unfold bestEmoji at h
    by_cases hc : (!e.pattern.isEmpty && e.pattern.isPrefixOf cps) = true
    · rw [if_pos hc] at h
      obtain ⟨hene, hepre⟩ := (bestEmoji_cond e cps).mp hc
      cases hb : bestEmoji rest cps with
      | none =>
        simp only [hb, Option.some.injEq] at h
        subst h
        refine ⟨List.mem_cons_self _ _, hene, hepre, ?_⟩
        intro g hg hgne hgpre
        rcases List.mem_cons.mp hg with rfl | hgmem
        · exact le_refl _
        · rcases bestEmoji_none hb g hgmem with h1 | h1
          · exact absurd h1 hgne
          · exact absurd hgpre h1
      | some f0 =>
        simp only [hb] at h
        obtain ⟨hf0mem, hf0ne, hf0pre, hf0max⟩ := ih hb
        by_cases hlen : f0.pattern.length ≤ e.pattern.length
        · rw [if_pos hlen] at h
          simp only [Option.some.injEq] at h
          subst h
          refine ⟨List.mem_cons_self _ _, hene, hepre, ?_⟩
          intro g hg hgne hgpre
          rcases List.mem_cons.mp hg with rfl | hgmem
          · exact le_refl _
          · exact le_trans (hf0max g hgmem hgne hgpre) hlen
        · rw [if_neg hlen] at h
          simp only [Option.some.injEq] at h
          subst h
          refine ⟨List.mem_cons_of_mem _ hf0mem, hf0ne, hf0pre, ?_⟩
          intro g hg hgne hgpre
          rcases List.mem_cons.mp hg with rfl | hgmem
          · omega
          · exact hf0max g hgmem hgne hgpre
    · rw [if_neg hc] at h
      obtain ⟨hfmem, hfne, hfpre, hfmax⟩ := ih h
      refine ⟨List.mem_cons_of_mem _ hfmem, hfne, hfpre, ?_⟩
      intro g hg hgne hgpre
      rcases List.mem_cons.mp hg with rfl | hgmem
      · exact absurd ((bestEmoji_cond g cps).mpr ⟨hgne, hgpre⟩) hc
      · exact hfmax g hgmem hgne hgpre

theorem bestEmoji_isSome {es : List EmojiEntry} {cps : List Nat} {g : EmojiEntry}
    (hg : g ∈ es) (hne : g.pattern ≠ []) (hpre : g.pattern <+: cps) :
    ∃ f, bestEmoji es cps = some f := by
  cases h : bestEmoji es cps with
  | some f => exact ⟨f, rfl⟩
  | none =>
    rcases bestEmoji_none h g hg with h1 | h1
    · exact absurd h1 hne
    · exact absurd hpre h1

/-! ## Tokenizer equations and step lemmas -/

theorem tokenizeF_congr (T : RuleTables) : ∀ f g cps, cps.length ≤ f → cps.length ≤ g →
    tokenizeF T f cps = tokenizeF T g cps := by
  intro f
  induction f with
  | zero =>
    intro g cps hf _
    have : cps = [] := List.eq_nil_of_length_eq_zero (Nat.le_zero.mp hf)
    subst this
    cases g <;> rfl
  | succ n ih =>
    intro g cps hf hg
    match cps with
    | [] => cases g <;> rfl
    | c :: rest =>
      match g with
      | 0 => simp at hg
      | m + 1 =>
        simp only [List.length_cons] at hf hg
        cases hbe : bestEmoji T.emoji (c :: rest) with
        | some e =>
          obtain ⟨-, hne, hpre, -⟩ := bestEmoji_some hbe
          have hplen : 1 ≤ e.pattern.length := by
            cases hp : e.pattern with
            | nil => exact absurd hp hne
            | cons a l => simp
          show tokenizeF T (n+1) (c :: rest) = tokenizeF T (m+1) (c :: rest)
          unfold tokenizeF
          simp only [hbe]
          rw [ih m (List.drop (e.pattern.length - 1) rest)
            (by rw [List.length_drop]; omega) (by rw [List.length_drop]; omega)]
        | none =>
          show tokenizeF T (n+1) (c :: rest) = tokenizeF T (m+1) (c :: rest)
          unfold tokenizeF
          simp only [hbe]
          by_cases hi : T.isIgnored c
          · simp only [hi, if_true]
            exact ih m rest (by omega) (by omega)
          · simp only [hi, Bool.false_eq_true, if_false]
            cases hm : T.mapped c with
            | some cs =>
              simp only [hm]
              rw [ih m rest (by omega) (by omega)]
            | none =>
              simp only [hm]
              by_cases hdis : T.isDisallowed c
              · simp only [hdis, if_true]
              · simp only [hdis, Bool.false_eq_true, if_false]
                rw [ih m rest (by omega) (by omega)]

theorem tokenize_cons (T : RuleTables) (c : Nat) (rest : List Nat) :
    tokenize T (c :: rest) =
      match bestEmoji T.emoji (c :: rest) with
      | some e =>
        match tokenize T (List.drop (e.pattern.length - 1) rest) with
        | .error err => .error err
        | .ok atoms => .ok (.emoji e :: atoms)
      | none =>
        if T.isIgnored c then tokenize T rest
        else
          match T.mapped c with
          | some cs =>
            match tokenize T rest with
            | .error err => .error err
            | .ok atoms => .ok (cs.map Atom.text ++ atoms)
          | none =>
            if T.isDisallowed c then .error (.disallowedCharacter c)
            else
              match tokenize T rest with
              | .error err => .error err
              | .ok atoms => .ok (.text c :: atoms) := by
  cases hbe : bestEmoji T.emoji (c :: rest) with
  | some e =>
    obtain ⟨-, hne, hpre, -⟩ := bestEmoji_some hbe
    have hplen : 1 ≤ e.pattern.length := by
      cases hp : e.pattern with
      | nil => exact absurd hp hne
      | cons a l => simp
    show tokenizeF T (c :: rest).length (c :: rest) = _
    unfold tokenizeF
    simp only [List.length_cons, hbe]
    rw [show tokenizeF T rest.length (List.drop (e.pattern.length - 1) rest)
        = tokenize T (List.drop (e.pattern.length - 1) rest) from
      tokenizeF_congr T rest.length _ _ (by rw [List.length_drop]; omega) (le_refl _)]
  | none =>
    show tokenizeF T (c :: rest).length (c :: rest) = _
    unfold tokenizeF
    simp only [List.length_cons, hbe]
    rfl

theorem emojiCpB_of_mem (T : RuleTables) {f : EmojiEntry} (hf : f ∈ T.emoji) {c : Nat}
    (hc : c ∈ f.pattern) : emojiCpB T c = true := by
  unfold emojiCpB
  rw [List.any_eq_true]
  exact ⟨f, hf, List.elem_iff.mpr hc⟩

theorem bestEmoji_none_of_head (T : RuleTables) (c : Nat) (rest : List Nat)
    (hc : emojiCpB T c = false) : bestEmoji T.emoji (c :: rest) = none := by
  cases h : bestEmoji T.emoji (c :: rest) with
  | none => rfl
  | some f =>
    obtain ⟨hmem, hne, hpre, -⟩ := bestEmoji_some h
    exfalso
    cases hp : f.pattern with
    | nil => exact absurd hp hne
    | cons a l =>
      rw [hp] at hpre
      obtain ⟨t, ht⟩ := hpre
      have ha : a = c := by
        have := congrArg List.head? ht
        simp at this
        exact this
      have hcin : emojiCpB T c = true :=
        emojiCpB_of_mem T hmem (by rw [hp, ha]; exact List.mem_cons_self _ _)
      rw [hcin] at hc
      cases hc

theorem tok_step_plain (T : RuleTables) (c : Nat) (rest : List Nat) (atoms : List Atom)
    (hplain : plainB T c = true) (hrest : tokenize T rest = .ok atoms) :
    tokenize T (c :: rest) = .ok (.text c :: atoms) := by
  unfold plainB at hplain
  simp only [Bool.and_eq_true, Bool.not_eq_true', Option.isNone_iff_eq_none] at hplain
  obtain ⟨⟨⟨hig, hmap⟩, hdis⟩, hemoji⟩ := hplain
  rw [tokenize_cons]
  rw [bestEmoji_none_of_head T c rest hemoji]
  simp only [hig, Bool.false_eq_true, if_false, hmap, hdis, hrest]

theorem tok_step_mapped (T : RuleTables) (c : Nat) (cs : List Nat) (rest : List Nat)
    (atoms : List Atom) (hig : T.isIgnored c = false) (hm : T.mapped c = some cs)
    (hemoji : emojiCpB T c = false) (hrest : tokenize T rest = .ok atoms) :
    tokenize T (c :: rest) = .ok (cs.map Atom.text ++ atoms) := by
  rw [tokenize_cons]
  rw [bestEmoji_none_of_head T c rest hemoji]
  simp only [hig, Bool.false_eq_true, if_false, hm, hrest]

theorem tok_step_match (T : RuleTables) (s tail : List Nat) (atoms : List Atom)
    (f : EmojiEntry) (hbe : bestEmoji T.emoji (s ++ tail) = some f)
    (hfpat : f.pattern = s) (hsne : s ≠ [])
    (hrest : tokenize T tail = .ok atoms) :
    tokenize T (s ++ tail) = .ok (.emoji f :: atoms) := by
  cases hs : s with
  | nil => exact absurd hs hsne
  | cons a s2 =>
    subst hs
    rw [show (a :: s2) ++ tail = a :: (s2 ++ tail) from rfl] at hbe ⊢
    rw [tokenize_cons]
    simp only [hbe]
    have hlen : f.pattern.length - 1 = s2.length := by rw [hfpat]; simp
    rw [hlen, List.drop_left s2 tail]
    simp only [hrest]

theorem bestEmoji_at_seq (T : RuleTables) (s tail : List Nat)
    (hex : ∃ f ∈ T.emoji, f.pattern = s) (hne : s ≠ [])
    (hover : ∀ f ∈ T.emoji, ∀ c m, f.pattern = s ++ c :: m →
      ∀ g ∈ T.emoji, g.canonical.head? ≠ some c)
    (htail : HeadOK T tail) :
    ∃ f, bestEmoji T.emoji (s ++ tail) = some f ∧ f ∈ T.emoji ∧ f.pattern = s := by
  obtain ⟨f0, hf0mem, hf0pat⟩ := hex
  have hf0ne : f0.pattern ≠ [] := by rw [hf0pat]; exact hne
  have hf0pre : f0.pattern <+: s ++ tail := by rw [hf0pat]; exact List.prefix_append _ _
  obtain ⟨f, hbe⟩ := bestEmoji_isSome hf0mem hf0ne hf0pre
  obtain ⟨hfmem, hfne, hfpre, hfmax⟩ := bestEmoji_some hbe
  have hge : s.length ≤ f.pattern.length := by
    have h1 := hfmax f0 hf0mem hf0ne hf0pre
    rw [hf0pat] at h1
    exact h1
  have hle : f.pattern.length ≤ s.length := by
    by_contra hlt
    push_neg at hlt
    have htake := List.prefix_iff_eq_take.mp hfpre
    rw [List.take_append_eq_append_take] at htake
    rw [List.take_of_length_le (by omega)] at htake
    cases ht : tail with
    | nil =>
      subst ht
      simp only [List.take_nil, List.append_nil] at htake
      rw [htake] at hlt
      simp at hlt
    | cons d t2 =>
      subst ht
      have hk : 1 ≤ f.pattern.length - s.length := by omega
      rw [show (d :: t2).take (f.pattern.length - s.length)
          = d :: t2.take (f.pattern.length - s.length - 1) from by
        cases hkk : f.pattern.length - s.length with
        | zero => omega
        | succ k => simp] at htake
      rcases htail d rfl with hd | hd
      · have : emojiCpB T d = true := by
          refine emojiCpB_of_mem T hfmem ?_
          rw [htake]
          exact List.mem_append_right _ (List.mem_cons_self _ _)
        rw [this] at hd
        cases hd
      · obtain ⟨g, hgmem, hgh⟩ := hd
        exact hover f hfmem d _ htake g hgmem hgh
  have hlen : f.pattern.length = s.length := le_antisymm hle hge
  have hfpat : f.pattern = s := by
    have htake := List.prefix_iff_eq_take.mp hfpre
    rw [List.take_append_eq_append_take, hlen] at htake
    rw [List.take_of_length_le (le_refl _), Nat.sub_self] at htake
    simp only [List.take_zero, List.append_nil] at htake
    exact htake
  exact ⟨f, hbe, hfmem, hfpat⟩

theorem bestEmoji_at_canon (T : RuleTables) (hT : EnvOK T) (e : EmojiEntry)
    (he : e ∈ T.emoji) (tail : List Nat) (htail : HeadOK T tail) :
    ∃ f, bestEmoji T.emoji (e.canonical ++ tail) = some f ∧ f ∈ T.emoji ∧
      f.pattern = e.canonical ∧ f.canonical = e.canonical := by
  obtain ⟨f, hbe, hfmem, hfpat⟩ := bestEmoji_at_seq T e.canonical tail
    (hT.canon_ex e he) (hT.canon_ne e he)
    (fun f hf c m hdec => hT.over_canon e f he hf c m hdec) htail
  exact ⟨f, hbe, hfmem, hfpat, hT.canon_pat e f he hfmem hfpat⟩

theorem bestEmoji_at_beaut (T : RuleTables) (hT : EnvOK T) (e : EmojiEntry)
    (he : e ∈ T.emoji) (tail : List Nat) (htail : HeadOK T tail) :
    ∃ f, bestEmoji T.emoji (e.beautified ++ tail) = some f ∧ f ∈ T.emoji ∧
      f.pattern = e.beautified ∧ f.canonical = e.canonical := by
  obtain ⟨f, hbe, hfmem, hfpat⟩ := bestEmoji_at_seq T e.beautified tail
    (hT.beaut_ex e he) (hT.beaut_ne e he)
    (fun f hf c m hdec => hT.over_beaut e f he hf c m hdec) htail
  exact ⟨f, hbe, hfmem, hfpat, hT.beaut_pat e f he hfmem hfpat⟩

/-! ## Tokenizer output invariants -/

theorem atomsOK_nil (T : RuleTables) : AtomsOK T [] :=
  ⟨fun c hc => absurd hc (List.not_mem_nil _), fun e he => absurd he (List.not_mem_nil _)⟩

theorem atomsOK_cons_emoji (T : RuleTables) {e : EmojiEntry} {atoms : List Atom}
    (he : e ∈ T.emoji) (h : AtomsOK T atoms) : AtomsOK T (.emoji e :: atoms) := by
  obtain ⟨ht, hem⟩ := h
  constructor
  · intro c hc
    rcases List.mem_cons.mp hc with hc1 | hc2
    · cases hc1
    · exact ht c hc2
  · intro f hf
    rcases List.mem_cons.mp hf with hf1 | hf2
    · injection hf1 with hfe; rw [hfe]; exact he
    · exact hem f hf2

theorem atomsOK_cons_text (T : RuleTables) {c : Nat} {atoms : List Atom}
    (hc : (plainB T c = true ∧ ScalarCp c) ∨ c = 0x2E) (h : AtomsOK T atoms) :
    AtomsOK T (.text c :: atoms) := by
  obtain ⟨ht, hem⟩ := h
  constructor
  · intro d hd
    rcases List.mem_cons.mp hd with hd1 | hd2
    · injection hd1 with hdc; rw [hdc]; exact hc
    · exact ht d hd2
  · intro f hf
    rcases List.mem_cons.mp hf with hf1 | hf2
    · cases hf1
    · exact hem f hf2

theorem atomsOK_append_text (T : RuleTables) {cs : List Nat} {atoms : List Atom}
    (hcs : ∀ d ∈ cs, (plainB T d = true ∧ ScalarCp d) ∨ d = 0x2E) (h : AtomsOK T atoms) :
    AtomsOK T (cs.map Atom.text ++ atoms) := by
  induction cs with
  | nil => exact h
  | cons d rest ih =>
    have := ih (fun d2 hd2 => hcs d2 (List.mem_cons_of_mem _ hd2))
    exact atomsOK_cons_text T (hcs d (List.mem_cons_self _ _)) this

theorem tokenize_atoms_ok (T : RuleTables) (hT : EnvOK T) :
    ∀ n cps atoms, cps.length ≤ n → (∀ c ∈ cps, ScalarCp c) →
      tokenize T cps = .ok atoms → AtomsOK T atoms := by
  intro n
  induction n with
  | zero =>
    intro cps atoms hlen _ htok
    have : cps = [] := List.eq_nil_of_length_eq_zero (Nat.le_zero.mp hlen)
    subst this
    cases htok
    exact atomsOK_nil T
  | succ m ih =>
    intro cps atoms hlen hsc htok
    match cps with
    | [] =>
      cases htok
      exact atomsOK_nil T
    | c :: rest =>
      simp only [List.length_cons] at hlen
      rw [tokenize_cons] at htok
      cases hbe : bestEmoji T.emoji (c :: rest) with
      | some e =>
        simp only [hbe] at htok
        obtain ⟨hmem, hne, -, -⟩ := bestEmoji_some hbe
        cases hrec : tokenize T (List.drop (e.pattern.length - 1) rest) with
        | error err => rw [hrec] at htok; cases htok
        | ok atoms2 =>
          rw [hrec] at htok
          simp only [Except.ok.injEq] at htok
          subst htok
          refine atomsOK_cons_emoji T hmem ?_
          refine ih _ atoms2 ?_ ?_ hrec
          · rw [List.length_drop]; omega
          · intro d hd
            exact hsc d (List.mem_cons_of_mem _ (List.mem_of_mem_drop hd))
      | none =>
        simp only [hbe] at htok
        by_cases hi : T.isIgnored c
        · simp only [hi, if_true] at htok
          exact ih _ atoms (by omega) (fun d hd => hsc d (List.mem_cons_of_mem _ hd)) htok
        · simp only [hi, Bool.false_eq_true, if_false] at htok
          cases hm : T.mapped c with
          | some cs =>
            simp only [hm] at htok
            cases hrec : tokenize T rest with
            | error err => rw [hrec] at htok; cases htok
            | ok atoms2 =>
              rw [hrec] at htok
              simp only [Except.ok.injEq] at htok
              subst htok
              refine atomsOK_append_text T (hT.mapped_out c cs hm) ?_
              exact ih _ atoms2 (by omega)
                (fun d hd => hsc d (List.mem_cons_of_mem _ hd)) hrec
          | none =>
            simp only [hm] at htok
            by_cases hdis : T.isDisallowed c
            · simp only [hdis, if_true] at htok; cases htok
            · simp only [hdis, Bool.false_eq_true, if_false] at htok
              cases hrec : tokenize T rest with
              | error err => rw [hrec] at htok; cases htok
              | ok atoms2 =>
                rw [hrec] at htok
                simp only [Except.ok.injEq] at htok
                subst htok
                have hemoji : emojiCpB T c = false := by
                  cases hec : emojiCpB T c with
                  | false => rfl
                  | true =>
                    rcases hT.emoji_classified c hec with h1 | h1 | h1
                    · rw [h1] at hi; exact absurd rfl hi
                    · rw [hm] at h1; cases h1
                    · rw [h1] at hdis; exact absurd rfl hdis
                have hplain : plainB T c = true := by
                  unfold plainB
                  rw [Bool.and_eq_true, Bool.and_eq_true, Bool.and_eq_true]
                  refine ⟨⟨⟨?_, ?_⟩, ?_⟩, ?_⟩
                  · rw [Bool.not_eq_true']
                    cases hig2 : T.isIgnored c with
                    | false => rfl
                    | true => exact absurd rfl (hig2 ▸ hi)
                  · rw [hm]; rfl
                  · rw [Bool.not_eq_true']
                    cases hd2 : T.isDisallowed c with
                    | false => rfl
                    | true => exact absurd rfl (hd2 ▸ hdis)
                  · rw [Bool.not_eq_true', hemoji]
                refine atomsOK_cons_text T (Or.inl ⟨hplain, hsc c (List.mem_cons_self _ _)⟩) ?_
                exact ih _ atoms2 (by omega)
                  (fun d hd => hsc d (List.mem_cons_of_mem _ hd)) hrec

/-! ## Splitter lemmas -/

theorem splitCore_ne_nil (atoms : List Atom) : splitCore atoms ≠ [] := by
  induction atoms with
  | nil => simp [splitCore]
  | cons a rest ih =>
    unfold splitCore
    by_cases hs : a.isSep = true
    · simp [hs]
    · simp only [hs, Bool.false_eq_true, if_false]
      cases h : splitCore rest with
      | nil => simp
      | cons l ls => simp

theorem splitCore_pieces : ∀ atoms : List Atom, ∀ l ∈ splitCore atoms,
    sepFreeAtoms l ∧ ∀ a ∈ l, a ∈ atoms := by
  intro atoms
  induction atoms with
  | nil =>
    intro l hl
    rcases List.mem_singleton.mp hl with rfl
    exact ⟨fun a ha => absurd ha (List.not_mem_nil _), fun a ha => absurd ha (List.not_mem_nil _)⟩
  | cons a rest ih =>
    intro l hl
    unfold splitCore at hl
    by_cases hs : a.isSep = true
    · simp only [hs, if_true] at hl
      rcases List.mem_cons.mp hl with rfl | hl2
      · exact ⟨fun x hx => absurd hx (List.not_mem_nil _),
          fun x hx => absurd hx (List.not_mem_nil _)⟩
      · obtain ⟨h1, h2⟩ := ih l hl2
        exact ⟨h1, fun x hx => List.mem_cons_of_mem _ (h2 x hx)⟩
    · simp only [hs, Bool.false_eq_true, if_false] at hl
      cases h : splitCore rest with
      | nil => exact absurd h (splitCore_ne_nil rest)
      | cons p ps =>
        rw [h] at hl
        rcases List.mem_cons.mp hl with rfl | hl2
        · obtain ⟨h1, h2⟩ := ih p (by rw [h]; exact List.mem_cons_self _ _)
          constructor
          · intro x hx
            rcases List.mem_cons.mp hx with rfl | hx2
            · rw [Bool.eq_false_iff]; intro hxs; exact hs hxs
            · exact h1 x hx2
          · intro x hx
            rcases List.mem_cons.mp hx with rfl | hx2
            · exact List.mem_cons_self _ _
            · exact List.mem_cons_of_mem _ (h2 x hx2)
        · obtain ⟨h1, h2⟩ := ih l (by rw [h]; exact List.mem_cons_of_mem _ hl2)
          exact ⟨h1, fun x hx => List.mem_cons_of_mem _ (h2 x hx)⟩

theorem splitAtoms_pieces (atoms : List Atom) : ∀ l ∈ splitAtoms atoms,
    sepFreeAtoms l ∧ ∀ a ∈ l, a ∈ atoms := by
  unfold splitAtoms
  by_cases h : atoms.isEmpty
  · simp [h]
  · simp only [h, Bool.false_eq_true, if_false]
    exact splitCore_pieces atoms

theorem splitCore_cons_notSep (a : Atom) (rest : List Atom) (ha : a.isSep = false) :
    splitCore (a :: rest) =
      match splitCore rest with
      | l :: ls => (a :: l) :: ls
      | [] => [[a]] := by
  cases h : splitCore rest with
  | nil =>
    unfold splitCore
    simp only [ha, Bool.false_eq_true, if_false, h]
  | cons l ls =>
    unfold splitCore
    simp only [ha, Bool.false_eq_true, if_false, h]

theorem splitCore_sepFree_eq (atoms : List Atom) (h : sepFreeAtoms atoms) :
    splitCore atoms = [atoms] := by
  induction atoms with
  | nil => rfl
  | cons a rest ih =>
    rw [splitCore_cons_notSep a rest (h a (List.mem_cons_self _ _))]
    rw [ih (fun x hx => h x (List.mem_cons_of_mem _ hx))]

theorem splitCore_append_sep (xs rest : List Atom) (h : sepFreeAtoms xs) :
    splitCore (xs ++ Atom.text 0x2E :: rest) = xs :: splitCore rest := by
  induction xs with
  | nil =>
    rw [List.nil_append]
    rfl
  | cons a xs2 ih =>
    rw [List.cons_append]
    rw [splitCore_cons_notSep a _ (h a (List.mem_cons_self _ _))]
    rw [ih (fun x hx => h x (List.mem_cons_of_mem _ hx))]

theorem splitCore_joinSep : ∀ Ls : List (List Atom), Ls ≠ [] →
    (∀ l ∈ Ls, sepFreeAtoms l) → splitCore (joinSepAtoms Ls) = Ls := by
  intro Ls
  induction Ls with
  | nil => intro h _; exact absurd rfl h
  | cons l rest ih =>
    intro _ hsf
    cases rest with
    | nil =>
      show splitCore (joinSepAtoms [l]) = [l]
      unfold joinSepAtoms
      exact splitCore_sepFree_eq l (hsf l (List.mem_cons_self _ _))
    | cons r rest2 =>
      show splitCore (l ++ Atom.text 0x2E :: joinSepAtoms (r :: rest2)) = l :: r :: rest2
      rw [splitCore_append_sep l _ (hsf l (List.mem_cons_self _ _))]
      rw [ih (by simp) (fun x hx => hsf x (List.mem_cons_of_mem _ hx))]

theorem splitAtoms_joinSep (Ls : List (List Atom))
    (hne : ∀ l ∈ Ls, l ≠ []) (hsf : ∀ l ∈ Ls, sepFreeAtoms l) :
    splitAtoms (joinSepAtoms Ls) = Ls := by
  cases Ls with
  | nil => rfl
  | cons l rest =>
    unfold splitAtoms
    have hjne : (joinSepAtoms (l :: rest)).isEmpty = false := by
      cases rest with
      | nil =>
        show l.isEmpty = false
        cases hl : l with
        | nil => exact absurd hl (hne l (List.mem_cons_self _ _))
        | cons a l2 => rfl
      | cons r rest2 =>
        show (l ++ Atom.text 0x2E :: joinSepAtoms (r :: rest2)).isEmpty = false
        cases hl : l with
        | nil => rfl
        | cons a l2 => rfl
    simp only [hjne, Bool.false_eq_true, if_false]
    exact splitCore_joinSep (l :: rest) (by simp) hsf

/-! ## Segment lemmas -/

theorem toSegs_emoji (e : EmojiEntry) (rest : List Atom) :
    toSegs (.emoji e :: rest) = .emo e :: toSegs rest := rfl

theorem toSegs_text_txtHead (c : Nat) (rest : List Atom) (cs : List Nat) (ss : List Seg)
    (h : toSegs rest = .txt cs :: ss) : toSegs (.text c :: rest) = .txt (c :: cs) :: ss := by
  unfold toSegs
  simp only [h]

theorem toSegs_text_emoHead (c : Nat) (rest : List Atom) (e : EmojiEntry) (ss : List Seg)
    (h : toSegs rest = .emo e :: ss) :
    toSegs (.text c :: rest) = .txt [c] :: .emo e :: ss := by
  unfold toSegs
  simp only [h]

theorem toSegs_text_nil (c : Nat) (rest : List Atom) (h : toSegs rest = []) :
    toSegs (.text c :: rest) = [.txt [c]] := by
  unfold toSegs
  simp only [h]

theorem altTxtB_two (a b : Seg) (rest : List Seg) :
    altTxtB (a :: b :: rest) = (!(a.isTxt && b.isTxt) && altTxtB (b :: rest)) := rfl

theorem toSegs_spec : ∀ atoms : List Atom,
    (∀ cs, Seg.txt cs ∈ toSegs atoms → cs ≠ [] ∧ ∀ c ∈ cs, Atom.text c ∈ atoms) ∧
    (∀ e, Seg.emo e ∈ toSegs atoms → Atom.emoji e ∈ atoms) ∧
    altTxtB (toSegs atoms) = true := by
  intro atoms
  induction atoms with
  | nil =>
    refine ⟨?_, ?_, rfl⟩
    · intro cs hcs; cases hcs
    · intro e he; cases he
  | cons a rest ih =>
    obtain ⟨iht, ihe, iha⟩ := ih
    cases a with
    | emoji e =>
      rw [toSegs_emoji]
      refine ⟨?_, ?_, ?_⟩
      · intro cs hcs
        rcases List.mem_cons.mp hcs with h1 | h2
        · cases h1
        · obtain ⟨h3, h4⟩ := iht cs h2
          exact ⟨h3, fun c hc => List.mem_cons_of_mem _ (h4 c hc)⟩
      · intro f hf
        rcases List.mem_cons.mp hf with h1 | h2
        · injection h1 with he2
          rw [he2]
          exact List.mem_cons_self _ _
        · exact List.mem_cons_of_mem _ (ihe f h2)
      · cases hts : toSegs rest with
        | nil => rfl
        | cons s ss =>
          rw [altTxtB_two]
          rw [hts] at iha
          simp only [iha, Bool.and_true]
          rfl
    | text c =>
      cases hts : toSegs rest with
      | nil =>
        rw [toSegs_text_nil c rest hts]
        refine ⟨?_, ?_, rfl⟩
        · intro cs hcs
          rcases List.mem_singleton.mp hcs with h1
          injection h1 with h2
          subst h2
          refine ⟨by simp, ?_⟩
          intro d hd
          rcases List.mem_singleton.mp hd with rfl
          exact List.mem_cons_self _ _
        · intro f hf
          rcases List.mem_singleton.mp hf with h1
          cases h1
      | cons s ss =>
        cases s with
        | txt cs =>
          rw [toSegs_text_txtHead c rest cs ss hts]
          rw [hts] at iht ihe iha
          refine ⟨?_, ?_, ?_⟩
          · intro cs2 hcs2
            rcases List.mem_cons.mp hcs2 with h1 | h2
            · injection h1 with h2
              subst h2
              obtain ⟨-, h4⟩ := iht cs (List.mem_cons_self _ _)
              refine ⟨by simp, ?_⟩
              intro d hd
              rcases List.mem_cons.mp hd with rfl | hd2
              · exact List.mem_cons_self _ _
              · exact List.mem_cons_of_mem _ (h4 d hd2)
            · obtain ⟨h3, h4⟩ := iht cs2 (List.mem_cons_of_mem _ h2)
              exact ⟨h3, fun d hd => List.mem_cons_of_mem _ (h4 d hd)⟩
          · intro f hf
            rcases List.mem_cons.mp hf with h1 | h2
            · cases h1
            · exact List.mem_cons_of_mem _ (ihe f (List.mem_cons_of_mem _ h2))
          · cases ss with
            | nil => rfl
            | cons s2 ss2 =>
              rw [altTxtB_two]
              rw [altTxtB_two] at iha
              rw [Bool.and_eq_true] at iha
              obtain ⟨iha1, iha2⟩ := iha
              rw [Bool.and_eq_true]
              refine ⟨?_, iha2⟩
              exact iha1
        | emo e =>
          rw [toSegs_text_emoHead c rest e ss hts]
          rw [hts] at iht ihe iha
          refine ⟨?_, ?_, ?_⟩
          · intro cs2 hcs2
            rcases List.mem_cons.mp hcs2 with h1 | h2
            · injection h1 with h2
              subst h2
              refine ⟨by simp, ?_⟩
              intro d hd
              rcases List.mem_singleton.mp hd with rfl
              exact List.mem_cons_self _ _
            · obtain ⟨h3, h4⟩ := iht cs2 h2
              exact ⟨h3, fun d hd => List.mem_cons_of_mem _ (h4 d hd)⟩
          · intro f hf
            rcases List.mem_cons.mp hf with h1 | h2
            · cases h1
            · exact List.mem_cons_of_mem _ (ihe f h2)
          · rw [altTxtB_two]
            simp only [iha, Bool.and_true]
            rfl

theorem altTxtB_tail (s : Seg) (rest : List Seg) (h : altTxtB (s :: rest) = true) :
    altTxtB rest = true := by
  cases rest with
  | nil => rfl
  | cons s2 rest2 =>
    rw [altTxtB_two, Bool.and_eq_true] at h
    exact h.2

theorem segsToAtoms_cons (s : Seg) (segs : List Seg) :
    segsToAtoms (s :: segs) = segAtoms s ++ segsToAtoms segs := by
  unfold segsToAtoms
  simp

theorem toSegs_append_text (cs : List Nat) (X : List Atom) (hne : cs ≠ [])
    (hX : toSegs X = [] ∨ ∃ e ss, toSegs X = .emo e :: ss) :
    toSegs (cs.map Atom.text ++ X) = .txt cs :: toSegs X := by
  induction cs with
  | nil => exact absurd rfl hne
  | cons c cs2 ih =>
    cases cs2 with
    | nil =>
      rw [show ([c].map Atom.text ++ X) = Atom.text c :: X from rfl]
      rcases hX with h | ⟨e, ss, h⟩
      · rw [toSegs_text_nil c X h, h]
      · rw [toSegs_text_emoHead c X e ss h, h]
    | cons c2 cs3 =>
      have hrec := ih (by simp)
      rw [show ((c :: c2 :: cs3).map Atom.text ++ X)
          = Atom.text c :: ((c2 :: cs3).map Atom.text ++ X) from rfl]
      rw [toSegs_text_txtHead c _ (c2 :: cs3) (toSegs X) hrec]

theorem toSegs_segsToAtoms : ∀ segs : List Seg, altTxtB segs = true →
    (∀ cs, Seg.txt cs ∈ segs → cs ≠ []) → toSegs (segsToAtoms segs) = segs := by
  intro segs
  induction segs with
  | nil => intro _ _; rfl
  | cons s rest ih =>
    intro halt hne
    have hrest := ih (altTxtB_tail s rest halt)
      (fun cs hcs => hne cs (List.mem_cons_of_mem _ hcs))
    rw [segsToAtoms_cons]
    cases s with
    | emo e =>
      rw [show segAtoms (Seg.emo e) = [Atom.emoji e] from rfl]
      rw [show [Atom.emoji e] ++ segsToAtoms rest = Atom.emoji e :: segsToAtoms rest from rfl]
      rw [toSegs_emoji, hrest]
    | txt cs =>
      rw [show segAtoms (Seg.txt cs) = cs.map Atom.text from rfl]
      have hX : toSegs (segsToAtoms rest) = [] ∨
          ∃ e ss, toSegs (segsToAtoms rest) = .emo e :: ss := by
        cases hr : rest with
        | nil => left; rfl
        | cons s2 rest2 =>
          subst hr
          rw [altTxtB_two, Bool.and_eq_true] at halt
          have hs2 : s2.isTxt = false := by
            have h1 := halt.1
            rw [Bool.not_eq_true', Bool.and_eq_false_iff] at h1
            rcases h1 with h2 | h2
            · cases h2
            · exact h2
          cases s2 with
          | txt cs2 => cases hs2
          | emo e => right; exact ⟨e, rest2, by rw [hrest]⟩
      rw [toSegs_append_text cs _ (hne cs (List.mem_cons_self _ _)) hX, hrest]

/-! ## Segment-relation invariance -/

theorem segRel_isTxt {s s2 : Seg} (h : SegRel s s2) : s2.isTxt = s.isTxt := by
  cases h <;> rfl

theorem segsRel_labelText : ∀ {s s2 : List Seg}, SegsRel s s2 → labelText s2 = labelText s := by
  intro s s2 h
  induction h with
  | nil => rfl
  | cons hab hrest ih =>
    unfold labelText at ih ⊢
    simp only [List.map_cons, List.flatten_cons]
    rw [ih]
    cases hab with
    | txt cs => rfl
    | emo e f hef => rfl

theorem segsRel_hasEmoji : ∀ {s s2 : List Seg}, SegsRel s s2 →
    hasEmojiSeg s2 = hasEmojiSeg s := by
  intro s s2 h
  induction h with
  | nil => rfl
  | cons hab hrest ih =>
    unfold hasEmojiSeg at ih ⊢
    simp only [List.any_cons]
    rw [ih, segRel_isTxt hab]

theorem segsRel_altTxt : ∀ {s s2 : List Seg}, SegsRel s s2 → altTxtB s2 = altTxtB s := by
  intro s s2 h
  induction h with
  | nil => rfl
  | cons hab hrest ih =>
    next a b l l2 =>
      cases hrest with
      | nil => cases hab <;> rfl
      | cons hab2 hrest2 =>
        next a2 b2 l3 l4 =>
          rw [altTxtB_two, altTxtB_two]
          have ht1 := segRel_isTxt hab
          have ht2 := segRel_isTxt hab2
          rw [ht1, ht2]
          have : altTxtB (b2 :: l4) = altTxtB (a2 :: l3) := ih
          rw [this]

theorem segsRel_cmLead (T : RuleTables) : ∀ {s s2 : List Seg}, SegsRel s s2 →
    cmLeadOk T s2 = cmLeadOk T s := by
  intro s s2 h
  cases h with
  | nil => rfl
  | cons hab hrest =>
    cases hab with
    | txt cs => cases cs <;> rfl
    | emo e f hef => rfl

theorem segsRel_cmAfterEmoji (T : RuleTables) : ∀ {s s2 : List Seg}, SegsRel s s2 →
    cmAfterEmojiOk T s2 = cmAfterEmojiOk T s := by
  intro s
  induction s with
  | nil =>
    intro s2 h
    cases h
    rfl
  | cons a l ih =>
    intro s2 h
    cases h with
    | cons hab hrest =>
      next b l2 =>
        cases hab with
        | txt cs =>
          rw [show cmAfterEmojiOk T (Seg.txt cs :: l2) = cmAfterEmojiOk T l2 from rfl]
          rw [show cmAfterEmojiOk T (Seg.txt cs :: l) = cmAfterEmojiOk T l from rfl]
          exact ih hrest
        | emo e f hef =>
          cases hrest with
          | nil => rfl
          | cons hab2 hrest2 =>
            next a2 b2 l3 l4 =>
              cases hab2 with
              | txt cs2 =>
                cases cs2 with
                | nil =>
                  rw [show cmAfterEmojiOk T (Seg.emo f :: Seg.txt [] :: l4)
                      = cmAfterEmojiOk T (Seg.txt [] :: l4) from rfl]
                  rw [show cmAfterEmojiOk T (Seg.emo e :: Seg.txt [] :: l3)
                      = cmAfterEmojiOk T (Seg.txt [] :: l3) from rfl]
                  exact ih (List.Forall₂.cons (SegRel.txt []) hrest2)
                | cons c cs3 =>
                  rw [show cmAfterEmojiOk T (Seg.emo f :: Seg.txt (c :: cs3) :: l4)
                      = (!T.isCM c && cmAfterEmojiOk T (Seg.txt (c :: cs3) :: l4)) from rfl]
                  rw [show cmAfterEmojiOk T (Seg.emo e :: Seg.txt (c :: cs3) :: l3)
                      = (!T.isCM c && cmAfterEmojiOk T (Seg.txt (c :: cs3) :: l3)) from rfl]
                  rw [ih (List.Forall₂.cons (SegRel.txt (c :: cs3)) hrest2)]
              | emo e2 f2 hef2 =>
                rw [show cmAfterEmojiOk T (Seg.emo f :: Seg.emo f2 :: l4)
                    = cmAfterEmojiOk T (Seg.emo f2 :: l4) from rfl]
                rw [show cmAfterEmojiOk T (Seg.emo e :: Seg.emo e2 :: l3)
                    = cmAfterEmojiOk T (Seg.emo e2 :: l3) from rfl]
                exact ih (List.Forall₂.cons (SegRel.emo e2 f2 hef2) hrest2)

/-! ## Validator invariance and extraction -/

theorem checkSegs_rel (T : RuleTables) {segs segs2 : List Seg} (h : SegsRel segs segs2) :
    checkSegs T segs2 = checkSegs T segs := by
  simp only [checkSegs]
  rw [segsRel_labelText h, segsRel_hasEmoji h, segsRel_cmLead T h, segsRel_cmAfterEmoji T h]

theorem validateLabel_ok (T : RuleTables) (atoms : List Atom) (v : VLabel)
    (h : validateLabel T atoms = .ok v) :
    atoms ≠ [] ∧ v.segs = nfcSegs T (toSegs atoms) ∧ checkSegs T v.segs = .ok v.sel := by
  unfold validateLabel at h
  by_cases he : atoms.isEmpty
  · rw [if_pos he] at h; cases h
  · rw [if_neg he] at h
    cases hc : checkSegs T (nfcSegs T (toSegs atoms)) with
    | error e =>
      simp only [hc] at h
      cases h
    | ok sel =>
      simp only [hc] at h
      injection h with hv
      subst hv
      refine ⟨?_, rfl, by rw [hc]⟩
      intro hnil
      subst hnil
      exact he rfl

theorem atomsOK_sub (T : RuleTables) {atoms l : List Atom} (h : AtomsOK T atoms)
    (hsub : ∀ a ∈ l, a ∈ atoms) : AtomsOK T l :=
  ⟨fun c hc => h.1 c (hsub _ hc), fun e he => h.2 e (hsub _ he)⟩

theorem nfcSeg_isTxt (T : RuleTables) (s : Seg) : (nfcSeg T s).isTxt = s.isTxt := by
  cases s <;> rfl

theorem nfcSegs_altTxt (T : RuleTables) : ∀ segs : List Seg,
    altTxtB (nfcSegs T segs) = altTxtB segs := by
  intro segs
  induction segs with
  | nil => rfl
  | cons s rest ih =>
    cases rest with
    | nil => cases s <;> rfl
    | cons s2 rest2 =>
      show altTxtB (nfcSeg T s :: nfcSeg T s2 :: nfcSegs T rest2) = _
      rw [altTxtB_two, altTxtB_two, nfcSeg_isTxt, nfcSeg_isTxt]
      have h2 : altTxtB (nfcSegs T (s2 :: rest2)) = altTxtB (s2 :: rest2) := ih
      rw [show nfcSegs T (s2 :: rest2) = nfcSeg T s2 :: nfcSegs T rest2 from rfl] at h2
      rw [h2]

theorem prep_segsOK (T : RuleTables) (hT : EnvOK T) (atoms : List Atom)
    (hOK : AtomsOK T atoms) (hsf : sepFreeAtoms atoms) :
    SegsOK T (nfcSegs T (toSegs atoms)) := by
  obtain ⟨htxt, hemo, halt⟩ := toSegs_spec atoms
  refine ⟨?_, ?_, ?_⟩
  · rw [nfcSegs_altTxt]; exact halt
  · intro cs2 hmem
    unfold nfcSegs at hmem
    obtain ⟨s, hs, hmap⟩ := List.mem_map.mp hmem
    cases s with
    | emo e => simp [nfcSeg] at hmap
    | txt cs =>
      have hmap2 : Seg.txt (T.nfc cs) = Seg.txt cs2 := hmap
      injection hmap2 with hcs
      subst hcs
      obtain ⟨hne, hmemcs⟩ := htxt cs hs
      have hout : ∀ c ∈ cs, OutCp T c := by
        intro c hc
        have hatom := hmemcs c hc
        rcases hOK.1 c hatom with ⟨hp, hscal⟩ | h2e
        · refine ⟨hp, hscal, ?_⟩
          intro h2e2
          subst h2e2
          have := hsf (Atom.text 0x2E) hatom
          simp [Atom.isSep] at this
        · subst h2e
          have := hsf (Atom.text 0x2E) hatom
          simp [Atom.isSep] at this
      exact ⟨hT.nfc_ne cs hne, hT.nfc_idem cs, hT.nfc_plain cs hout⟩
  · intro e hmem
    unfold nfcSegs at hmem
    obtain ⟨s, hs, hmap⟩ := List.mem_map.mp hmem
    cases s with
    | txt cs => simp [nfcSeg] at hmap
    | emo f =>
      have hmap2 : Seg.emo f = Seg.emo e := hmap
      injection hmap2 with hf
      subst hf
      exact hOK.2 f (hemo f hs)

theorem segsOK_tail (T : RuleTables) {s : Seg} {rest : List Seg}
    (h : SegsOK T (s :: rest)) : SegsOK T rest := by
  obtain ⟨halt, htxt, hemo⟩ := h
  exact ⟨altTxtB_tail s rest halt,
    fun cs hcs => htxt cs (List.mem_cons_of_mem _ hcs),
    fun e he => hemo e (List.mem_cons_of_mem _ he)⟩

theorem segsRel_nfc_fixed (T : RuleTables) : ∀ {segs segs2 : List Seg}, SegsRel segs segs2 →
    (∀ cs, Seg.txt cs ∈ segs → T.nfc cs = cs) → nfcSegs T segs2 = segs2 := by
  intro segs segs2 h
  induction h with
  | nil => intro _; rfl
  | cons hab hrest ih =>
    intro hfix
    show nfcSeg T _ :: nfcSegs T _ = _
    rw [ih (fun cs hcs => hfix cs (List.mem_cons_of_mem _ hcs))]
    cases hab with
    | txt cs =>
      show Seg.txt (T.nfc cs) :: _ = _
      rw [hfix cs (List.mem_cons_self _ _)]
    | emo e f hef => rfl

theorem segsRel_txt_ne (T : RuleTables) : ∀ {segs segs2 : List Seg}, SegsRel segs segs2 →
    (∀ cs, Seg.txt cs ∈ segs → cs ≠ []) →
    ∀ cs, Seg.txt cs ∈ segs2 → cs ≠ [] := by
  intro segs segs2 h
  induction h with
  | nil => intro _ cs hcs; cases hcs
  | cons hab hrest ih =>
    intro hne cs hcs
    rcases List.mem_cons.mp hcs with h1 | h2
    · cases hab with
      | txt cs0 =>
        injection h1 with h3
        subst h3
        exact hne cs (List.mem_cons_self _ _)
      | emo e f hef => cases h1
    · exact ih (fun cs2 hcs2 => hne cs2 (List.mem_cons_of_mem _ hcs2)) cs h2

/-! ## Re-tokenization of rendered output -/

theorem head_append_ne {l t : List Nat} (h : l ≠ []) : (l ++ t).head? = l.head? := by
  cases l with
  | nil => exact absurd rfl h
  | cons a l2 => rfl

theorem headOK_nil (T : RuleTables) : HeadOK T [] := by
  intro c hc
  cases hc

theorem headOK_cons_sep (T : RuleTables) (hT : EnvOK T) (t : List Nat) :
    HeadOK T (0x2E :: t) := by
  intro c hc
  injection hc with hc2
  subst hc2
  left
  have := hT.sep_plain
  unfold plainB at this
  simp only [Bool.and_eq_true, Bool.not_eq_true'] at this
  exact this.2

theorem xiSwap_eq_of_ne (c : Nat) (h : c ≠ 0x3BE) : xiSwap c = c := by
  unfold xiSwap
  simp [h]

theorem retok_run_plain (T : RuleTables) :
    ∀ cs : List Nat, (∀ c ∈ cs, OutCp T c) → ∀ X atomsX, tokenize T X = .ok atomsX →
      tokenize T (cs ++ X) = .ok (cs.map Atom.text ++ atomsX) := by
  intro cs
  induction cs with
  | nil =>
    intro _ X atomsX hX
    rw [List.nil_append, List.map_nil, List.nil_append]
    exact hX
  | cons c cs2 ih =>
    intro hout X atomsX hX
    rw [List.cons_append]
    have hrec := ih (fun d hd => hout d (List.mem_cons_of_mem _ hd)) X atomsX hX
    have hp := (hout c (List.mem_cons_self _ _)).1
    exact tok_step_plain T c (cs2 ++ X) _ hp hrec

theorem retok_run_swap (T : RuleTables) (hT : EnvOK T) :
    ∀ cs : List Nat, (∀ c ∈ cs, OutCp T c) → ∀ X atomsX, tokenize T X = .ok atomsX →
      tokenize T (cs.map xiSwap ++ X) = .ok (cs.map Atom.text ++ atomsX) := by
  intro cs
  induction cs with
  | nil =>
    intro _ X atomsX hX
    rw [List.map_nil, List.nil_append, List.map_nil, List.nil_append]
    exact hX
  | cons c cs2 ih =>
    intro hout X atomsX hX
    rw [List.map_cons, List.cons_append]
    have hrec := ih (fun d hd => hout d (List.mem_cons_of_mem _ hd)) X atomsX hX
    by_cases hxi : c = 0x3BE
    · subst hxi
      rw [show xiSwap 0x3BE = 0x39E from rfl]
      have hstep := tok_step_mapped T 0x39E [0x3BE] (cs2.map xiSwap ++ X) _
        hT.xi_not_ignored hT.xi_map hT.xi_not_emoji hrec
      rw [hstep]
      rfl
    · rw [xiSwap_eq_of_ne c hxi]
      have hp := (hout c (List.mem_cons_self _ _)).1
      exact tok_step_plain T c _ _ hp hrec

theorem renderSeg_txt_norm (g : Bool) (cs : List Nat) :
    renderSeg .norm g (.txt cs) = cs := rfl

theorem renderSeg_txt_beaut (g : Bool) (cs : List Nat) :
    renderSeg .beaut g (.txt cs) = if g then cs.map xiSwap else cs := rfl

theorem renderSeg_emo_norm (g : Bool) (e : EmojiEntry) :
    renderSeg .norm g (.emo e) = e.canonical := rfl

theorem renderSeg_emo_beaut (g : Bool) (e : EmojiEntry) :
    renderSeg .beaut g (.emo e) = e.beautified := rfl

theorem retok_run (T : RuleTables) (hT : EnvOK T) (m : Mode) (g : Bool)
    (cs : List Nat) (hout : ∀ c ∈ cs, OutCp T c) (X : List Nat) (atomsX : List Atom)
    (hX : tokenize T X = .ok atomsX) :
    tokenize T (renderSeg m g (.txt cs) ++ X) = .ok (cs.map Atom.text ++ atomsX) := by
  cases m with
  | norm =>
    rw [renderSeg_txt_norm]
    exact retok_run_plain T cs hout X atomsX hX
  | beaut =>
    rw [renderSeg_txt_beaut]
    cases g with
    | true =>
      rw [if_pos rfl]
      exact retok_run_swap T hT cs hout X atomsX hX
    | false =>
      rw [if_neg (by simp)]
      exact retok_run_plain T cs hout X atomsX hX

theorem renderSeg_ne_nil (T : RuleTables) (hT : EnvOK T) (m : Mode) (g : Bool)
    (s : Seg) (hOK : SegsOK T [s]) : renderSeg m g s ≠ [] := by
  cases s with
  | txt cs =>
    have hne := (hOK.2.1 cs (List.mem_singleton.mpr rfl)).1
    cases m with
    | norm => rw [renderSeg_txt_norm]; exact hne
    | beaut =>
      rw [renderSeg_txt_beaut]
      cases g with
      | true =>
        rw [if_pos rfl]
        intro hnil
        exact hne (List.map_eq_nil.mp hnil)
      | false => rw [if_neg (by simp)]; exact hne
  | emo e =>
    have hmem := hOK.2.2 e (List.mem_singleton.mpr rfl)
    cases m with
    | norm => rw [renderSeg_emo_norm]; exact hT.canon_ne e hmem
    | beaut => rw [renderSeg_emo_beaut]; exact hT.beaut_ne e hmem

theorem headOK_renderSeg_head (T : RuleTables) (hT : EnvOK T) (m : Mode) (g : Bool)
    (s : Seg) (hOK : SegsOK T [s]) (c : Nat)
    (hc : (renderSeg m g s).head? = some c) :
    emojiCpB T c = false ∨ canonHead T c := by
  cases s with
  | txt cs =>
    have hout := (hOK.2.1 cs (List.mem_singleton.mpr rfl)).2.2
    cases m with
    | norm =>
      rw [renderSeg_txt_norm] at hc
      cases cs with
      | nil => cases hc
      | cons c0 cs2 =>
        injection hc with hc2
        subst hc2
        left
        have := (hout c0 (List.mem_cons_self _ _)).1
        unfold plainB at this
        simp only [Bool.and_eq_true, Bool.not_eq_true'] at this
        exact this.2
    | beaut =>
      rw [renderSeg_txt_beaut] at hc
      cases g with
      | false =>
        rw [if_neg (by simp)] at hc
        cases cs with
        | nil => cases hc
        | cons c0 cs2 =>
          injection hc with hc2
          subst hc2
          left
          have := (hout c0 (List.mem_cons_self _ _)).1
          unfold plainB at this
          simp only [Bool.and_eq_true, Bool.not_eq_true'] at this
          exact this.2
      | true =>
        rw [if_pos rfl] at hc
        cases cs with
        | nil => cases hc
        | cons c0 cs2 =>
          rw [List.map_cons] at hc
          injection hc with hc2
          subst hc2
          left
          by_cases hxi : c0 = 0x3BE
          · subst hxi
            rw [show xiSwap 0x3BE = 0x39E from rfl]
            exact hT.xi_not_emoji
          · rw [xiSwap_eq_of_ne c0 hxi]
            have := (hout c0 (List.mem_cons_self _ _)).1
            unfold plainB at this
            simp only [Bool.and_eq_true, Bool.not_eq_true'] at this
            exact this.2
  | emo e =>
    have hmem := hOK.2.2 e (List.mem_singleton.mpr rfl)
    right
    cases m with
    | norm =>
      rw [renderSeg_emo_norm] at hc
      exact ⟨e, hmem, hc⟩
    | beaut =>
      rw [renderSeg_emo_beaut] at hc
      rw [hT.beaut_head e hmem] at hc
      exact ⟨e, hmem, hc⟩

theorem segsOK_single_of_head (T : RuleTables) {s : Seg} {rest : List Seg}
    (h : SegsOK T (s :: rest)) : SegsOK T [s] := by
  obtain ⟨halt, htxt, hemo⟩ := h
  refine ⟨rfl, ?_, ?_⟩
  · intro cs hcs
    rcases List.mem_singleton.mp hcs with rfl
    exact htxt cs (List.mem_cons_self _ _)
  · intro e he
    rcases List.mem_singleton.mp he with rfl
    exact hemo e (List.mem_cons_self _ _)

theorem headOK_render (T : RuleTables) (hT : EnvOK T) (m : Mode) (g : Bool) :
    ∀ segs : List Seg, SegsOK T segs → ∀ tail, HeadOK T tail →
      HeadOK T ((segs.map (renderSeg m g)).flatten ++ tail) := by
  intro segs hOK tail htail
  cases segs with
  | nil =>
    rw [List.map_nil, List.flatten_nil, List.nil_append]
    exact htail
  | cons s rest =>
    rw [List.map_cons, List.flatten_cons, List.append_assoc]
    have hne := renderSeg_ne_nil T hT m g s (segsOK_single_of_head T hOK)
    intro c hc
    rw [head_append_ne hne] at hc
    exact headOK_renderSeg_head T hT m g s (segsOK_single_of_head T hOK) c hc

theorem retok_label (T : RuleTables) (hT : EnvOK T) (m : Mode) (g : Bool) :
    ∀ segs : List Seg, SegsOK T segs → ∀ tail restAtoms, HeadOK T tail →
      tokenize T tail = .ok restAtoms →
      ∃ segs2, SegsRel segs segs2 ∧ (∀ e, Seg.emo e ∈ segs2 → e ∈ T.emoji) ∧
        tokenize T ((segs.map (renderSeg m g)).flatten ++ tail) =
          .ok (segsToAtoms segs2 ++ restAtoms) := by
  intro segs
  induction segs with
  | nil =>
    intro _ tail restAtoms _ htok
    refine ⟨[], List.Forall₂.nil, ?_, ?_⟩
    · intro e he; cases he
    · rw [List.map_nil, List.flatten_nil, List.nil_append]
      rw [show segsToAtoms [] = [] from rfl, List.nil_append]
      exact htok
  | cons s rest ih =>
    intro hOK tail restAtoms htail htok
    obtain ⟨segs2, hrel, hmem2, htokrest⟩ := ih (segsOK_tail T hOK) tail restAtoms htail htok
    have htailOK : HeadOK T ((rest.map (renderSeg m g)).flatten ++ tail) :=
      headOK_render T hT m g rest (segsOK_tail T hOK) tail htail
    rw [List.map_cons, List.flatten_cons, List.append_assoc]
    cases s with
    | txt cs =>
      have hcs := hOK.2.1 cs (List.mem_cons_self _ _)
      have hstep := retok_run T hT m g cs hcs.2.2 _ _ htokrest
      refine ⟨.txt cs :: segs2, List.Forall₂.cons (SegRel.txt cs) hrel, ?_, ?_⟩
      · intro e he
        rcases List.mem_cons.mp he with h1 | h2
        · cases h1
        · exact hmem2 e h2
      · rw [hstep, segsToAtoms_cons]
        rw [show segAtoms (Seg.txt cs) = cs.map Atom.text from rfl, List.append_assoc]
    | emo e =>
      have hemem := hOK.2.2 e (List.mem_cons_self _ _)
      cases m with
      | norm =>
        obtain ⟨f, hbe, hfmem, hfpat, hfcan⟩ := bestEmoji_at_canon T hT e hemem _ htailOK
        rw [renderSeg_emo_norm]
        have hstep := tok_step_match T e.canonical _ _ f hbe hfpat
          (hT.canon_ne e hemem) htokrest
        refine ⟨.emo f :: segs2, List.Forall₂.cons (SegRel.emo e f hfcan) hrel, ?_, ?_⟩
        · intro e2 he2
          rcases List.mem_cons.mp he2 with h1 | h2
          · injection h1 with h3
            subst h3
            exact hfmem
          · exact hmem2 e2 h2
        · rw [hstep, segsToAtoms_cons]
          rfl
      | beaut =>
        obtain ⟨f, hbe, hfmem, hfpat, hfcan⟩ := bestEmoji_at_beaut T hT e hemem _ htailOK
        rw [renderSeg_emo_beaut]
        have hstep := tok_step_match T e.beautified _ _ f hbe hfpat
          (hT.beaut_ne e hemem) htokrest
        refine ⟨.emo f :: segs2, List.Forall₂.cons (SegRel.emo e f hfcan) hrel, ?_, ?_⟩
        · intro e2 he2
          rcases List.mem_cons.mp he2 with h1 | h2
          · injection h1 with h3
            subst h3
            exact hfmem
          · exact hmem2 e2 h2
        · rw [hstep, segsToAtoms_cons]
          rfl

theorem retok_all (T : RuleTables) (hT : EnvOK T) (m : Mode) :
    ∀ ls : List VLabel, (∀ v ∈ ls, SegsOK T v.segs ∧ v.segs ≠ []) →
      ∃ Ls2 : List (List Seg),
        List.Forall₂ (fun (v : VLabel) segs2 => SegsRel v.segs segs2 ∧
          (∀ e, Seg.emo e ∈ segs2 → e ∈ T.emoji)) ls Ls2 ∧
        tokenize T (renderAll m ls) = .ok (joinSepAtoms (Ls2.map segsToAtoms)) := by
  intro ls
  induction ls with
  | nil => intro _; exact ⟨[], List.Forall₂.nil, rfl⟩
  | cons v rest ih =>
    intro hOK
    obtain ⟨hv, hvne⟩ := hOK v (List.mem_cons_self _ _)
    cases rest with
    | nil =>
      obtain ⟨segs2, hrel, hmem2, htokv⟩ := retok_label T hT m v.greek v.segs hv [] []
        (headOK_nil T) rfl
      refine ⟨[segs2], List.Forall₂.cons ⟨hrel, hmem2⟩ List.Forall₂.nil, ?_⟩
      show tokenize T (renderLabel m v) = .ok (joinSepAtoms [segsToAtoms segs2])
      have hr : renderLabel m v = (v.segs.map (renderSeg m v.greek)).flatten ++ [] := by
        rw [List.append_nil]
        rfl
      rw [hr, htokv, List.append_nil]
      rfl
    | cons r rest2 =>
      obtain ⟨Ls2, hrelAll, htokRest⟩ := ih (fun w hw => hOK w (List.mem_cons_of_mem _ hw))
      have hsep : tokenize T (0x2E :: renderAll m (r :: rest2))
          = .ok (.text 0x2E :: joinSepAtoms (Ls2.map segsToAtoms)) :=
        tok_step_plain T 0x2E _ _ hT.sep_plain htokRest
      obtain ⟨segs2, hrel, hmem2, htokv⟩ := retok_label T hT m v.greek v.segs hv
        (0x2E :: renderAll m (r :: rest2)) _ (headOK_cons_sep T hT _) hsep
      have hshape : ∃ x xs, Ls2 = x :: xs := by
        cases hrelAll
        exact ⟨_, _, rfl⟩
      obtain ⟨x, xs, rfl⟩ := hshape
      refine ⟨segs2 :: x :: xs, List.Forall₂.cons ⟨hrel, hmem2⟩ hrelAll, ?_⟩
      show tokenize T (renderLabel m v ++ 0x2E :: renderAll m (r :: rest2)) = _
      rw [show renderLabel m v = (v.segs.map (renderSeg m v.greek)).flatten from rfl]
      rw [htokv]
      rfl

/-! ## Revalidation -/

theorem segsRel_txt_mem : ∀ {segs segs2 : List Seg}, SegsRel segs segs2 →
    ∀ cs, Seg.txt cs ∈ segs2 → Seg.txt cs ∈ segs := by
  intro segs segs2 h
  induction h with
  | nil => intro cs hcs; cases hcs
  | cons hab hrest ih =>
    intro cs hcs
    rcases List.mem_cons.mp hcs with h1 | h2
    · cases hab with
      | txt cs0 =>
        injection h1 with h3
        subst h3
        exact List.mem_cons_self _ _
      | emo e f hef => cases h1
    · exact List.mem_cons_of_mem _ (ih cs h2)

theorem segsToAtoms_ne (segs : List Seg) (hne : segs ≠ [])
    (htxt : ∀ cs, Seg.txt cs ∈ segs → cs ≠ []) : segsToAtoms segs ≠ [] := by
  cases segs with
  | nil => exact absurd rfl hne
  | cons s rest =>
    rw [segsToAtoms_cons]
    cases s with
    | txt cs =>
      have h1 := htxt cs (List.mem_cons_self _ _)
      intro h2
      rcases List.append_eq_nil.mp h2 with ⟨h3, -⟩
      exact h1 (List.map_eq_nil.mp h3)
    | emo e =>
      intro h2
      rcases List.append_eq_nil.mp h2 with ⟨h3, -⟩
      cases h3

theorem segsToAtoms_sepFree (segs : List Seg)
    (htxt : ∀ cs, Seg.txt cs ∈ segs → ∀ c ∈ cs, c ≠ 0x2E) :
    sepFreeAtoms (segsToAtoms segs) := by
  intro a ha
  unfold segsToAtoms at ha
  obtain ⟨l, hl, hal⟩ := List.mem_flatten.mp ha
  obtain ⟨s, hs, hmap⟩ := List.mem_map.mp hl
  subst hmap
  cases s with
  | txt cs =>
    obtain ⟨c, hc, hac⟩ := List.mem_map.mp hal
    subst hac
    have := htxt cs hs c hc
    simp [Atom.isSep, this]
  | emo e =>
    rcases List.mem_singleton.mp hal with rfl
    rfl

theorem toSegs_eq_nil {atoms : List Atom} (h : toSegs atoms = []) : atoms = [] := by
  cases atoms with
  | nil => rfl
  | cons a rest =>
    exfalso
    cases a with
    | emoji e =>
      rw [toSegs_emoji] at h
      cases h
    | text c =>
      cases hts : toSegs rest with
      | nil => rw [toSegs_text_nil c rest hts] at h; cases h
      | cons s ss =>
        cases s with
        | txt cs => rw [toSegs_text_txtHead c rest cs ss hts] at h; cases h
        | emo e => rw [toSegs_text_emoHead c rest e ss hts] at h; cases h

theorem forall₂_mem_right {α β : Type} {R : α → β → Prop} :
    ∀ {xs : List α} {ys : List β}, List.Forall₂ R xs ys → ∀ y ∈ ys, ∃ x ∈ xs, R x y := by
  intro xs ys h
  induction h with
  | nil => intro y hy; cases hy
  | cons hab hrest ih =>
    intro y hy
    rcases List.mem_cons.mp hy with rfl | h2
    · exact ⟨_, List.mem_cons_self _ _, hab⟩
    · obtain ⟨x, hx, hr⟩ := ih y h2
      exact ⟨x, List.mem_cons_of_mem _ hx, hr⟩

theorem mapExcept_ok_inv {α β : Type} {f : α → Except Err β} :
    ∀ {xs : List α} {ys : List β}, mapExcept f xs = .ok ys →
      List.Forall₂ (fun x y => f x = .ok y) xs ys := by
  intro xs
  induction xs with
  | nil =>
    intro ys h
    cases h
    exact List.Forall₂.nil
  | cons x rest ih =>
    intro ys h
    unfold mapExcept at h
    cases hfx : f x with
    | error e => rw [hfx] at h; cases h
    | ok b =>
      rw [hfx] at h
      simp only at h
      cases hrec : mapExcept f rest with
      | error e => rw [hrec] at h; cases h
      | ok bs =>
        rw [hrec] at h
        simp only [Except.ok.injEq] at h
        subst h
        exact List.Forall₂.cons hfx (ih hrec)

theorem validate_again (T : RuleTables) (hT : EnvOK T) (v : VLabel) (segs2 : List Seg)
    (hOK : SegsOK T v.segs) (hne : v.segs ≠ []) (hrel : SegsRel v.segs segs2)
    (hchk : checkSegs T v.segs = .ok v.sel) :
    validateLabel T (segsToAtoms segs2) = .ok ⟨v.sel, segs2⟩ := by
  have htxtne : ∀ cs, Seg.txt cs ∈ segs2 → cs ≠ [] :=
    fun cs h => (hOK.2.1 cs (segsRel_txt_mem hrel cs h)).1
  have halt2 : altTxtB segs2 = true := by
    rw [segsRel_altTxt hrel]
    exact hOK.1
  have hround : toSegs (segsToAtoms segs2) = segs2 := toSegs_segsToAtoms segs2 halt2 htxtne
  have hnfc : nfcSegs T segs2 = segs2 :=
    segsRel_nfc_fixed T hrel (fun cs h => (hOK.2.1 cs h).2.1)
  have hchk2 : checkSegs T segs2 = .ok v.sel := by
    rw [checkSegs_rel T hrel]
    exact hchk
  have hlen : v.segs.length = segs2.length := List.Forall₂.length_eq hrel
  have hsegs2ne : segs2 ≠ [] := by
    intro h2
    rw [h2, List.length_nil, List.length_eq_zero] at hlen
    exact hne hlen
  have hatomne : segsToAtoms segs2 ≠ [] := segsToAtoms_ne segs2 hsegs2ne htxtne
  have hie : (segsToAtoms segs2).isEmpty = false := by
    cases h : segsToAtoms segs2 with
    | nil => exact absurd h hatomne
    | cons a l => rfl
  unfold validateLabel
  simp only [hie, Bool.false_eq_true, if_false, hround, hnfc, hchk2]

theorem segsRel_renderNorm (g1 g2 : Bool) : ∀ {segs segs2 : List Seg}, SegsRel segs segs2 →
    (segs2.map (renderSeg .norm g2)).flatten = (segs.map (renderSeg .norm g1)).flatten := by
  intro segs segs2 h
  induction h with
  | nil => rfl
  | cons hab hrest ih =>
    simp only [List.map_cons, List.flatten_cons]
    rw [ih]
    cases hab with
    | txt cs => rfl
    | emo e f hef =>
      rw [renderSeg_emo_norm, renderSeg_emo_norm, hef]

theorem renderAll_norm_eq : ∀ {ls ls2 : List VLabel},
    List.Forall₂ (fun v w => SegsRel v.segs w.segs) ls ls2 →
    renderAll .norm ls2 = renderAll .norm ls := by
  have hmap : ∀ {ls ls2 : List VLabel},
      List.Forall₂ (fun v w => SegsRel v.segs w.segs) ls ls2 →
      ls2.map (renderLabel .norm) = ls.map (renderLabel .norm) := by
    intro ls ls2 h
    induction h with
    | nil => rfl
    | cons hab hrest ih =>
      simp only [List.map_cons]
      rw [ih]
      unfold renderLabel
      rw [segsRel_renderNorm _ _ hab]
  intro ls ls2 h
  unfold renderAll
  rw [hmap h]

theorem pipeline_labels_ok (T : RuleTables) (hT : EnvOK T) (cps : List Nat)
    (ls : List VLabel) (hsc : ∀ c ∈ cps, ScalarCp c) (hp : pipeline T cps = .ok ls) :
    ∀ v ∈ ls, SegsOK T v.segs ∧ v.segs ≠ [] ∧ checkSegs T v.segs = .ok v.sel := by
  unfold pipeline at hp
  cases htok : tokenize T cps with
  | error e => rw [htok] at hp; cases hp
  | ok atoms =>
    rw [htok] at hp
    simp only at hp
    have hAOK : AtomsOK T atoms :=
      tokenize_atoms_ok T hT cps.length cps atoms (le_refl _) hsc htok
    have hFa := mapExcept_ok_inv hp
    intro v hv
    obtain ⟨piece, hpiece, hval⟩ := forall₂_mem_right hFa v hv
    obtain ⟨hpne, hsegs, hchk⟩ := validateLabel_ok T piece v hval
    obtain ⟨hsf, hsub⟩ := splitAtoms_pieces atoms piece hpiece
    have hpOK : AtomsOK T piece := atomsOK_sub T hAOK hsub
    refine ⟨?_, ?_, hchk⟩
    · rw [hsegs]
      exact prep_segsOK T hT piece hpOK hsf
    · rw [hsegs]
      intro hnil
      apply hpne
      apply toSegs_eq_nil
      cases h2 : toSegs piece with
      | nil => rfl
      | cons s ss =>
        rw [h2] at hnil
        cases hnil

theorem mapExcept_build (T : RuleTables) (hT : EnvOK T) :
    ∀ (ls : List VLabel) (Ls2 : List (List Seg)),
      List.Forall₂ (fun (v : VLabel) segs2 => SegsRel v.segs segs2 ∧
        (∀ e, Seg.emo e ∈ segs2 → e ∈ T.emoji)) ls Ls2 →
      (∀ v ∈ ls, SegsOK T v.segs ∧ v.segs ≠ [] ∧ checkSegs T v.segs = .ok v.sel) →
      ∃ ls2 : List VLabel, mapExcept (validateLabel T) (Ls2.map segsToAtoms) = .ok ls2 ∧
        List.Forall₂ (fun v w => SegsRel v.segs w.segs) ls ls2 := by
  intro ls Ls2 h
  induction h with
  | nil => exact fun _ => ⟨[], rfl, List.Forall₂.nil⟩
  | cons hab hrest ih =>
    rename_i a b l1 l2
    intro hOK
    obtain ⟨ls2', hmap', hrel'⟩ := ih (fun v hv => hOK v (List.mem_cons_of_mem _ hv))
    obtain ⟨hSOK, hne, hchk⟩ := hOK _ (List.mem_cons_self _ _)
    have hval := validate_again T hT _ _ hSOK hne hab.1 hchk
    refine ⟨⟨a.sel, b⟩ :: ls2', ?_, List.Forall₂.cons hab.1 hrel'⟩
    rw [List.map_cons]
    unfold mapExcept
    simp only [hval, hmap']

theorem pipeline_rerun (T : RuleTables) (hT : EnvOK T) (m : Mode) (cps : List Nat)
    (ls : List VLabel) (hsc : ∀ c ∈ cps, ScalarCp c) (hp : pipeline T cps = .ok ls) :
    ∃ ls2 : List VLabel, pipeline T (renderAll m ls) = .ok ls2 ∧
      renderAll .norm ls2 = renderAll .norm ls := by
  have hlab := pipeline_labels_ok T hT cps ls hsc hp
  obtain ⟨Ls2, hrelAll, htok2⟩ :=
    retok_all T hT m ls (fun v hv => ⟨(hlab v hv).1, (hlab v hv).2.1⟩)
  have hchunk : ∀ segs2 ∈ Ls2, segsToAtoms segs2 ≠ [] ∧ sepFreeAtoms (segsToAtoms segs2) := by
    intro segs2 hs2
    obtain ⟨v, hv, hrel, hemo⟩ := forall₂_mem_right hrelAll segs2 hs2
    have hSOK := (hlab v hv).1
    have htxtne : ∀ cs, Seg.txt cs ∈ segs2 → cs ≠ [] :=
      fun cs h => (hSOK.2.1 cs (segsRel_txt_mem hrel cs h)).1
    have hs2ne : segs2 ≠ [] := by
      have hlen := List.Forall₂.length_eq hrel
      intro h2
      rw [h2, List.length_nil, List.length_eq_zero] at hlen
      exact (hlab v hv).2.1 hlen
    refine ⟨segsToAtoms_ne segs2 hs2ne htxtne, segsToAtoms_sepFree segs2 ?_⟩
    intro cs hcs c hc
    exact ((hSOK.2.1 cs (segsRel_txt_mem hrel cs hcs)).2.2 c hc).2.2
  have hsplit : splitAtoms (joinSepAtoms (Ls2.map segsToAtoms)) = Ls2.map segsToAtoms := by
    apply splitAtoms_joinSep
    · intro l hl
      obtain ⟨segs2, hs2, hmap⟩ := List.mem_map.mp hl
      subst hmap
      exact (hchunk segs2 hs2).1
    · intro l hl
      obtain ⟨segs2, hs2, hmap⟩ := List.mem_map.mp hl
      subst hmap
      exact (hchunk segs2 hs2).2
  obtain ⟨ls2, hmap2, hrel2⟩ := mapExcept_build T hT ls Ls2 hrelAll hlab
  refine ⟨ls2, ?_, renderAll_norm_eq hrel2⟩
  unfold pipeline
  rw [htok2]
  simp only [hsplit, hmap2]

/-! ## Scalarity of rendered output -/

theorem renderLabel_scalar (T : RuleTables) (hT : EnvOK T) (v : VLabel) (m : Mode)
    (hSOK : SegsOK T v.segs) : ∀ c ∈ renderLabel m v, ScalarCp c := by
  intro c hc
  unfold renderLabel at hc
  obtain ⟨l, hl, hcl⟩ := List.mem_flatten.mp hc
  obtain ⟨s, hs, hmap⟩ := List.mem_map.mp hl
  subst hmap
  cases s with
  | txt cs =>
    have hout : ∀ d ∈ cs, OutCp T d := (hSOK.2.1 cs hs).2.2
    cases m with
    | norm => exact (hout c hcl).2.1
    | beaut =>
      by_cases hg : v.greek
      · rw [show renderSeg Mode.beaut v.greek (Seg.txt cs)
            = cs.map xiSwap from by simp [renderSeg, hg]] at hcl
        obtain ⟨d, hd, hdc⟩ := List.mem_map.mp hcl
        subst hdc
        unfold xiSwap
        by_cases hxi : d == 0x3BE
        · simp only [hxi, if_true]
          exact ⟨by norm_num, by decide⟩
        · simp only [hxi, if_false]
          exact (hout d hd).2.1
      · rw [show renderSeg Mode.beaut v.greek (Seg.txt cs)
            = cs from by simp [renderSeg, hg]] at hcl
        exact (hout c hcl).2.1
  | emo e =>
    have he : e ∈ T.emoji := hSOK.2.2 e hs
    cases m with
    | norm =>
      rw [renderSeg_emo_norm] at hcl
      exact hT.canon_scalar e he c hcl
    | beaut =>
      rw [renderSeg_emo_beaut] at hcl
      exact hT.beaut_scalar e he c hcl

theorem joinDots_mem : ∀ (Ls : List (List Nat)) (c : Nat),
    c ∈ joinDots Ls → (∃ l ∈ Ls, c ∈ l) ∨ c = 0x2E := by
  intro Ls
  induction Ls with
  | nil => intro c hc; cases hc
  | cons l rest ih =>
    cases rest with
    | nil =>
      intro c hc
      exact Or.inl ⟨l, List.mem_cons_self _ _, hc⟩
    | cons r rest2 =>
      intro c hc
      have hJ : joinDots (l :: r :: rest2) = l ++ 0x2E :: joinDots (r :: rest2) := rfl
      rw [hJ] at hc
      rcases List.mem_append.mp hc with h1 | h2
      · exact Or.inl ⟨l, List.mem_cons_self _ _, h1⟩
      · rcases List.mem_cons.mp h2 with rfl | h3
        · exact Or.inr rfl
        · rcases ih c h3 with ⟨l2, hl2, hcl2⟩ | h4
          · exact Or.inl ⟨l2, List.mem_cons_of_mem _ hl2, hcl2⟩
          · exact Or.inr h4

theorem renderAll_scalar (T : RuleTables) (hT : EnvOK T) (m : Mode) (ls : List VLabel)
    (hls : ∀ v ∈ ls, SegsOK T v.segs) : ∀ c ∈ renderAll m ls, ScalarCp c := by
  intro c hc
  unfold renderAll at hc
  rcases joinDots_mem _ c hc with ⟨l, hl, hcl⟩ | rfl
  · obtain ⟨v, hv, hmap⟩ := List.mem_map.mp hl
    subst hmap
    exact renderLabel_scalar T hT v m (hls v hv) c hcl
  · exact ⟨by norm_num, by decide⟩

/-- C1: normalization is idempotent.  If byte-level normalization of a
valid-UTF-8 input `x` succeeds with output `y`, then normalizing `y`
succeeds and returns `y` itself, i.e. `normalize (normalize x) =
normalize x`. -/
theorem c1_normalize_idempotent (T : RuleTables) (hT : EnvOK T) (x y : List Nat)
    (h : normalizeStr T x = some y) : normalizeStr T y = some y := by
  unfold normalizeStr normalizeCps at h
  cases hd : utf8Decode x with
  | none => rw [hd] at h; cases h
  | some cps =>
    rw [hd] at h
    simp only at h
    cases hp : pipeline T cps with
    | error e => rw [hp] at h; simp at h
    | ok ls =>
      rw [hp] at h
      simp only [Option.some.injEq] at h
      have hsc : ∀ c ∈ cps, ScalarCp c := utf8Decode_scalar x.length x cps (le_refl _) hd
      have hlab := pipeline_labels_ok T hT cps ls hsc hp
      have hout : ∀ c ∈ renderAll .norm ls, ScalarCp c :=
        renderAll_scalar T hT .norm ls (fun v hv => (hlab v hv).1)
      obtain ⟨ls2, hp2, hren⟩ := pipeline_rerun T hT .norm cps ls hsc hp
      have hd2 : utf8Decode y = some (renderAll .norm ls) := by
        rw [← h]
        exact utf8_roundtrip _ hout
      rw [normalizeStr_of_ok T y (renderAll .norm ls) ls2 hd2 hp2, hren, h]

/-- C2: beautify is absorbed by normalize.  For a valid-UTF-8 input `x`,
if beautification succeeds with output `b`, normalizing `b` succeeds
with output `m`, and normalizing `x` succeeds with output `n`, then
`m = n`, i.e. `normalize (beautify x) = normalize x`. -/
theorem c2_normalize_beautify (T : RuleTables) (hT : EnvOK T) (x b m n : List Nat)
    (hb : beautifyStr T x = some b) (hm : normalizeStr T b = some m)
    (hn : normalizeStr T x = some n) : m = n := by
  unfold beautifyStr beautifyCps at hb
  cases hd : utf8Decode x with
  | none => rw [hd] at hb; cases hb
  | some cps =>
    rw [hd] at hb
    simp only at hb
    cases hp : pipeline T cps with
    | error e => rw [hp] at hb; simp at hb
    | ok ls =>
      rw [hp] at hb
      simp only [Option.some.injEq] at hb
      have hn2 := normalizeStr_of_ok T x cps ls hd hp
      rw [hn2] at hn
      have hsc : ∀ c ∈ cps, ScalarCp c := utf8Decode_scalar x.length x cps (le_refl _) hd
      have hlab := pipeline_labels_ok T hT cps ls hsc hp
      have hout : ∀ c ∈ renderAll .beaut ls, ScalarCp c :=
        renderAll_scalar T hT .beaut ls (fun v hv => (hlab v hv).1)
      obtain ⟨ls2, hp2, hren⟩ := pipeline_rerun T hT .beaut cps ls hsc hp
      have hd2 : utf8Decode b = some (renderAll .beaut ls) := by
        rw [← hb]
        exact utf8_roundtrip _ hout
      rw [normalizeStr_of_ok T b (renderAll .beaut ls) ls2 hd2 hp2, hren] at hm
      injection hm with hm2
      injection hn with hn3
      rw [← hm2, ← hn3]

/-! ## Properties of the toy NFC -/

theorem nfcToy_two (a b : Nat) (rest : List Nat) : nfcToy (a :: b :: rest) =
    if a == 0x61 && b == 0x300 then 0xE0 :: nfcToy rest
    else a :: nfcToy (b :: rest) := rfl

theorem nfcToy_head_pass (c : Nat) (t : List Nat) (hc : (c == 0x61) = false) :
    nfcToy (c :: t) = c :: nfcToy t := by
  cases t with
  | nil => rfl
  | cons b r =>
    rw [nfcToy_two]
    simp [hc]

theorem nfcToy_mem (n : Nat) : ∀ s, s.length ≤ n → ∀ c, c ∈ nfcToy s →
    c ∈ s ∨ c = 0xE0 := by
  induction n with
  | zero =>
    intro s hlen c hc
    have hs : s = [] := List.length_eq_zero.mp (Nat.le_zero.mp hlen)
    subst hs
    cases hc
  | succ n ih =>
    intro s hlen c hc
    match s with
    | [] => cases hc
    | [a] => exact Or.inl hc
    | a :: b :: rest =>
      simp only [List.length_cons] at hlen
      rw [nfcToy_two] at hc
      by_cases h : (a == 0x61 && b == 0x300) = true
      · rw [if_pos h] at hc
        rcases List.mem_cons.mp hc with rfl | h2
        · exact Or.inr rfl
        · rcases ih rest (by omega) c h2 with h3 | h3
          · exact Or.inl (by simp [h3])
          · exact Or.inr h3
      · rw [if_neg h] at hc
        rcases List.mem_cons.mp hc with rfl | h2
        · exact Or.inl (List.mem_cons_self _ _)
        · rcases ih (b :: rest) (by simp; omega) c h2 with h3 | h3
          · exact Or.inl (List.mem_cons_of_mem _ h3)
          · exact Or.inr h3

theorem pairFreeB_cons (x : Nat) (l : List Nat) (hx : (x == 0x61) = false)
    (hl : pairFreeB l = true) : pairFreeB (x :: l) = true := by
  cases l with
  | nil => rfl
  | cons b rest =>
    show (!(x == 0x61 && b == 0x300) && pairFreeB (b :: rest)) = true
    rw [hx]
    simpa using hl

theorem nfcToy_head_shape (b : Nat) (rest : List Nat) :
    (nfcToy (b :: rest)).head? = some b ∨ (nfcToy (b :: rest)).head? = some 0xE0 := by
  cases rest with
  | nil => exact Or.inl rfl
  | cons c rest2 =>
    rw [nfcToy_two]
    by_cases h : (b == 0x61 && c == 0x300) = true
    · rw [if_pos h]; exact Or.inr rfl
    · rw [if_neg h]; exact Or.inl rfl

theorem nfcToy_pairFree (n : Nat) : ∀ s, s.length ≤ n → pairFreeB (nfcToy s) = true := by
  induction n with
  | zero =>
    intro s hlen
    have hs : s = [] := List.length_eq_zero.mp (Nat.le_zero.mp hlen)
    subst hs
    rfl
  | succ n ih =>
    intro s hlen
    match s with
    | [] => rfl
    | [a] => rfl
    | a :: b :: rest =>
      simp only [List.length_cons] at hlen
      rw [nfcToy_two]
      by_cases h : (a == 0x61 && b == 0x300) = true
      · rw [if_pos h]
        exact pairFreeB_cons _ _ (by decide) (ih rest (by omega))
      · rw [if_neg h]
        have htail : pairFreeB (nfcToy (b :: rest)) = true := ih (b :: rest) (by simp; omega)
        by_cases ha : (a == 0x61) = true
        · have hb : (b == 0x300) = false := by
            cases hb2 : (b == 0x300)
            · rfl
            · exact absurd (by rw [ha, hb2]; rfl) h
          cases hh : nfcToy (b :: rest) with
          | nil => rfl
          | cons x l =>
            have hx : x = b ∨ x = 0xE0 := by
              rcases nfcToy_head_shape b rest with h1 | h1 <;> rw [hh] at h1 <;>
                injection h1 with h2
              · exact Or.inl h2
              · exact Or.inr h2
            have hx300 : (x == 0x300) = false := by
              rcases hx with rfl | rfl
              · exact hb
              · rfl
            show (!(a == 0x61 && x == 0x300) && pairFreeB (x :: l)) = true
            rw [hx300, ← hh]
            simpa using htail
        · exact pairFreeB_cons a _ (eq_false_of_ne_true ha) htail

theorem nfcToy_pairFree_id (n : Nat) : ∀ s, s.length ≤ n → pairFreeB s = true →
    nfcToy s = s := by
  induction n with
  | zero =>
    intro s hlen _
    have hs : s = [] := List.length_eq_zero.mp (Nat.le_zero.mp hlen)
    subst hs
    rfl
  | succ n ih =>
    intro s hlen hpf
    match s with
    | [] => rfl
    | [a] => rfl
    | a :: b :: rest =>
      simp only [List.length_cons] at hlen
      have hpf2 : (!(a == 0x61 && b == 0x300) && pairFreeB (b :: rest)) = true := hpf
      rw [Bool.and_eq_true, Bool.not_eq_true'] at hpf2
      rw [nfcToy_two, if_neg (by rw [hpf2.1]; exact Bool.false_ne_true)]
      rw [ih (b :: rest) (by simp; omega) hpf2.2]

theorem nfcToy_idem (s : List Nat) : nfcToy (nfcToy s) = nfcToy s :=
  nfcToy_pairFree_id (nfcToy s).length _ (le_refl _) (nfcToy_pairFree s.length s (le_refl _))

theorem nfcToy_ne (s : List Nat) (h : s ≠ []) : nfcToy s ≠ [] := by
  match s with
  | [] => exact absurd rfl h
  | [a] => exact fun h2 => by cases h2
  | a :: b :: rest =>
    rw [nfcToy_two]
    by_cases hc : (a == 0x61 && b == 0x300) = true
    · rw [if_pos hc]; exact fun h2 => by cases h2
    · rw [if_neg hc]; exact fun h2 => by cases h2

theorem nfcToy_inert (n : Nat) : ∀ s (c : Nat) t, s.length ≤ n → (c == 0x61) = false →
    (c == 0x300) = false → nfcToy (s ++ c :: t) = nfcToy s ++ c :: nfcToy t := by
  induction n with
  | zero =>
    intro s c t hlen hc61 _
    have hs : s = [] := List.length_eq_zero.mp (Nat.le_zero.mp hlen)
    subst hs
    rw [List.nil_append]
    exact nfcToy_head_pass c t hc61
  | succ n ih =>
    intro s c t hlen hc61 hc300
    match s with
    | [] =>
      rw [List.nil_append]
      exact nfcToy_head_pass c t hc61
    | [a] =>
      show nfcToy (a :: c :: t) = nfcToy [a] ++ c :: nfcToy t
      rw [nfcToy_two]
      have : (a == 0x61 && c == 0x300) = false := by rw [hc300]; simp
      rw [if_neg (by rw [this]; exact Bool.false_ne_true)]
      rw [nfcToy_head_pass c t hc61]
      rfl
    | a :: b :: s2 =>
      simp only [List.length_cons] at hlen
      show nfcToy (a :: b :: (s2 ++ c :: t)) = nfcToy (a :: b :: s2) ++ c :: nfcToy t
      rw [nfcToy_two, nfcToy_two a b s2]
      by_cases h : (a == 0x61 && b == 0x300) = true
      · rw [if_pos h, if_pos h]
        rw [ih s2 c t (by omega) hc61 hc300]
        rfl
      · rw [if_neg h, if_neg h]
        have h2 := ih (b :: s2) c t (by simp; omega) hc61 hc300
        rw [List.cons_append] at h2
        rw [h2]
        rfl

/-! ## The concrete tables satisfy the environment invariants -/

theorem emojiCpB_envA_iff (c : Nat) : emojiCpB envA c = true ↔
    (c = 0x1F9D9 ∨ c = 0x200D ∨ c = 0x2642 ∨ c = 0xFE0F) := by
  simp [emojiCpB, envA, mageEmoji, mageEmojiShort, List.contains]
  omega

theorem emojiCpB_envA_false (c : Nat) (h1 : c ≠ 0x1F9D9) (h2 : c ≠ 0x200D)
    (h3 : c ≠ 0x2642) (h4 : c ≠ 0xFE0F) : emojiCpB envA c = false := by
  cases h : emojiCpB envA c
  · rfl
  · rcases (emojiCpB_envA_iff c).mp h with h5 | h5 | h5 | h5 <;>
      first
      | exact absurd h5 h1
      | exact absurd h5 h2
      | exact absurd h5 h3
      | exact absurd h5 h4

theorem mappedA_none_lower (d : Nat) (h1 : 0x61 ≤ d) (h2 : d ≤ 0x7A) :
    mappedA d = none := by
  unfold mappedA
  rw [if_neg (by omega), if_neg (by omega), if_neg (by omega), if_neg (by omega)]

theorem plainB_envA_lower (d : Nat) (h1 : 0x61 ≤ d) (h2 : d ≤ 0x7A) :
    plainB envA d = true := by
  have he : emojiCpB envA d = false :=
    emojiCpB_envA_false d (by omega) (by omega) (by omega) (by omega)
  have hm : mappedA d = none := mappedA_none_lower d h1 h2
  simp only [plainB, envA, Bool.and_eq_true, Bool.not_eq_true']
  refine ⟨⟨⟨?_, ?_⟩, ?_⟩, ?_⟩
  · show ignoredA d = false
    simp only [ignoredA, beq_eq_false_iff_ne, ne_eq]
    omega
  · show (mappedA d).isNone = true
    rw [hm]
    rfl
  · show disallowedA d = false
    simp only [disallowedA, beq_eq_false_iff_ne, ne_eq]
    omega
  · exact he

theorem mapped_out_envA : ∀ c cs, mappedA c = some cs → ∀ d ∈ cs,
    (plainB envA d = true ∧ ScalarCp d) ∨ d = 0x2E := by
  intro c cs h d hd
  unfold mappedA at h
  split_ifs at h with h1 h2 h3 h4
  · injection h with h5
    subst h5
    have h6 := List.mem_singleton.mp hd
    subst h6
    exact Or.inl ⟨plainB_envA_lower _ (by omega) (by omega), by omega, by omega⟩
  · injection h with h5
    subst h5
    have h6 := List.mem_singleton.mp hd
    subst h6
    exact Or.inr rfl
  · injection h with h5
    subst h5
    have h6 := List.mem_singleton.mp hd
    subst h6
    exact Or.inl ⟨by decide, by decide⟩
  · injection h with h5
    subst h5
    cases hd

theorem envA_nfc_inert (s : List Nat) (c : Nat) (t : List Nat)
    (h : c = 0x2E ∨ emojiCpB envA c = true) :
    nfcToy (s ++ c :: t) = nfcToy s ++ c :: nfcToy t := by
  have hc : c ≠ 0x61 ∧ c ≠ 0x300 := by
    rcases h with rfl | h2
    · exact ⟨by omega, by omega⟩
    · rcases (emojiCpB_envA_iff c).mp h2 with rfl | rfl | rfl | rfl <;>
        exact ⟨by omega, by omega⟩
  exact nfcToy_inert s.length s c t (le_refl _)
    (by simp only [beq_eq_false_iff_ne, ne_eq]; exact hc.1)
    (by simp only [beq_eq_false_iff_ne, ne_eq]; exact hc.2)

theorem over_canon_envA : ∀ e f, e ∈ envA.emoji → f ∈ envA.emoji → ∀ c m,
    f.pattern = e.canonical ++ c :: m → ∀ g ∈ envA.emoji, g.canonical.head? ≠ some c := by
  intro e f he hf c m hp g hg
  fin_cases he <;> fin_cases hf <;>
    simp only [mageEmoji, mageEmojiShort, List.cons_append, List.nil_append,
      List.cons.injEq] at hp
  all_goals first
  | (obtain ⟨-, -, -, rfl, -⟩ := hp
     fin_cases hg <;> decide)
  | (obtain ⟨-, -, -, h5⟩ := hp
     cases h5)

theorem over_beaut_envA : ∀ e f, e ∈ envA.emoji → f ∈ envA.emoji → ∀ c m,
    f.pattern = e.beautified ++ c :: m → ∀ g ∈ envA.emoji, g.canonical.head? ≠ some c := by
  intro e f he hf c m hp g hg
  fin_cases he <;> fin_cases hf <;>
    simp only [mageEmoji, mageEmojiShort, List.cons_append, List.nil_append,
      List.cons.injEq] at hp
  all_goals first
  | (obtain ⟨-, -, -, -, h5⟩ := hp
     cases h5)
  | (obtain ⟨-, -, -, h5⟩ := hp
     cases h5)

/-- The concrete tables satisfy every environment invariant. -/
theorem envA_ok : EnvOK envA where
  sep_plain := by decide
  emoji_classified := by
    intro c h
    rcases (emojiCpB_envA_iff c).mp h with rfl | rfl | rfl | rfl
    · exact Or.inr (Or.inl (by decide))
    · exact Or.inr (Or.inl (by decide))
    · exact Or.inr (Or.inl (by decide))
    · exact Or.inl (by decide)
  mapped_out := mapped_out_envA
  nfc_plain := by
    intro s hs c hc
    rcases nfcToy_mem s.length s (le_refl _) c hc with h1 | rfl
    · exact hs c h1
    · exact ⟨by decide, by decide, by decide⟩
  nfc_ne := fun s h => nfcToy_ne s h
  nfc_idem := fun s => nfcToy_idem s
  nfc_nil := rfl
  nfc_inert := fun s c t h => envA_nfc_inert s c t h
  pat_ne := by decide
  canon_ne := by decide
  beaut_ne := by decide
  canon_filter := by decide
  beaut_head := by decide
  canon_scalar := by decide
  beaut_scalar := by decide
  canon_ex := by decide
  beaut_ex := by decide
  canon_pat := by
    intro e f he hf
    fin_cases he <;> fin_cases hf <;> decide
  beaut_pat := by
    intro e f he hf
    fin_cases he <;> fin_cases hf <;> decide
  over_canon := over_canon_envA
  over_beaut := over_beaut_envA
  xi_map := by decide
  xi_not_ignored := by decide
  xi_not_emoji := by decide
  fe0f_not_plain := by decide
  canon_clean := by decide
  ascii_nsm_fenced := by
    intro c h
    simp only [asciiAllowedCp, Bool.or_eq_true, Bool.and_eq_true, decide_eq_true_eq,
      beq_iff_eq] at h
    constructor
    · show nsmA c = false
      simp only [nsmA, beq_eq_false_iff_ne, ne_eq]
      omega
    · show fencedA c = false
      simp only [fencedA, beq_eq_false_iff_ne, ne_eq]
      omega
  sep_not_nsm := by decide
  sep_not_fenced := by decide

/-- C1 witness: `"Ab"` normalizes to `"ab"`, and normalizing the result
returns it unchanged. -/
theorem c1_normalize_idempotent_witness :
    normalizeStr envA [0x41, 0x62] = some [0x61, 0x62] ∧
    normalizeStr envA [0x61, 0x62] = some [0x61, 0x62] :=
  ⟨by decide, c1_normalize_idempotent envA envA_ok [0x41, 0x62] [0x61, 0x62] (by decide)⟩

/-- C2 witness: on the mage-emoji name the beautified form normalizes to
the same bytes as the input does. -/
theorem c2_normalize_beautify_witness :
    beautifyStr envA mageInput = some mageInput ∧
    normalizeStr envA mageInput =
      some [0xF0, 0x9F, 0xA7, 0x99, 0xE2, 0x80, 0x8D, 0xE2, 0x99, 0x82,
        0x2E, 0x65, 0x74, 0x68] ∧
    ([0xF0, 0x9F, 0xA7, 0x99, 0xE2, 0x80, 0x8D, 0xE2, 0x99, 0x82,
        0x2E, 0x65, 0x74, 0x68] : List Nat) =
      [0xF0, 0x9F, 0xA7, 0x99, 0xE2, 0x80, 0x8D, 0xE2, 0x99, 0x82,
        0x2E, 0x65, 0x74, 0x68] :=
  ⟨by decide, by decide,
    c2_normalize_beautify envA envA_ok mageInput mageInput
      [0xF0, 0x9F, 0xA7, 0x99, 0xE2, 0x80, 0x8D, 0xE2, 0x99, 0x82,
        0x2E, 0x65, 0x74, 0x68]
      [0xF0, 0x9F, 0xA7, 0x99, 0xE2, 0x80, 0x8D, 0xE2, 0x99, 0x82,
        0x2E, 0x65, 0x74, 0x68]
      (by decide) (by decide) (by decide)⟩

/-! ## NFC closure of the normalized output -/

theorem nfc_inert_cp (T : RuleTables) (hT : EnvOK T) (c : Nat)
    (hc : c = 0x2E ∨ emojiCpB T c = true) (t : List Nat) :
    T.nfc (c :: t) = c :: T.nfc t := by
  have h := hT.nfc_inert [] c t hc
  rw [List.nil_append, hT.nfc_nil, List.nil_append] at h
  exact h

theorem nfc_inert_chunk (T : RuleTables) (hT : EnvOK T) :
    ∀ u v : List Nat, (∀ c ∈ u, c = 0x2E ∨ emojiCpB T c = true) →
      T.nfc (u ++ v) = u ++ T.nfc v := by
  intro u
  induction u with
  | nil => intro v _; rw [List.nil_append, List.nil_append]
  | cons c u2 ih =>
    intro v hu
    rw [List.cons_append, nfc_inert_cp T hT c (hu c (List.mem_cons_self _ _)),
      ih v (fun d hd => hu d (List.mem_cons_of_mem _ hd)), List.cons_append]

theorem canon_inert (T : RuleTables) (hT : EnvOK T) (e : EmojiEntry) (he : e ∈ T.emoji) :
    ∀ c ∈ e.canonical, c = 0x2E ∨ emojiCpB T c = true := by
  intro c hc
  obtain ⟨f, hf, hp⟩ := hT.canon_ex e he
  exact Or.inr (emojiCpB_of_mem T hf (by rw [hp]; exact hc))

theorem lab_fixed (T : RuleTables) (hT : EnvOK T) (g : Bool) :
    ∀ segs : List Seg, altTxtB segs = true →
      (∀ cs, Seg.txt cs ∈ segs → T.nfc cs = cs) →
      (∀ e, Seg.emo e ∈ segs → e ∈ T.emoji) →
      ∀ v, T.nfc v = v →
        (v = [] ∨ ∃ c w, v = c :: w ∧ (c = 0x2E ∨ emojiCpB T c = true)) →
        T.nfc ((segs.map (renderSeg .norm g)).flatten ++ v)
          = (segs.map (renderSeg .norm g)).flatten ++ v := by
  intro segs
  induction segs with
  | nil =>
    intro _ _ _ v hv _
    rw [List.map_nil, List.flatten_nil, List.nil_append]
    exact hv
  | cons s rest ih =>
    intro halt htxt hemo v hv hhead
    have ihr := ih (altTxtB_tail s rest halt)
      (fun cs h => htxt cs (List.mem_cons_of_mem _ h))
      (fun e h => hemo e (List.mem_cons_of_mem _ h)) v hv hhead
    cases s with
    | emo e =>
      rw [List.map_cons, List.flatten_cons, List.append_assoc]
      rw [show renderSeg Mode.norm g (Seg.emo e) = e.canonical from rfl]
      rw [nfc_inert_chunk T hT _ _ (canon_inert T hT e (hemo e (List.mem_cons_self _ _)))]
      rw [ihr]
    | txt cs =>
      rw [List.map_cons, List.flatten_cons, List.append_assoc]
      rw [show renderSeg Mode.norm g (Seg.txt cs) = cs from rfl]
      have hcs : T.nfc cs = cs := htxt cs (List.mem_cons_self _ _)
      cases htail : (rest.map (renderSeg .norm g)).flatten ++ v with
      | nil =>
        rw [List.append_nil]
        exact hcs
      | cons c w =>
        have hcin : c = 0x2E ∨ emojiCpB T c = true := by
          cases rest with
          | nil =>
            rw [List.map_nil, List.flatten_nil, List.nil_append] at htail
            rcases hhead with rfl | ⟨c2, w2, heq, hin⟩
            · cases htail
            · rw [heq] at htail
              injection htail with h1 _
              rw [h1] at hin
              exact hin
          | cons s2 rest2 =>
            cases s2 with
            | txt cs2 =>
              exfalso
              rw [altTxtB_two] at halt
              simp [Seg.isTxt] at halt
            | emo e2 =>
              have he2 : e2 ∈ T.emoji := hemo e2 (by simp)
              rw [List.map_cons, List.flatten_cons,
                show renderSeg Mode.norm g (Seg.emo e2) = e2.canonical from rfl,
                List.append_assoc] at htail
              cases hcanon : e2.canonical with
              | nil => exact absurd hcanon (hT.canon_ne e2 he2)
              | cons c3 w3 =>
                rw [hcanon, List.cons_append] at htail
                injection htail with h1 _
                rw [← h1]
                exact canon_inert T hT e2 he2 c3 (by rw [hcanon]; exact List.mem_cons_self _ _)
        have hw : T.nfc w = w := by
          rw [htail] at ihr
          rw [nfc_inert_cp T hT c hcin] at ihr
          injection ihr
        rw [hT.nfc_inert cs c w hcin, hcs, hw]

theorem all_fixed (T : RuleTables) (hT : EnvOK T) :
    ∀ ls : List VLabel, (∀ v ∈ ls, SegsOK T v.segs) →
      T.nfc (renderAll .norm ls) = renderAll .norm ls := by
  intro ls
  induction ls with
  | nil =>
    intro _
    exact hT.nfc_nil
  | cons v tail ih =>
    intro hOK
    have hv := hOK v (List.mem_cons_self _ _)
    cases tail with
    | nil =>
      show T.nfc (joinDots [renderLabel .norm v]) = joinDots [renderLabel .norm v]
      have h1 : joinDots [renderLabel .norm v] = renderLabel .norm v := rfl
      rw [h1]
      have h2 := lab_fixed T hT v.greek v.segs hv.1
        (fun cs h => (hv.2.1 cs h).2.1) hv.2.2 [] hT.nfc_nil (Or.inl rfl)
      rw [List.append_nil] at h2
      exact h2
    | cons r rest =>
      have h1 : renderAll .norm (v :: r :: rest)
          = renderLabel .norm v ++ 0x2E :: renderAll .norm (r :: rest) := rfl
      rw [h1]
      have hfix : T.nfc (0x2E :: renderAll .norm (r :: rest))
          = 0x2E :: renderAll .norm (r :: rest) := by
        rw [nfc_inert_cp T hT 0x2E (Or.inl rfl),
          ih (fun w hw => hOK w (List.mem_cons_of_mem _ hw))]
      exact lab_fixed T hT v.greek v.segs hv.1
        (fun cs h => (hv.2.1 cs h).2.1) hv.2.2 _ hfix
        (Or.inr ⟨0x2E, _, rfl, Or.inl rfl⟩)

/-- C3: NFC closure.  If byte-level normalization of `x` succeeds with
output `y`, then `y` decodes to a codepoint sequence that is a fixed
point of the table's Unicode Normalization Form C. -/
theorem c3_nfc_closure (T : RuleTables) (hT : EnvOK T) (x y : List Nat)
    (h : normalizeStr T x = some y) :
    ∃ out, utf8Decode y = some out ∧ T.nfc out = out ∧ y = utf8Encode out := by
  unfold normalizeStr normalizeCps at h
  cases hd : utf8Decode x with
  | none => rw [hd] at h; cases h
  | some cps =>
    rw [hd] at h
    simp only at h
    cases hp : pipeline T cps with
    | error e => rw [hp] at h; simp at h
    | ok ls =>
      rw [hp] at h
      simp only [Option.some.injEq] at h
      have hsc : ∀ c ∈ cps, ScalarCp c := utf8Decode_scalar x.length x cps (le_refl _) hd
      have hlab := pipeline_labels_ok T hT cps ls hsc hp
      have hout : ∀ c ∈ renderAll .norm ls, ScalarCp c :=
        renderAll_scalar T hT .norm ls (fun v hv => (hlab v hv).1)
      have hd2 : utf8Decode y = some (renderAll .norm ls) := by
        rw [← h]
        exact utf8_roundtrip _ hout
      exact ⟨renderAll .norm ls, hd2,
        all_fixed T hT ls (fun v hv => (hlab v hv).1), h.symm⟩

/-- C3 witness: `"Ab"` normalizes to `"ab"`, whose codepoints are fixed
by the table's NFC. -/
theorem c3_nfc_closure_witness :
    normalizeStr envA [0x41, 0x62] = some [0x61, 0x62] ∧
    ∃ out, utf8Decode [0x61, 0x62] = some out ∧ envA.nfc out = out ∧
      ([0x61, 0x62] : List Nat) = utf8Encode out :=
  ⟨by decide, c3_nfc_closure envA envA_ok [0x41, 0x62] [0x61, 0x62] (by decide)⟩

/-! ## Declarative readings of the NSM and fenced scanners -/

theorem runScan_run (p : Nat → Bool) (k : Nat) :
    ∀ u : List Nat, u ≠ [] → ∀ count suffix, runScan p k count (u ++ suffix) = true →
      (∀ c ∈ u, p c = true) → count + u.length ≤ k := by
  intro u
  induction u with
  | nil => intro h; exact absurd rfl h
  | cons c u2 ih =>
    intro _ count suffix hscan hall
    have hpc : p c = true := hall c (List.mem_cons_self _ _)
    rw [List.cons_append] at hscan
    unfold runScan at hscan
    rw [if_pos hpc, Bool.and_eq_true, decide_eq_true_eq] at hscan
    by_cases hu2 : u2 = []
    · subst hu2
      rw [List.length_cons, List.length_nil]
      omega
    · have h2 := ih hu2 (count + 1) suffix hscan.2
        (fun e he => hall e (List.mem_cons_of_mem _ he))
      rw [List.length_cons]
      omega

theorem runScan_within (p : Nat → Bool) (k : Nat) :
    ∀ (S : List Nat) count, runScan p k count S = true →
      ∀ u, u <:+: S → (∀ c ∈ u, p c = true) → u.length ≤ k := by
  intro S
  induction S with
  | nil =>
    intro count _ u hinf _
    rw [List.infix_nil] at hinf
    rw [hinf]
    exact Nat.zero_le k
  | cons c rest ih =>
    intro count hscan u hinf hall
    rcases List.infix_cons_iff.mp hinf with hpre | htail
    · by_cases hu : u = []
      · rw [hu]
        exact Nat.zero_le k
      · obtain ⟨suffix, hsuf⟩ := hpre
        have h2 := runScan_run p k u hu count suffix (by rw [hsuf]; exact hscan) hall
        omega
    · unfold runScan at hscan
      by_cases hpc : p c = true
      · rw [if_pos hpc, Bool.and_eq_true] at hscan
        exact ih (count + 1) hscan.2 u htail hall
      · rw [if_neg hpc] at hscan
        exact ih 0 hscan u htail hall

theorem noDupAdj_within (p : Nat → Bool) :
    ∀ S : List Nat, noDupAdjB p S = true → ∀ c, p c = true → ¬([c, c] <:+: S) := by
  intro S
  induction S with
  | nil =>
    intro _ c _ hinf
    rw [List.infix_nil] at hinf
    cases hinf
  | cons a rest ih =>
    intro hscan c hpc hinf
    rcases List.infix_cons_iff.mp hinf with hpre | htail
    · obtain ⟨suffix, hsuf⟩ := hpre
      rw [List.cons_append, List.cons_append, List.nil_append] at hsuf
      injection hsuf with h1 h2
      subst h1
      cases rest with
      | nil => cases h2
      | cons b rest2 =>
        injection h2 with h3 _
        subst h3
        have h4 : noDupAdjB p (c :: c :: rest2)
            = (!(c == c && p c) && noDupAdjB p (c :: rest2)) := rfl
        rw [h4, Bool.and_eq_true, Bool.not_eq_true'] at hscan
        have h5 : (c == c && p c) = p c := by rw [beq_self_eq_true, Bool.true_and]
        rw [h5] at hscan
        rw [hscan.1] at hpc
        cases hpc
    · cases rest with
      | nil =>
        rw [List.infix_nil] at htail
        cases htail
      | cons b rest2 =>
        have h4 : noDupAdjB p (a :: b :: rest2)
            = (!(a == b && p a) && noDupAdjB p (b :: rest2)) := rfl
        rw [h4, Bool.and_eq_true] at hscan
        exact ih hscan.2 c hpc htail

theorem fencedAux_adj (p : Nat → Bool) :
    ∀ S : List Nat, fencedErrAux p S = none →
      ∀ a b, [a, b] <:+: S → ¬(p a = true ∧ p b = true) := by
  intro S
  induction S with
  | nil =>
    intro _ a b hinf
    rw [List.infix_nil] at hinf
    cases hinf
  | cons x rest ih =>
    intro haux a b hinf hab
    rcases List.infix_cons_iff.mp hinf with hpre | htail
    · obtain ⟨suffix, hsuf⟩ := hpre
      rw [List.cons_append, List.cons_append, List.nil_append] at hsuf
      injection hsuf with h1 h2
      subst h1
      cases rest with
      | nil => cases h2
      | cons y rest2 =>
        injection h2 with h3 _
        subst h3
        unfold fencedErrAux at haux
        rw [hab.1, hab.2] at haux
        cases haux
    · cases rest with
      | nil =>
        rw [List.infix_nil] at htail
        cases htail
      | cons y rest2 =>
        unfold fencedErrAux at haux
        by_cases hxy : (p x && p y) = true
        · rw [if_pos hxy] at haux
          cases haux
        · rw [if_neg hxy] at haux
          exact ih haux a b htail hab

theorem fencedAux_last (p : Nat → Bool) :
    ∀ S : List Nat, fencedErrAux p S = none →
      ∀ c, S.getLast? = some c → p c = false := by
  intro S
  induction S with
  | nil => intro _ c h; cases h
  | cons x rest ih =>
    intro haux c hlast
    cases rest with
    | nil =>
      unfold fencedErrAux at haux
      rw [List.getLast?_singleton] at hlast
      injection hlast with h1
      subst h1
      cases hpc : p x
      · rfl
      · rw [hpc] at haux
        simp at haux
    | cons y rest2 =>
      unfold fencedErrAux at haux
      by_cases hxy : (p x && p y) = true
      · rw [if_pos hxy] at haux
        cases haux
      · rw [if_neg hxy] at haux
        rw [List.getLast?_cons_cons] at hlast
        exact ih haux c hlast

theorem fencedErr_props (p : Nat → Bool) (S : List Nat) (h : fencedErr p S = none) :
    (∀ c, S.head? = some c → p c = false) ∧
    (∀ c, S.getLast? = some c → p c = false) ∧
    (∀ a b, [a, b] <:+: S → ¬(p a = true ∧ p b = true)) := by
  cases S with
  | nil =>
    refine ⟨?_, ?_, ?_⟩
    · intro c h2
      cases h2
    · intro c h2
      cases h2
    · intro a b h2
      rw [List.infix_nil] at h2
      cases h2
  | cons x rest =>
    have h2 : (if p x = true then some Err.fencedLeading
        else fencedErrAux p (x :: rest)) = none := h
    by_cases hx : p x = true
    · rw [if_pos hx] at h2
      cases h2
    · rw [if_neg hx] at h2
      refine ⟨?_, fencedAux_last p _ h2, fencedAux_adj p _ h2⟩
      intro c h3
      injection h3 with h4
      subst h4
      exact eq_false_of_ne_true hx

theorem checkSegs_inv (T : RuleTables) (segs : List Seg) (sel : GroupSel)
    (h : checkSegs T segs = .ok sel) :
    (∀ c ∈ labelText segs, asciiAllowedCp c = true) ∨
    labelText segs = [] ∨
    (nsmErr T (labelText segs) = none ∧
      fencedErr T.isFenced (labelText segs) = none) := by
  unfold checkSegs at h
  by_cases h1 : (allAsciiB (labelText segs) && !hasEmojiSeg segs) = true
  · left
    rw [if_pos h1] at h
    cases hf : (labelText segs).find? (fun c => !asciiAllowedCp c) with
    | some c => rw [hf] at h; simp at h
    | none =>
      intro c hc
      have h2 := List.find?_eq_none.mp hf c hc
      rw [Bool.not_eq_true', Bool.not_eq_false] at h2
      exact h2
  · rw [if_neg h1] at h
    by_cases h2 : (labelText segs).isEmpty = true
    · right; left
      exact List.isEmpty_iff.mp h2
    · right; right
      rw [if_neg h2] at h
      cases hg : resolveGroup T (labelText segs) with
      | error e => rw [hg] at h; cases h
      | ok g =>
        rw [hg] at h
        simp only at h
        by_cases h3 : (!cmLeadOk T segs) = true
        · rw [if_pos h3] at h; cases h
        · rw [if_neg h3] at h
          by_cases h4 : (!cmAfterEmojiOk T segs) = true
          · rw [if_pos h4] at h; cases h
          · rw [if_neg h4] at h
            by_cases h5 : (!g.cmAllowed && (labelText segs).any T.isCM) = true
            · rw [if_pos h5] at h; cases h
            · rw [if_neg h5] at h
              cases h6 : nsmErr T (labelText segs) with
              | some e => rw [h6] at h; cases h
              | none =>
                rw [h6] at h
                simp only at h
                cases h7 : fencedErr T.isFenced (labelText segs) with
                | some e => rw [h7] at h; cases h
                | none => exact ⟨rfl, rfl⟩

theorem infix_of_mem_flatten {l : List Nat} :
    ∀ {chunks : List (List Nat)}, l ∈ chunks → l <:+: chunks.flatten := by
  intro chunks
  induction chunks with
  | nil => intro h; cases h
  | cons c rest ih =>
    intro h
    rcases List.mem_cons.mp h with rfl | h2
    · rw [List.flatten_cons]
      exact (List.prefix_append l rest.flatten).isInfix
    · rw [List.flatten_cons]
      obtain ⟨s1, s2, hs⟩ := ih h2
      exact ⟨c ++ s1, s2, by rw [← hs]; simp [List.append_assoc]⟩

theorem mem_of_head_eq {l : List Nat} {a : Nat} (h : l.head? = some a) : a ∈ l :=
  List.mem_of_mem_head? (by rw [h]; rfl)

theorem mem_of_getLast_eq {l : List Nat} {a : Nat} (h : l.getLast? = some a) : a ∈ l := by
  obtain ⟨hne, heq⟩ := List.mem_getLast?_eq_getLast (by rw [h]; rfl)
  rw [heq]
  exact List.getLast_mem hne

theorem plainB_spec (T : RuleTables) (c : Nat) (h : plainB T c = true) :
    T.isIgnored c = false ∧ T.isDisallowed c = false := by
  unfold plainB at h
  rw [Bool.and_eq_true, Bool.and_eq_true, Bool.and_eq_true,
    Bool.not_eq_true', Bool.not_eq_true'] at h
  exact ⟨h.1.1.1, h.1.2⟩

theorem nsmErr_none (T : RuleTables) (S : List Nat) (h : nsmErr T S = none) :
    noDupAdjB T.isNSM S = true ∧ runScan T.isNSM T.nsmMax 0 S = true := by
  unfold nsmErr at h
  by_cases h1 : (!noDupAdjB T.isNSM S) = true
  · rw [if_pos h1] at h
    cases h
  · rw [if_neg h1] at h
    by_cases h2 : (!runScan T.isNSM T.nsmMax 0 S) = true
    · rw [if_pos h2] at h
      cases h
    · rw [Bool.not_eq_true, Bool.not_eq_false'] at h1 h2
      exact ⟨h1, h2⟩

theorem mem_label_cases (g : Bool) (segs : List Seg) (c : Nat)
    (h : c ∈ (segs.map (renderSeg .norm g)).flatten) :
    (∃ cs, Seg.txt cs ∈ segs ∧ c ∈ cs) ∨ (∃ e, Seg.emo e ∈ segs ∧ c ∈ e.canonical) := by
  obtain ⟨l, hl, hcl⟩ := List.mem_flatten.mp h
  obtain ⟨s, hs, hmap⟩ := List.mem_map.mp hl
  subst hmap
  cases s with
  | txt cs => exact Or.inl ⟨cs, hs, hcl⟩
  | emo e => exact Or.inr ⟨e, hs, hcl⟩

theorem txt_infix_labelText {cs : List Nat} {segs : List Seg} (h : Seg.txt cs ∈ segs) :
    cs <:+: labelText segs := by
  unfold labelText
  exact infix_of_mem_flatten (List.mem_map.mpr ⟨Seg.txt cs, h, rfl⟩)

theorem infix_label_txt (T : RuleTables) (hT : EnvOK T) (g : Bool) :
    ∀ segs : List Seg, altTxtB segs = true →
      (∀ e, Seg.emo e ∈ segs → e ∈ T.emoji) →
      ∀ u, u <:+: (segs.map (renderSeg .norm g)).flatten →
        (∀ c ∈ u, ∀ e, Seg.emo e ∈ segs → c ∉ e.canonical) →
        u = [] ∨ ∃ cs, Seg.txt cs ∈ segs ∧ u <:+: cs := by
  intro segs
  induction segs with
  | nil =>
    intro _ _ u hinf _
    rw [List.map_nil, List.flatten_nil, List.infix_nil] at hinf
    exact Or.inl hinf
  | cons s rest ih =>
    intro halt hemo u hinf havoid
    rw [List.map_cons, List.flatten_cons] at hinf
    rcases infix_append_split hinf with h1 | h1 | hsplit
    · cases s with
      | txt cs => exact Or.inr ⟨cs, List.mem_cons_self _ _, h1⟩
      | emo e =>
        cases hu : u with
        | nil => exact Or.inl rfl
        | cons d u2 =>
          exfalso
          have hd : d ∈ e.canonical := by
            have := h1.subset (by rw [hu]; exact List.mem_cons_self _ _)
            exact this
          exact havoid d (by rw [hu]; exact List.mem_cons_self _ _) e
            (List.mem_cons_self _ _) hd
    · rcases ih (altTxtB_tail s rest halt) (fun e h => hemo e (List.mem_cons_of_mem _ h)) u h1
        (fun c hc e he => havoid c hc e (List.mem_cons_of_mem _ he)) with h2 | ⟨cs, hcs, h3⟩
      · exact Or.inl h2
      · exact Or.inr ⟨cs, List.mem_cons_of_mem _ hcs, h3⟩
    · obtain ⟨t1, t2, hu, ht1ne, ht2ne, hsuf, hpre⟩ := hsplit
      exfalso
      cases s with
      | emo e =>
        cases ht1 : t1 with
        | nil => exact ht1ne ht1
        | cons d t1r =>
          have hd : d ∈ e.canonical := hsuf.subset (by rw [ht1]; exact List.mem_cons_self _ _)
          exact havoid d (by rw [hu, ht1]; exact List.mem_append_left _ (List.mem_cons_self _ _))
            e (List.mem_cons_self _ _) hd
      | txt cs =>
        cases rest with
        | nil =>
          rw [List.map_nil, List.flatten_nil] at hpre
          exact ht2ne (List.prefix_nil.mp hpre)
        | cons s2 rest2 =>
          cases s2 with
          | txt cs2 =>
            rw [altTxtB_two] at halt
            simp [Seg.isTxt] at halt
          | emo e2 =>
            have he2 : e2 ∈ T.emoji := hemo e2 (by simp)
            rw [List.map_cons, List.flatten_cons,
              show renderSeg Mode.norm g (Seg.emo e2) = e2.canonical from rfl] at hpre
            cases hcanon : e2.canonical with
            | nil => exact absurd hcanon (hT.canon_ne e2 he2)
            | cons c0 w =>
              rw [hcanon, List.cons_append] at hpre
              cases ht2 : t2 with
              | nil => exact ht2ne ht2
              | cons d t2r =>
                rw [ht2] at hpre
                obtain ⟨r, hr⟩ := hpre
                rw [List.cons_append] at hr
                injection hr with hd _
                have hmem : d ∈ e2.canonical := by
                  rw [hcanon, hd]
                  exact List.mem_cons_self _ _
                exact havoid d
                  (by rw [hu, ht2]; exact List.mem_append_right _ (List.mem_cons_self _ _))
                  e2 (by simp) hmem

theorem labelText_cons (s : Seg) (rest : List Seg) :
    labelText (s :: rest) = segTxt s ++ labelText rest := by
  unfold labelText
  rw [List.map_cons, List.flatten_cons]

theorem labelText_append (l1 l2 : List Seg) :
    labelText (l1 ++ l2) = labelText l1 ++ labelText l2 := by
  unfold labelText
  rw [List.map_append, List.flatten_append]

theorem props_of_clean (T : RuleTables) (L : List Nat)
    (hclean : ∀ c ∈ L, T.isNSM c = false ∧ T.isFenced c = false) :
    (∀ u, u <:+: L → (∀ c ∈ u, T.isNSM c = true) → u.length ≤ T.nsmMax) ∧
    (∀ c, T.isNSM c = true → ¬([c, c] <:+: L)) ∧
    (∀ c, L.head? = some c → T.isFenced c = false) ∧
    (∀ c, L.getLast? = some c → T.isFenced c = false) ∧
    (∀ a b, [a, b] <:+: L → ¬(T.isFenced a = true ∧ T.isFenced b = true)) := by
  refine ⟨?_, ?_, ?_, ?_, ?_⟩
  · intro u hinf hall
    cases hu : u with
    | nil => simp
    | cons d u2 =>
      exfalso
      have hd : d ∈ L := hinf.subset (by rw [hu]; exact List.mem_cons_self _ _)
      have h1 := (hclean d hd).1
      have h2 := hall d (by rw [hu]; exact List.mem_cons_self _ _)
      rw [h1] at h2
      cases h2
  · intro c hc hinf
    have hm : c ∈ L := hinf.subset (List.mem_cons_self _ _)
    rw [(hclean c hm).1] at hc
    cases hc
  · intro c hh
    exact (hclean c (mem_of_head_eq hh)).2
  · intro c hh
    exact (hclean c (mem_of_getLast_eq hh)).2
  · intro a b hinf hab
    have hm : a ∈ L := hinf.subset (List.mem_cons_self _ _)
    rw [(hclean a hm).2] at hab
    cases hab.1

theorem label_props (T : RuleTables) (hT : EnvOK T) (g : Bool) (segs : List Seg)
    (sel : GroupSel) (hOK : SegsOK T segs) (hchk : checkSegs T segs = .ok sel) :
    (∀ c ∈ (segs.map (renderSeg .norm g)).flatten,
        T.isIgnored c = false ∧ T.isDisallowed c = false) ∧
    (∀ u, u <:+: (segs.map (renderSeg .norm g)).flatten →
        (∀ c ∈ u, T.isNSM c = true) → u.length ≤ T.nsmMax) ∧
    (∀ c, T.isNSM c = true → ¬([c, c] <:+: (segs.map (renderSeg .norm g)).flatten)) ∧
    (∀ c, ((segs.map (renderSeg .norm g)).flatten).head? = some c → T.isFenced c = false) ∧
    (∀ c, ((segs.map (renderSeg .norm g)).flatten).getLast? = some c → T.isFenced c = false) ∧
    (∀ a b, [a, b] <:+: (segs.map (renderSeg .norm g)).flatten →
        ¬(T.isFenced a = true ∧ T.isFenced b = true)) := by
  have hP1 : ∀ c ∈ (segs.map (renderSeg .norm g)).flatten,
      T.isIgnored c = false ∧ T.isDisallowed c = false := by
    intro c hc
    rcases mem_label_cases g segs c hc with ⟨cs, hcs, hccs⟩ | ⟨e, he, hce⟩
    · exact plainB_spec T c ((hOK.2.1 cs hcs).2.2 c hccs).1
    · have h := hT.canon_clean e (hOK.2.2 e he) c hce
      exact ⟨h.1, h.2.1⟩
  rcases checkSegs_inv T segs sel hchk with hascii | hempty | ⟨hnsm, hfen⟩
  · have hclean : ∀ c ∈ (segs.map (renderSeg .norm g)).flatten,
        T.isNSM c = false ∧ T.isFenced c = false := by
      intro c hc
      rcases mem_label_cases g segs c hc with ⟨cs, hcs, hccs⟩ | ⟨e, he, hce⟩
      · exact hT.ascii_nsm_fenced c (hascii c ((txt_infix_labelText hcs).subset hccs))
      · have h := hT.canon_clean e (hOK.2.2 e he) c hce
        exact ⟨h.2.2.1, h.2.2.2⟩
    obtain ⟨p2, p3, p4, p5, p6⟩ := props_of_clean T _ hclean
    exact ⟨hP1, p2, p3, p4, p5, p6⟩
  · have hclean : ∀ c ∈ (segs.map (renderSeg .norm g)).flatten,
        T.isNSM c = false ∧ T.isFenced c = false := by
      intro c hc
      rcases mem_label_cases g segs c hc with ⟨cs, hcs, hccs⟩ | ⟨e, he, hce⟩
      · exfalso
        have h := txt_infix_labelText hcs
        rw [hempty, List.infix_nil] at h
        rw [h] at hccs
        cases hccs
      · have h := hT.canon_clean e (hOK.2.2 e he) c hce
        exact ⟨h.2.2.1, h.2.2.2⟩
    obtain ⟨p2, p3, p4, p5, p6⟩ := props_of_clean T _ hclean
    exact ⟨hP1, p2, p3, p4, p5, p6⟩
  · obtain ⟨hndup, hrun⟩ := nsmErr_none T _ hnsm
    obtain ⟨fhead, flast, fadj⟩ := fencedErr_props T.isFenced _ hfen
    refine ⟨hP1, ?_, ?_, ?_, ?_, ?_⟩
    · intro u hinf hall
      have havoid : ∀ c ∈ u, ∀ e, Seg.emo e ∈ segs → c ∉ e.canonical := by
        intro c hcu e he hce
        have h := (hT.canon_clean e (hOK.2.2 e he) c hce).2.2.1
        have h2 := hall c hcu
        rw [h] at h2
        cases h2
      rcases infix_label_txt T hT g segs hOK.1 hOK.2.2 u hinf havoid with rfl | ⟨cs, hcs, hucs⟩
      · simp
      · exact runScan_within T.isNSM T.nsmMax _ 0 hrun u
          (hucs.trans (txt_infix_labelText hcs)) hall
    · intro c hc hinf
      have hall : ∀ d ∈ ([c, c] : List Nat), T.isNSM d = true := by
        intro d hd
        rcases List.mem_cons.mp hd with rfl | hd2
        · exact hc
        · rcases List.mem_singleton.mp hd2 with rfl
          exact hc
      have havoid : ∀ d ∈ ([c, c] : List Nat), ∀ e, Seg.emo e ∈ segs → d ∉ e.canonical := by
        intro d hdu e he hde
        have h := (hT.canon_clean e (hOK.2.2 e he) d hde).2.2.1
        have h2 := hall d hdu
        rw [h] at h2
        cases h2
      rcases infix_label_txt T hT g segs hOK.1 hOK.2.2 _ hinf havoid with heq | ⟨cs, hcs, hucs⟩
      · cases heq
      · exact noDupAdj_within T.isNSM _ hndup c hc (hucs.trans (txt_infix_labelText hcs))
    · intro c hh
      cases segs with
      | nil => cases hh
      | cons s rest =>
        cases s with
        | txt cs =>
          cases hcs : cs with
          | nil => exact absurd hcs (hOK.2.1 cs (List.mem_cons_self _ _)).1
          | cons c0 cs2 =>
            rw [List.map_cons, List.flatten_cons,
              show renderSeg Mode.norm g (Seg.txt cs) = cs from rfl, hcs,
              List.cons_append, List.head?_cons] at hh
            injection hh with hc0
            subst hc0
            apply fhead
            rw [labelText_cons, show segTxt (Seg.txt cs) = cs from rfl, hcs,
              List.cons_append, List.head?_cons]
        | emo e =>
          have he : e ∈ T.emoji := hOK.2.2 e (List.mem_cons_self _ _)
          cases hcanon : e.canonical with
          | nil => exact absurd hcanon (hT.canon_ne e he)
          | cons c0 w =>
            rw [List.map_cons, List.flatten_cons,
              show renderSeg Mode.norm g (Seg.emo e) = e.canonical from rfl, hcanon,
              List.cons_append, List.head?_cons] at hh
            injection hh with hc0
            subst hc0
            exact (hT.canon_clean e he c0 (by rw [hcanon]; exact List.mem_cons_self _ _)).2.2.2
    · intro c hh
      rcases List.eq_nil_or_concat segs with rfl | ⟨init, s, hseg⟩
      · cases hh
      · rw [List.concat_eq_append] at hseg
        subst hseg
        rw [List.map_append, List.flatten_append, List.map_cons, List.map_nil,
          List.flatten_cons, List.flatten_nil, List.append_nil] at hh
        cases s with
        | txt cs =>
          have hne : cs ≠ [] :=
            (hOK.2.1 cs (List.mem_append_right _ (List.mem_cons_self _ _))).1
          rw [show renderSeg Mode.norm g (Seg.txt cs) = cs from rfl,
            List.getLast?_append_of_ne_nil _ hne] at hh
          apply flast
          rw [labelText_append, labelText_cons,
            show segTxt (Seg.txt cs) = cs from rfl]
          rw [show labelText [] = [] from rfl, List.append_nil,
            List.getLast?_append_of_ne_nil _ hne]
          exact hh
        | emo e =>
          have he : e ∈ T.emoji := hOK.2.2 e (List.mem_append_right _ (List.mem_cons_self _ _))
          rw [show renderSeg Mode.norm g (Seg.emo e) = e.canonical from rfl,
            List.getLast?_append_of_ne_nil _ (hT.canon_ne e he)] at hh
          exact (hT.canon_clean e he c (mem_of_getLast_eq hh)).2.2.2
    · intro a b hinf hab
      have havoid : ∀ d ∈ ([a, b] : List Nat), ∀ e, Seg.emo e ∈ segs → d ∉ e.canonical := by
        intro d hdu e he hde
        have h := (hT.canon_clean e (hOK.2.2 e he) d hde).2.2.2
        rcases List.mem_cons.mp hdu with rfl | hd2
        · rw [h] at hab
          cases hab.1
        · rcases List.mem_singleton.mp hd2 with rfl
          rw [h] at hab
          cases hab.2
      rcases infix_label_txt T hT g segs hOK.1 hOK.2.2 _ hinf havoid with heq | ⟨cs, hcs, hucs⟩
      · cases heq
      · exact fadj a b (hucs.trans (txt_infix_labelText hcs)) hab

theorem infix_joinDots : ∀ (Ls : List (List Nat)) u, u <:+: joinDots Ls →
    (∀ c ∈ u, c ≠ 0x2E) → u = [] ∨ ∃ l ∈ Ls, u <:+: l := by
  intro Ls
  induction Ls with
  | nil =>
    intro u hinf _
    rw [show joinDots [] = [] from rfl, List.infix_nil] at hinf
    exact Or.inl hinf
  | cons l rest ih =>
    cases rest with
    | nil =>
      intro u hinf _
      exact Or.inr ⟨l, List.mem_cons_self _ _, hinf⟩
    | cons r rest2 =>
      intro u hinf hno
      rw [show joinDots (l :: r :: rest2) = l ++ 0x2E :: joinDots (r :: rest2) from rfl] at hinf
      rcases infix_append_split hinf with h1 | h1 | ⟨t1, t2, hu, ht1, ht2, hs, hp⟩
      · exact Or.inr ⟨l, List.mem_cons_self _ _, h1⟩
      · rcases List.infix_cons_iff.mp h1 with hpre | htail
        · cases hue : u with
          | nil => exact Or.inl rfl
          | cons d u2 =>
            exfalso
            rw [hue] at hpre
            obtain ⟨rr, hrr⟩ := hpre
            rw [List.cons_append] at hrr
            injection hrr with hd _
            exact hno d (by rw [hue]; exact List.mem_cons_self _ _) hd
        · rcases ih u htail hno with h2 | ⟨l2, hl2, h3⟩
          · exact Or.inl h2
          · exact Or.inr ⟨l2, List.mem_cons_of_mem _ hl2, h3⟩
      · exfalso
        cases ht2e : t2 with
        | nil => exact ht2 ht2e
        | cons d t2r =>
          rw [ht2e] at hp
          obtain ⟨rr, hrr⟩ := hp
          rw [List.cons_append] at hrr
          injection hrr with hd _
          exact hno d (by rw [hu, ht2e]; exact List.mem_append_right _ (List.mem_cons_self _ _)) hd

theorem splitSepCore_sepFree : ∀ l : List Nat, (∀ c ∈ l, c ≠ 0x2E) →
    splitSepCore l = [l] := by
  intro l
  induction l with
  | nil => intro _; rfl
  | cons c rest ih =>
    intro hno
    have hc : (c == 0x2E) = false := by
      rw [beq_eq_false_iff_ne, ne_eq]
      exact hno c (List.mem_cons_self _ _)
    unfold splitSepCore
    rw [hc]
    simp only [Bool.false_eq_true, if_false]
    rw [ih (fun d hd => hno d (List.mem_cons_of_mem _ hd))]

theorem splitSepCore_append : ∀ l s : List Nat, (∀ c ∈ l, c ≠ 0x2E) →
    ∀ x xs, splitSepCore s = x :: xs → splitSepCore (l ++ s) = (l ++ x) :: xs := by
  intro l
  induction l with
  | nil =>
    intro s _ x xs hs
    rw [List.nil_append, List.nil_append]
    exact hs
  | cons c l2 ih =>
    intro s hno x xs hs
    have hc : (c == 0x2E) = false := by
      rw [beq_eq_false_iff_ne, ne_eq]
      exact hno c (List.mem_cons_self _ _)
    rw [List.cons_append]
    unfold splitSepCore
    rw [hc]
    simp only [Bool.false_eq_true, if_false]
    rw [ih s (fun d hd => hno d (List.mem_cons_of_mem _ hd)) x xs hs, List.cons_append]

theorem splitSepCore_joinDots : ∀ Ls : List (List Nat), Ls ≠ [] →
    (∀ l ∈ Ls, ∀ c ∈ l, c ≠ 0x2E) → splitSepCore (joinDots Ls) = Ls := by
  intro Ls
  induction Ls with
  | nil => intro h; exact absurd rfl h
  | cons l rest ih =>
    cases rest with
    | nil =>
      intro _ hno
      exact splitSepCore_sepFree l (hno l (List.mem_cons_self _ _))
    | cons r rest2 =>
      intro _ hno
      rw [show joinDots (l :: r :: rest2) = l ++ 0x2E :: joinDots (r :: rest2) from rfl]
      have hrec : splitSepCore (joinDots (r :: rest2)) = r :: rest2 :=
        ih (fun h => by cases h) (fun l2 h2 => hno l2 (List.mem_cons_of_mem _ h2))
      have hsep : splitSepCore (0x2E :: joinDots (r :: rest2))
          = [] :: splitSepCore (joinDots (r :: rest2)) := rfl
      rw [splitSepCore_append l _ (hno l (List.mem_cons_self _ _)) [] (r :: rest2)
        (by rw [hsep, hrec]), List.append_nil]

theorem plainB_no_emoji (T : RuleTables) (c : Nat) (h : plainB T c = true) :
    emojiCpB T c = false := by
  unfold plainB at h
  rw [Bool.and_eq_true, Bool.not_eq_true'] at h
  exact h.2

theorem canon_ne_sep (T : RuleTables) (hT : EnvOK T) (e : EmojiEntry) (he : e ∈ T.emoji) :
    ∀ c ∈ e.canonical, c ≠ 0x2E := by
  intro c hc heq
  obtain ⟨f, hf, hp⟩ := hT.canon_ex e he
  have h : emojiCpB T c = true := emojiCpB_of_mem T hf (by rw [hp]; exact hc)
  rw [heq, plainB_no_emoji T 0x2E hT.sep_plain] at h
  cases h

/-- C4: output invariants.  A successful normalize output contains no
ignored and no disallowed codepoint; no all-NSM infix is longer than the
configured maximum and no NSM is repeated adjacently; and no label of
the output starts or ends with a fenced codepoint or contains two
adjacent fenced codepoints. -/
theorem c4_output_invariants (T : RuleTables) (hT : EnvOK T) (x y : List Nat)
    (h : normalizeStr T x = some y) :
    ∃ out, utf8Decode y = some out ∧
      (∀ c ∈ out, T.isIgnored c = false ∧ T.isDisallowed c = false) ∧
      (∀ u, u <:+: out → (∀ c ∈ u, T.isNSM c = true) → u.length ≤ T.nsmMax) ∧
      (∀ c, T.isNSM c = true → ¬([c, c] <:+: out)) ∧
      (∀ lab ∈ splitSepCore out,
        (∀ c, lab.head? = some c → T.isFenced c = false) ∧
        (∀ c, lab.getLast? = some c → T.isFenced c = false) ∧
        (∀ a b, [a, b] <:+: lab → ¬(T.isFenced a = true ∧ T.isFenced b = true))) := by
  unfold normalizeStr normalizeCps at h
  cases hd : utf8Decode x with
  | none => rw [hd] at h; cases h
  | some cps =>
    rw [hd] at h
    simp only at h
    cases hp : pipeline T cps with
    | error e => rw [hp] at h; simp at h
    | ok ls =>
      rw [hp] at h
      simp only [Option.some.injEq] at h
      have hsc : ∀ c ∈ cps, ScalarCp c := utf8Decode_scalar x.length x cps (le_refl _) hd
      have hlab := pipeline_labels_ok T hT cps ls hsc hp
      have hout : ∀ c ∈ renderAll .norm ls, ScalarCp c :=
        renderAll_scalar T hT .norm ls (fun v hv => (hlab v hv).1)
      have hd2 : utf8Decode y = some (renderAll .norm ls) := by
        rw [← h]
        exact utf8_roundtrip _ hout
      have lp : ∀ v ∈ ls,
          (∀ c ∈ renderLabel .norm v, T.isIgnored c = false ∧ T.isDisallowed c = false) ∧
          (∀ u, u <:+: renderLabel .norm v → (∀ c ∈ u, T.isNSM c = true) →
            u.length ≤ T.nsmMax) ∧
          (∀ c, T.isNSM c = true → ¬([c, c] <:+: renderLabel .norm v)) ∧
          (∀ c, (renderLabel .norm v).head? = some c → T.isFenced c = false) ∧
          (∀ c, (renderLabel .norm v).getLast? = some c → T.isFenced c = false) ∧
          (∀ a b, [a, b] <:+: renderLabel .norm v →
            ¬(T.isFenced a = true ∧ T.isFenced b = true)) := by
        intro v hv
        exact label_props T hT v.greek v.segs v.sel (hlab v hv).1 (hlab v hv).2.2
      refine ⟨renderAll .norm ls, hd2, ?_, ?_, ?_, ?_⟩
      · intro c hc
        rcases joinDots_mem _ c hc with ⟨l, hl, hcl⟩ | rfl
        · obtain ⟨v, hv, hmap⟩ := List.mem_map.mp hl
          subst hmap
          exact (lp v hv).1 c hcl
        · exact plainB_spec T 0x2E hT.sep_plain
      · intro u hinf hall
        have hno : ∀ c ∈ u, c ≠ 0x2E := by
          intro c hcu heq
          have h2 := hall c hcu
          rw [heq, hT.sep_not_nsm] at h2
          cases h2
        rcases infix_joinDots _ u hinf hno with rfl | ⟨l, hl, hul⟩
        · simp
        · obtain ⟨v, hv, hmap⟩ := List.mem_map.mp hl
          subst hmap
          exact (lp v hv).2.1 u hul hall
      · intro c hc hinf
        have hno : ∀ d ∈ ([c, c] : List Nat), d ≠ 0x2E := by
          intro d hd heq
          rcases List.mem_cons.mp hd with rfl | hd2
          · rw [heq, hT.sep_not_nsm] at hc
            cases hc
          · rcases List.mem_singleton.mp hd2 with rfl
            rw [heq, hT.sep_not_nsm] at hc
            cases hc
        rcases infix_joinDots _ _ hinf hno with heq | ⟨l, hl, hul⟩
        · cases heq
        · obtain ⟨v, hv, hmap⟩ := List.mem_map.mp hl
          subst hmap
          exact (lp v hv).2.2.1 c hc hul
      · cases hls : ls with
        | nil =>
          intro lab hlab2
          rw [show renderAll Mode.norm ([] : List VLabel) = [] from rfl] at hlab2
          rcases List.mem_singleton.mp hlab2 with rfl
          refine ⟨?_, ?_, ?_⟩
          · intro c hcc
            cases hcc
          · intro c hcc
            cases hcc
          · intro a b h2
            rw [List.infix_nil] at h2
            cases h2
        | cons v0 rest =>
          rw [← hls]
          have hsplit : splitSepCore (renderAll .norm ls) = ls.map (renderLabel .norm) := by
            apply splitSepCore_joinDots
            · rw [hls]
              simp
            · intro l hl c hcl
              obtain ⟨v, hv, hmap⟩ := List.mem_map.mp hl
              subst hmap
              rcases mem_label_cases v.greek v.segs c hcl with ⟨cs, hcs, hccs⟩ | ⟨e, he, hce⟩
              · exact (((hlab v hv).1.2.1 cs hcs).2.2 c hccs).2.2
              · exact canon_ne_sep T hT e ((hlab v hv).1.2.2 e he) c hce
          rw [hsplit]
          intro lab hlab2
          obtain ⟨v, hv, hmap⟩ := List.mem_map.mp hlab2
          subst hmap
          exact ⟨(lp v hv).2.2.2.1, (lp v hv).2.2.2.2.1, (lp v hv).2.2.2.2.2⟩

/-- C4 witness: the output `"ab"` of normalizing `"Ab"` satisfies the
ignored/disallowed, NSM and fenced output invariants. -/
theorem c4_output_invariants_witness :
    normalizeStr envA [0x41, 0x62] = some [0x61, 0x62] ∧
    ∃ out, utf8Decode [0x61, 0x62] = some out ∧
      (∀ c ∈ out, envA.isIgnored c = false ∧ envA.isDisallowed c = false) ∧
      (∀ u, u <:+: out → (∀ c ∈ u, envA.isNSM c = true) → u.length ≤ envA.nsmMax) ∧
      (∀ c, envA.isNSM c = true → ¬([c, c] <:+: out)) ∧
      (∀ lab ∈ splitSepCore out,
        (∀ c, lab.head? = some c → envA.isFenced c = false) ∧
        (∀ c, lab.getLast? = some c → envA.isFenced c = false) ∧
        (∀ a b, [a, b] <:+: lab →
          ¬(envA.isFenced a = true ∧ envA.isFenced b = true))) :=
  ⟨by decide, c4_output_invariants envA envA_ok [0x41, 0x62] [0x61, 0x62] (by decide)⟩

/-! ## The norm output as a projection of the beaut output -/

theorem map_id_of (l : List Nat) (f : Nat → Nat) (h : ∀ c ∈ l, f c = c) :
    l.map f = l := by
  induction l with
  | nil => rfl
  | cons c rest ih =>
    rw [List.map_cons, h c (List.mem_cons_self _ _),
      ih (fun d hd => h d (List.mem_cons_of_mem _ hd))]

theorem filter_id_of (l : List Nat) (p : Nat → Bool) (h : ∀ c ∈ l, p c = true) :
    l.filter p = l := by
  induction l with
  | nil => rfl
  | cons c rest ih =>
    rw [List.filter_cons_of_pos (h c (List.mem_cons_self _ _)),
      ih (fun d hd => h d (List.mem_cons_of_mem _ hd))]

theorem plainB_mapped_none (T : RuleTables) (c : Nat) (h : plainB T c = true) :
    (T.mapped c).isNone = true := by
  unfold plainB at h
  rw [Bool.and_eq_true, Bool.and_eq_true, Bool.and_eq_true] at h
  exact h.1.1.2

theorem outCp_ne_fe0f (T : RuleTables) (hT : EnvOK T) (c : Nat) (h : OutCp T c) :
    (c != 0xFE0F) = true := by
  rw [bne_iff_ne, ne_eq]
  intro heq
  subst heq
  have h2 := h.1
  rw [hT.fe0f_not_plain] at h2
  cases h2

theorem outCp_ne_xi (T : RuleTables) (hT : EnvOK T) (c : Nat) (h : OutCp T c) :
    c ≠ 0x39E := by
  intro heq
  have h2 := plainB_mapped_none T c h.1
  rw [heq, hT.xi_map] at h2
  cases h2

theorem outCp_xiDown (T : RuleTables) (hT : EnvOK T) (c : Nat) (h : OutCp T c) :
    xiDown c = c := by
  unfold xiDown
  rw [show (c == 0x39E) = false from by
    rw [beq_eq_false_iff_ne, ne_eq]; exact outCp_ne_xi T hT c h]
  rfl

theorem canon_xiDown (T : RuleTables) (hT : EnvOK T) (e : EmojiEntry) (he : e ∈ T.emoji) :
    ∀ c ∈ e.canonical, xiDown c = c := by
  intro c hc
  obtain ⟨f, hf, hp⟩ := hT.canon_ex e he
  have h : emojiCpB T c = true := emojiCpB_of_mem T hf (by rw [hp]; exact hc)
  unfold xiDown
  rw [show (c == 0x39E) = false from by
    rw [beq_eq_false_iff_ne, ne_eq]
    intro heq
    rw [heq, hT.xi_not_emoji] at h
    cases h]
  rfl

theorem segs_beaut_norm (T : RuleTables) (hT : EnvOK T) (g : Bool) :
    ∀ segs : List Seg,
      (∀ cs, Seg.txt cs ∈ segs → ∀ c ∈ cs, OutCp T c) →
      (∀ e, Seg.emo e ∈ segs → e ∈ T.emoji) →
      (segs.map (renderSeg .norm g)).flatten
        = (((segs.map (renderSeg .beaut g)).flatten).filter
            (fun c => c != 0xFE0F)).map xiDown := by
  intro segs
  induction segs with
  | nil =>
    intro _ _
    rfl
  | cons s rest ih =>
    intro htxt hemo
    rw [List.map_cons, List.map_cons, List.flatten_cons, List.flatten_cons,
      List.filter_append, List.map_append,
      ih (fun cs h => htxt cs (List.mem_cons_of_mem _ h))
        (fun e h => hemo e (List.mem_cons_of_mem _ h))]
    congr 1
    cases s with
    | txt cs =>
      have hout : ∀ c ∈ cs, OutCp T c := htxt cs (List.mem_cons_self _ _)
      rw [renderSeg_txt_norm, renderSeg_txt_beaut]
      by_cases hg : g = true
      · rw [if_pos hg]
        rw [filter_id_of _ _ (by
          intro d hd
          obtain ⟨c, hc, hmap⟩ := List.mem_map.mp hd
          subst hmap
          unfold xiSwap
          by_cases hxi : (c == 0x3BE) = true
          · rw [if_pos hxi]
            decide
          · rw [if_neg hxi]
            exact outCp_ne_fe0f T hT c (hout c hc))]
        rw [List.map_map]
        rw [map_id_of _ _ (by
          intro c hc
          show xiDown (xiSwap c) = c
          unfold xiSwap
          by_cases hxi : (c == 0x3BE) = true
          · rw [if_pos hxi]
            rw [show xiDown 0x39E = 0x3BE from rfl]
            rw [beq_iff_eq] at hxi
            exact hxi.symm
          · rw [if_neg hxi]
            exact outCp_xiDown T hT c (hout c hc))]
      · rw [if_neg hg]
        rw [filter_id_of _ _ (fun c hc => outCp_ne_fe0f T hT c (hout c hc)),
          map_id_of _ _ (fun c hc => outCp_xiDown T hT c (hout c hc))]
    | emo e =>
      have he : e ∈ T.emoji := hemo e (List.mem_cons_self _ _)
      rw [renderSeg_emo_norm, renderSeg_emo_beaut, ← hT.canon_filter e he,
        map_id_of _ _ (canon_xiDown T hT e he)]

theorem renderAll_beaut_norm (T : RuleTables) (hT : EnvOK T) :
    ∀ ls : List VLabel, (∀ v ∈ ls, SegsOK T v.segs) →
      renderAll .norm ls
        = ((renderAll .beaut ls).filter (fun c => c != 0xFE0F)).map xiDown := by
  intro ls
  induction ls with
  | nil =>
    intro _
    rfl
  | cons v tail ih =>
    intro hOK
    have hv := hOK v (List.mem_cons_self _ _)
    cases tail with
    | nil =>
      show renderLabel .norm v
        = ((renderLabel .beaut v).filter (fun c => c != 0xFE0F)).map xiDown
      exact segs_beaut_norm T hT v.greek v.segs
        (fun cs h => (hv.2.1 cs h).2.2) hv.2.2
    | cons r rest =>
      have hL : renderAll .norm (v :: r :: rest)
          = renderLabel .norm v ++ 0x2E :: renderAll .norm (r :: rest) := rfl
      have hR : renderAll .beaut (v :: r :: rest)
          = renderLabel .beaut v ++ 0x2E :: renderAll .beaut (r :: rest) := rfl
      rw [hL, hR, List.filter_append, List.map_append]
      congr 1
      · exact segs_beaut_norm T hT v.greek v.segs
          (fun cs h => (hv.2.1 cs h).2.2) hv.2.2
      · rw [List.filter_cons_of_pos (by decide), List.map_cons,
          show xiDown 0x2E = 0x2E from rfl,
          ih (fun w hw => hOK w (List.mem_cons_of_mem _ hw))]

/-- C9: normalize and beautify coincide up to the emoji projection and
the Greek-xi rule.  Whenever both succeed on the same input, the
normalized codepoints are obtained from the beautified codepoints by
dropping `FE0F` (the emoji projection difference) and undoing the xi
substitution (`39E` back to `3BE`); every other codepoint is identical. -/
theorem c9_norm_beaut_relation (T : RuleTables) (hT : EnvOK T) (x nB bB : List Nat)
    (hn : normalizeStr T x = some nB) (hb : beautifyStr T x = some bB) :
    ∃ n b, utf8Decode nB = some n ∧ utf8Decode bB = some b ∧
      n = (b.filter (fun c => c != 0xFE0F)).map xiDown := by
  unfold normalizeStr normalizeCps at hn
  unfold beautifyStr beautifyCps at hb
  cases hd : utf8Decode x with
  | none => rw [hd] at hn; cases hn
  | some cps =>
    rw [hd] at hn hb
    simp only at hn hb
    cases hp : pipeline T cps with
    | error e =>
      rw [hp] at hn
      simp at hn
    | ok ls =>
      rw [hp] at hn hb
      simp only [Option.some.injEq] at hn hb
      have hsc : ∀ c ∈ cps, ScalarCp c := utf8Decode_scalar x.length x cps (le_refl _) hd
      have hlab := pipeline_labels_ok T hT cps ls hsc hp
      have hnsc : ∀ c ∈ renderAll .norm ls, ScalarCp c :=
        renderAll_scalar T hT .norm ls (fun v hv => (hlab v hv).1)
      have hbsc : ∀ c ∈ renderAll .beaut ls, ScalarCp c :=
        renderAll_scalar T hT .beaut ls (fun v hv => (hlab v hv).1)
      refine ⟨renderAll .norm ls, renderAll .beaut ls, ?_, ?_, ?_⟩
      · rw [← hn]
        exact utf8_roundtrip _ hnsc
      · rw [← hb]
        exact utf8_roundtrip _ hbsc
      · exact renderAll_beaut_norm T hT ls (fun v hv => (hlab v hv).1)

/-- C9 witness: on the mage-emoji name the normalized codepoints are the
FE0F-filtered, xi-unchanged beautified codepoints. -/
theorem c9_norm_beaut_relation_witness :
    normalizeStr envA mageInput
      = some [0xF0, 0x9F, 0xA7, 0x99, 0xE2, 0x80, 0x8D, 0xE2, 0x99, 0x82,
          0x2E, 0x65, 0x74, 0x68] ∧
    beautifyStr envA mageInput = some mageInput ∧
    ∃ n b, utf8Decode [0xF0, 0x9F, 0xA7, 0x99, 0xE2, 0x80, 0x8D, 0xE2, 0x99, 0x82,
          0x2E, 0x65, 0x74, 0x68] = some n ∧
      utf8Decode mageInput = some b ∧
      n = (b.filter (fun c => c != 0xFE0F)).map xiDown :=
  ⟨by decide, by decide,
    c9_norm_beaut_relation envA envA_ok mageInput _ _ (by decide) (by decide)⟩

/-! ## Empty-label rejection -/

theorem splitCore_cons_sep (a : Atom) (rest : List Atom) (h : a.isSep = true) :
    splitCore (a :: rest) = [] :: splitCore rest := by
  cases a with
  | text c =>
    have hc : c = 0x2E := by
      rw [show (Atom.text c).isSep = (c == 0x2E) from rfl, beq_iff_eq] at h
      exact h
    subst hc
    rfl
  | emoji e =>
    rw [show (Atom.emoji e).isSep = false from rfl] at h
    cases h

theorem splitCore_sepEnd : ∀ init : List Atom,
    splitCore (init ++ [Atom.text 0x2E]) = splitCore init ++ [[]] := by
  intro init
  induction init with
  | nil =>
    rw [List.nil_append]
    rfl
  | cons a init2 ih =>
    by_cases ha : a.isSep = true
    · rw [List.cons_append, splitCore_cons_sep a _ ha, splitCore_cons_sep a _ ha, ih,
        List.cons_append]
    · have ha2 : a.isSep = false := eq_false_of_ne_true ha
      rw [List.cons_append, splitCore_cons_notSep a _ ha2, splitCore_cons_notSep a _ ha2]
      cases h2 : splitCore init2 with
      | nil => exact absurd h2 (splitCore_ne_nil init2)
      | cons l ls =>
        rw [ih, h2, List.cons_append]
        rfl

theorem mem_tail_splitCore : ∀ (p t : List Atom) (piece : List Atom),
    piece ∈ (splitCore t).tail → piece ∈ (splitCore (p ++ t)).tail := by
  intro p
  induction p with
  | nil =>
    intro t piece h
    rwa [List.nil_append]
  | cons a p2 ih =>
    intro t piece h
    rw [List.cons_append]
    by_cases ha : a.isSep = true
    · rw [splitCore_cons_sep a _ ha]
      exact List.mem_of_mem_tail (ih t piece h)
    · rw [splitCore_cons_notSep a _ (eq_false_of_ne_true ha)]
      cases h2 : splitCore (p2 ++ t) with
      | nil => exact absurd h2 (splitCore_ne_nil _)
      | cons l ls =>
        have h3 := ih t piece h
        rw [h2] at h3
        exact h3

theorem forall₂_mem_left {α β : Type} {R : α → β → Prop} :
    ∀ {xs : List α} {ys : List β}, List.Forall₂ R xs ys → ∀ x ∈ xs, ∃ y ∈ ys, R x y := by
  intro xs ys h
  induction h with
  | nil => intro x hx; cases hx
  | cons hab hrest ih =>
    intro x hx
    rcases List.mem_cons.mp hx with rfl | h2
    · exact ⟨_, List.mem_cons_self _ _, hab⟩
    · obtain ⟨y, hy, hr⟩ := ih x h2
      exact ⟨y, List.mem_cons_of_mem _ hy, hr⟩

theorem mapExcept_ok_mem {α β : Type} {f : α → Except Err β} {l : List α} {ys : List β}
    (h : mapExcept f l = .ok ys) : ∀ x ∈ l, ∃ y, f x = .ok y := by
  intro x hx
  obtain ⟨y, _, hr⟩ := forall₂_mem_left (mapExcept_ok_inv h) x hx
  exact ⟨y, hr⟩

theorem mapExcept_error_at {α β : Type} {f : α → Except Err β} :
    ∀ (pre : List α) (bad : α) (rest : List α) (e : Err),
      (∀ l ∈ pre, ∃ v, f l = .ok v) → f bad = .error e →
      mapExcept f (pre ++ bad :: rest) = .error e := by
  intro pre
  induction pre with
  | nil =>
    intro bad rest e _ hbad
    rw [List.nil_append]
    unfold mapExcept
    simp only [hbad]
  | cons a pre2 ih =>
    intro bad rest e hok hbad
    obtain ⟨v, hv⟩ := hok a (List.mem_cons_self _ _)
    rw [List.cons_append]
    unfold mapExcept
    simp only [hv, ih bad rest e (fun l hl => hok l (List.mem_cons_of_mem _ hl)) hbad]

/-- C7 (amended): empty labels are rejected.  For every valid-UTF-8
input whose tokenization succeeds and whose post-mapping atom stream
has a leading, trailing, or doubled label separator, normalization
fails and the ABI returns `-3` with no best-effort output; the error is
precisely `EmptyLabel` when the stream begins with the separator, and
more generally whenever every label before the first empty one is
valid. -/
theorem c7_empty_labels_amended (T : RuleTables) (x cps : List Nat) (atoms : List Atom)
    (hd : utf8Decode x = some cps) (htok : tokenize T cps = .ok atoms)
    (hshape : (∃ rest, atoms = Atom.text 0x2E :: rest) ∨
      (∃ init, atoms = init ++ [Atom.text 0x2E]) ∨
      (∃ p q, atoms = p ++ Atom.text 0x2E :: Atom.text 0x2E :: q)) :
    (∃ e, pipeline T cps = .error e) ∧
    normalizeStr T x = none ∧
    (∀ cap, ens_normalize T x cap = ⟨-3, [], cap⟩) ∧
    (∀ rest, atoms = Atom.text 0x2E :: rest → pipeline T cps = .error .emptyLabel) ∧
    (∀ pre rest, splitAtoms atoms = pre ++ [] :: rest →
      (∀ piece ∈ pre, ∃ v, validateLabel T piece = .ok v) →
      pipeline T cps = .error .emptyLabel) := by
  have hne : atoms ≠ [] := by
    rcases hshape with ⟨r, rfl⟩ | ⟨i, rfl⟩ | ⟨p, q, rfl⟩
    · exact fun h => by cases h
    · intro h
      rcases List.append_eq_nil.mp h with ⟨-, h2⟩
      cases h2
    · intro h
      rcases List.append_eq_nil.mp h with ⟨-, h2⟩
      cases h2
  have hie : atoms.isEmpty = false := by
    cases hA : atoms with
    | nil => exact absurd hA hne
    | cons a l => rfl
  have hsplit : splitAtoms atoms = splitCore atoms := by
    unfold splitAtoms
    simp only [hie, Bool.false_eq_true, if_false]
  have hmem : ([] : List Atom) ∈ splitAtoms atoms := by
    rw [hsplit]
    rcases hshape with ⟨r, rfl⟩ | ⟨i, rfl⟩ | ⟨p, q, rfl⟩
    · rw [splitCore_cons_sep _ _ (by decide)]
      exact List.mem_cons_self _ _
    · rw [splitCore_sepEnd]
      exact List.mem_append_right _ (List.mem_cons_self _ _)
    · apply List.mem_of_mem_tail
      apply mem_tail_splitCore p (Atom.text 0x2E :: Atom.text 0x2E :: q) []
      rw [splitCore_cons_sep _ _ (by decide)]
      show ([] : List Atom) ∈ splitCore (Atom.text 0x2E :: q)
      rw [splitCore_cons_sep _ _ (by decide)]
      exact List.mem_cons_self _ _
  have hA : ∃ e, pipeline T cps = .error e := by
    cases hP : mapExcept (validateLabel T) (splitAtoms atoms) with
    | error e =>
      refine ⟨e, ?_⟩
      unfold pipeline
      simp only [htok]
      exact hP
    | ok ys =>
      exfalso
      obtain ⟨v, hv⟩ := mapExcept_ok_mem hP [] hmem
      rw [show validateLabel T [] = .error .emptyLabel from rfl] at hv
      cases hv
  obtain ⟨e0, hE⟩ := hA
  have hB : normalizeStr T x = none := by
    unfold normalizeStr normalizeCps
    simp only [hd, hE]
  have hC : ∀ cap, ens_normalize T x cap = ⟨-3, [], cap⟩ := by
    intro cap
    show abiCall (normalizeStr T x) cap = _
    rw [hB]
    rfl
  refine ⟨⟨e0, hE⟩, hB, hC, ?_, ?_⟩
  · intro rest hA2
    unfold pipeline
    simp only [htok]
    subst hA2
    rw [hsplit, splitCore_cons_sep _ _ (by decide)]
    unfold mapExcept
    simp only [show validateLabel T [] = .error .emptyLabel from rfl]
  · intro pre rest hsp hok
    unfold pipeline
    simp only [htok]
    rw [hsp]
    exact mapExcept_error_at pre [] rest .emptyLabel hok rfl

/-- C7 counterexample: the input `"._"` has a leading label separator
after mapping, yet normalization fails with `DisallowedCharacter 0x5F`
(found by the tokenizer before any label is validated), not
`EmptyLabel`; the ABI still returns `-3` with no output. -/
theorem c7_empty_label_counterexample :
    utf8Decode [0x2E, 0x5F] = some [0x2E, 0x5F] ∧
    pipeline envA [0x2E, 0x5F] = .error (.disallowedCharacter 0x5F) ∧
    Err.disallowedCharacter 0x5F ≠ Err.emptyLabel ∧
    (∀ cap, ens_normalize envA [0x2E, 0x5F] cap = ⟨-3, [], cap⟩) := by
  refine ⟨rfl, rfl, by decide, fun cap => ?_⟩
  show abiCall (normalizeStr envA [0x2E, 0x5F]) cap = _
  rw [show normalizeStr envA [0x2E, 0x5F] = none from rfl]
  rfl

/-- C7 witness: `".eth"` tokenizes to a stream with a leading separator;
the amended theorem yields failure with `EmptyLabel` and the `-3`
return with no output. -/
theorem c7_empty_labels_amended_witness :
    utf8Decode [0x2E, 0x65, 0x74, 0x68] = some [0x2E, 0x65, 0x74, 0x68] ∧
    tokenize envA [0x2E, 0x65, 0x74, 0x68]
      = .ok [Atom.text 0x2E, Atom.text 0x65, Atom.text 0x74, Atom.text 0x68] ∧
    normalizeStr envA [0x2E, 0x65, 0x74, 0x68] = none ∧
    ens_normalize envA [0x2E, 0x65, 0x74, 0x68] 16 = ⟨-3, [], 16⟩ ∧
    pipeline envA [0x2E, 0x65, 0x74, 0x68] = .error .emptyLabel := by
  have H := c7_empty_labels_amended envA [0x2E, 0x65, 0x74, 0x68] [0x2E, 0x65, 0x74, 0x68]
    [Atom.text 0x2E, Atom.text 0x65, Atom.text 0x74, Atom.text 0x68] rfl rfl
    (Or.inl ⟨[Atom.text 0x65, Atom.text 0x74, Atom.text 0x68], rfl⟩)
  exact ⟨rfl, rfl, H.2.1, H.2.2.1 16, H.2.2.2.1 _ rfl⟩

end EnsNorm
